import Mathlib

/-!
Verification of the graft-to incremental graph-construction engine.

The definitions below are a shallow embedding of the TypeScript source:
  * `src/lib/graph/parser.ts`  — reference extraction, `buildGraphData`,
    `rebuildNodeRelationships`, `calculateNodeColor`;
  * `src/lib/graph/fetcher.ts` — `CraftGraphFetcher.buildGraphIncremental`
    (snapshot diff, deletion, per-document patching, final recount);
  * `src/scripts/build-demo-graph.ts` — `extractHashtags`.

JavaScript `Map` objects are modelled as association lists with JS `Map`
semantics (`set` overwrites the value at the first occurrence of the key and
otherwise appends; iteration is in insertion order).  JS `Set` objects are
modelled as duplicate-free lists in insertion order.  Optional / falsy
string fields are modelled with `Option String` plus explicit truthiness
helpers mirroring the `||` and `&&` operators of the source.  Network
fetches are modelled as oracle functions passed in as arguments; a throwing
fetch is an `Except.error`.  Fields of the source records that the graph
logic never consults (e.g. `CraftBlock.type`, `textStyle`) are omitted.
-/

set_option autoImplicit false

namespace Graft

/-- JS `a || b` for an optional string `a` (`undefined` and `""` are falsy). -/
def jsOr (o : Option String) (d : String) : String :=
  match o with
  | none => d
  | some s => if s = "" then d else s

/-- JS truthiness of an optional string (`undefined` and `""` are falsy). -/
def strTruthy (o : Option String) : Bool :=
  match o with
  | none => false
  | some s => !(s == "")

/-- JS truthiness of an optional boolean (`undefined` is falsy). -/
def boolTruthy (o : Option Bool) : Bool :=
  match o with
  | none => false
  | some b => b

/-! ### Association lists with JS `Map` semantics -/

/-- JS `Map.get`. -/
def alGet {α : Type} : List (String × α) → String → Option α
  | [], _ => none
  | (k, v) :: rest, s => if k = s then some v else alGet rest s

/-- JS `Map.has`. -/
def alHas {α : Type} (m : List (String × α)) (s : String) : Bool :=
  (alGet m s).isSome

/-- JS `Map.set`: overwrite the value at the first occurrence of the key,
keeping its position; append a new entry otherwise. -/
def alSet {α : Type} : List (String × α) → String → α → List (String × α)
  | [], k, v => [(k, v)]
  | (k', v') :: rest, k, v =>
    if k' = k then (k', v) :: rest else (k', v') :: alSet rest k v

/-- Mutating the object stored under a key (a no-op when the key is absent),
as JS code does through the reference returned by `Map.get`. -/
def alUpdate {α : Type} : List (String × α) → String → (α → α) → List (String × α)
  | [], _, _ => []
  | (k', v) :: rest, k, f =>
    if k' = k then (k', f v) :: rest else (k', v) :: alUpdate rest k f

/-- JS `Map.delete` (removes the key's entry; a well-formed `Map` holds at
most one entry per key). -/
def alDelete {α : Type} : List (String × α) → String → List (String × α)
  | [], _ => []
  | (k', v) :: rest, k =>
    if k' = k then alDelete rest k else (k', v) :: alDelete rest k

/-- JS `Map.values()` in insertion order. -/
def alValues {α : Type} (m : List (String × α)) : List α :=
  m.map Prod.snd

/-- The keys of an association list, in order. -/
def alKeys {α : Type} (m : List (String × α)) : List String :=
  m.map Prod.fst

/-- A JS `Map` never holds two entries with the same key; association lists
reachable from `Map` operations satisfy this invariant. -/
def alNodupKeys {α : Type} (m : List (String × α)) : Prop :=
  (m.map Prod.fst).Nodup

/-- JS `Set.add` on a set modelled as a duplicate-free list. -/
def sAdd (s : List String) (x : String) : List String :=
  if x ∈ s then s else s ++ [x]

/-- Fueled worker for `setDedup`; one element is consumed per step and
filtering only shortens the list, so fuel `l.length` never runs out. -/
def setDedupFuel : Nat → List String → List String
  | _, [] => []
  | 0, l => l
  | fuel + 1, x :: xs => x :: setDedupFuel fuel (xs.filter (fun y => !(y == x)))

/-- JS `new Set(list)`: deduplication keeping the first occurrence. -/
def setDedup (l : List String) : List String :=
  setDedupFuel l.length l

/-! ### Data model (`src/lib/graph/types.ts`) -/

/-- `GraphNode.type`: `'document' | 'block'`. -/
inductive NodeType where
  | document
  | block
deriving DecidableEq, Repr

/-- `GraphNode` of `types.ts` (optional fields are `Option`; absent on
creation). -/
structure GraphNode where
  id : String
  title : String
  type : NodeType
  linkCount : Nat
  color : Option String := none
  linksTo : Option (List String) := none
  linkedFrom : Option (List String) := none
  clickableLink : Option String := none
deriving DecidableEq, Repr

/-- `GraphLink` of `types.ts`: a directed edge, stored by node ids. -/
structure GraphLink where
  source : String
  target : String
deriving DecidableEq, Repr

/-- `GraphData` of `types.ts`. -/
structure GraphData where
  nodes : List GraphNode
  links : List GraphLink
deriving DecidableEq, Repr

/-- `CraftBlock` of `types.ts`: a node of a per-document content tree.
The absent-`content` case of the source behaves exactly like an empty
child list, so `content` is a plain list here. -/
inductive CraftBlock where
  | mk (id : String) (markdown : Option String) (content : List CraftBlock)

/-- The block's own id. -/
def CraftBlock.id : CraftBlock → String
  | .mk i _ _ => i

mutual

/-- The ids of every block of a content tree: exactly the keys the
block→document folds touch. -/
def blockIds : CraftBlock → List String
  | .mk bid _ content => bid :: blockIdsList content

/-- `blockIds` over a block forest. -/
def blockIdsList : List CraftBlock → List String
  | [] => []
  | b :: bs => blockIds b ++ blockIdsList bs

end

/-- `CraftDocument` of `types.ts` (the fields the graph engine reads). -/
structure CraftDocument where
  id : String
  title : String
  deleted : Option Bool := none
  lastModifiedAt : Option String := none
  createdAt : Option String := none
  clickableLink : Option String := none
deriving DecidableEq, Repr

/-- `DocumentMetadata` as constructed by `buildGraphIncremental`. -/
structure DocumentMetadata where
  id : String
  title : String
  lastModifiedAt : Option String := none
  createdAt : Option String := none
  deleted : Option Bool := none
deriving DecidableEq, Repr

/-- `GraphUpdateResult` as returned by `buildGraphIncremental`. -/
structure GraphUpdateResult where
  hasChanges : Bool
  added : List String
  modified : List String
  deleted : List String
  graphData : GraphData
  documentMetadata : List DocumentMetadata
deriving DecidableEq, Repr

/-- The identity of a node as compared across assembly paths: id, kind and
title. -/
def nodeTriple (n : GraphNode) : String × NodeType × String :=
  (n.id, n.type, n.title)

/-- A link as a plain ordered pair. -/
def linkPair (l : GraphLink) : String × String :=
  (l.source, l.target)

namespace Parser

/-!
### `src/lib/graph/parser.ts`

The markdown reference syntax is the global regex
`\[([^\]]+)\]\(block:\/\/([^)]+)\)`; `extractBlockLinks` collects the second
capture group of every match.  `scanBlockLinks` is a character-level model of
that exec loop: at each position it attempts the (backtracking-free) match —
a nonempty run of non-`]` characters, the literal `](block://`, a nonempty
run of non-`)` characters, then `)` — emitting the capture and resuming after
the match, or resuming at the next character.  The fuel argument bounds the
recursion; one character is consumed per step, so `length + 1` never runs
out. -/

def scanBlockLinks : Nat → List Char → List String
  | 0, _ => []
  | _ + 1, [] => []
  | fuel + 1, c :: rest =>
    if c = '[' then
      let text := rest.takeWhile (fun ch => !(ch == ']'))
      let rest1 := rest.dropWhile (fun ch => !(ch == ']'))
      if text.length > 0 ∧ rest1.take 10 = "](block://".data then
        let rest2 := rest1.drop 10
        let tid := rest2.takeWhile (fun ch => !(ch == ')'))
        let rest3 := rest2.dropWhile (fun ch => !(ch == ')'))
        if tid.length > 0 ∧ rest3.length > 0 then
          String.mk tid :: scanBlockLinks fuel (rest3.drop 1)
        else
          scanBlockLinks fuel rest
      else
        scanBlockLinks fuel rest
    else
      scanBlockLinks fuel rest

/-- `extractBlockLinks` of `parser.ts`. -/
def extractBlockLinks (markdown : String) : List String :=
  scanBlockLinks (markdown.length + 1) markdown.data

mutual

/-- `extractLinksFromBlock` of `parser.ts`: the block's own markdown links
followed by the links of its children, depth first. -/
def extractLinksFromBlock : CraftBlock → List String
  | .mk _ markdown content =>
    (match markdown with
     | some md => extractBlockLinks md
     | none => []) ++ extractLinksFromBlockList content

/-- The concatenation of `extractLinksFromBlock` over a list of blocks, as
produced by the source's child loops. -/
def extractLinksFromBlockList : List CraftBlock → List String
  | [] => []
  | b :: bs => extractLinksFromBlock b ++ extractLinksFromBlockList bs

end

mutual

/-- `addBlocksRecursively` inside `buildBlockToDocumentMap`: record
`blockId → docId` for every block of the forest, parents before children,
siblings in order. -/
def addBlocksRecursively (docId : String) :
    List CraftBlock → List (String × String) → List (String × String)
  | [], m => m
  | b :: bs, m => addBlocksRecursively docId bs (addOneBlockRecursively docId b m)

/-- The body of the `for` loop of `addBlocksRecursively`: record the block's
own id, then its children. -/
def addOneBlockRecursively (docId : String) :
    CraftBlock → List (String × String) → List (String × String)
  | .mk bid _ content, m => addBlocksRecursively docId content (alSet m bid docId)

end

/-- One iteration of the document loop of `buildBlockToDocumentMap`: record
`doc.id → doc.id`, then the document's block tree. -/
def btdDocStep (blocksMap : List (String × List CraftBlock))
    (m : List (String × String)) (doc : CraftDocument) : List (String × String) :=
  let m1 := alSet m doc.id doc.id
  match alGet blocksMap doc.id with
  | some blocks => addBlocksRecursively doc.id blocks m1
  | none => m1

/-- `buildBlockToDocumentMap` of `parser.ts`: `doc.id → doc.id` for every
document, plus `blockId → doc.id` for every block of its tree. -/
def buildBlockToDocumentMap (documents : List CraftDocument)
    (blocksMap : List (String × List CraftBlock)) : List (String × String) :=
  documents.foldl (btdDocStep blocksMap) []

/-- The inline resolution `blockToDoc.get(targetId) || targetId`. -/
def resolveTarget (blockToDoc : List (String × String)) (targetId : String) : String :=
  jsOr (alGet blockToDoc targetId) targetId

/-- The node materialized for a newly seen resolved target in
`buildGraphData` (title falls back to `Unknown <id>`, kind depends on
whether a document with that id exists). -/
def targetNodeFor (documents : List CraftDocument) (targetDocId : String) : GraphNode :=
  let targetDoc := documents.find? (fun d => d.id == targetDocId)
  { id := targetDocId
    title := jsOr (targetDoc.map CraftDocument.title) ("Unknown " ++ targetDocId)
    type := if targetDoc.isSome then NodeType.document else NodeType.block
    linkCount := 0 }

/-- One iteration of the `for (const targetId of links)` loop of
`buildGraphData`: resolve the target, add it to the source's target set, and
materialize a node for it when absent. -/
def addTargetStep (documents : List CraftDocument) (blockToDoc : List (String × String))
    (docId : String)
    (st : List (String × GraphNode) × List (String × List String)) (targetId : String) :
    List (String × GraphNode) × List (String × List String) :=
  let targetDocId := resolveTarget blockToDoc targetId
  let lm := alUpdate st.2 docId (fun ts => sAdd ts targetDocId)
  let nm :=
    if alHas st.1 targetDocId then st.1
    else alSet st.1 targetDocId (targetNodeFor documents targetDocId)
  (nm, lm)

/-- One iteration of the `for (const block of blocks)` loop of
`buildGraphData`. -/
def processBlockStep (documents : List CraftDocument) (blockToDoc : List (String × String))
    (docId : String)
    (st : List (String × GraphNode) × List (String × List String)) (block : CraftBlock) :
    List (String × GraphNode) × List (String × List String) :=
  let links := extractLinksFromBlock block
  if links.length > 0 then
    let lm := if alHas st.2 docId then st.2 else alSet st.2 docId []
    links.foldl (addTargetStep documents blockToDoc docId) (st.1, lm)
  else st

/-- One iteration of the `for (const doc of documents)` loop of
`buildGraphData`: create the document node, then walk its blocks. -/
def processDocumentStep (documents : List CraftDocument)
    (blockToDoc : List (String × String)) (blocksMap : List (String × List CraftBlock))
    (st : List (String × GraphNode) × List (String × List String)) (doc : CraftDocument) :
    List (String × GraphNode) × List (String × List String) :=
  let nm :=
    if alHas st.1 doc.id then st.1
    else alSet st.1 doc.id
      { id := doc.id, title := jsOr (some doc.title) "Untitled"
        type := NodeType.document, linkCount := 0 }
  match alGet blocksMap doc.id with
  | none => (nm, st.2)
  | some blocks => blocks.foldl (processBlockStep documents blockToDoc doc.id) (nm, st.2)

/-- One iteration of the `for (const target of targets)` loop inside the
edge-materialization phase of `buildGraphData`: push the edge when it is not
a self-reference, bumping both endpoint counters and the target's
`linkedFrom`. -/
def linkTargetStep (source : String)
    (st2 : List (String × GraphNode) × List GraphLink) (target : String) :
    List (String × GraphNode) × List GraphLink :=
  if source ≠ target then
    let links := st2.2 ++ [⟨source, target⟩]
    let nm1 := alUpdate st2.1 source (fun n => { n with linkCount := n.linkCount + 1 })
    let nm2 := alUpdate nm1 target (fun n =>
      { n with linkCount := n.linkCount + 1
               linkedFrom := some ((n.linkedFrom.getD []) ++ [source]) })
    (nm2, links)
  else st2

/-- One iteration of the `for (const [source, targets] of linksMap.entries())`
loop of `buildGraphData`: store `linksTo`, then push the non-self edges. -/
def linkEntryStep (st : List (String × GraphNode) × List GraphLink)
    (entry : String × List String) : List (String × GraphNode) × List GraphLink :=
  let nm0 := alUpdate st.1 entry.1 (fun n => { n with linksTo := some entry.2 })
  entry.2.foldl (linkTargetStep entry.1) (nm0, st.2)

/-- `buildGraphData` of `parser.ts` (the build with the block→document
resolution map): phase 1 accumulates the node map and per-source target sets,
phase 2 materializes the deduplicated edge list and the derived per-node
relationship fields. -/
def buildGraphData (documents : List CraftDocument)
    (blocksMap : List (String × List CraftBlock)) : GraphData :=
  let blockToDoc := buildBlockToDocumentMap documents blocksMap
  let phase1 := documents.foldl (processDocumentStep documents blockToDoc blocksMap) ([], [])
  let phase2 := phase1.2.foldl linkEntryStep (phase1.1, [])
  { nodes := alValues phase2.1, links := phase2.2 }

/-- The raw reference targets of a document: the concatenated extraction over
its fetched top-level blocks (empty when the document has no entry in the
blocks map). -/
def rawLinksOfDoc (blocksMap : List (String × List CraftBlock)) (docId : String) :
    List String :=
  match alGet blocksMap docId with
  | some blocks => extractLinksFromBlockList blocks
  | none => []

/-- The edges phase 2 emits for one `linksMap` entry. -/
def entryLinks (e : String × List String) : List GraphLink :=
  (e.2.filter (fun t => !(e.1 == t))).map (fun t => ⟨e.1, t⟩)

/-- `calculateNodeColor` of `parser.ts`. -/
def calculateNodeColor (linkCount : Nat) : String :=
  if linkCount = 0 then "#94a3b8"
  else if linkCount ≤ 2 then "#60a5fa"
  else if linkCount ≤ 5 then "#34d399"
  else if linkCount ≤ 10 then "#fbbf24"
  else "#f87171"

/-- One iteration of the link loop of `rebuildNodeRelationships`: when both
endpoints exist, append the target to the source's `linksTo` and the source
to the target's `linkedFrom`, each only when not already present.  In this
embedding `link.source`/`link.target` are always the ids (the object form the
renderer substitutes at runtime does not occur in the core data model). -/
def rebuildLinkStep (m : List (String × GraphNode)) (link : GraphLink) :
    List (String × GraphNode) :=
  if alHas m link.source ∧ alHas m link.target then
    let m1 := alUpdate m link.source (fun n =>
      if link.target ∈ n.linksTo.getD [] then n
      else { n with linksTo := some (n.linksTo.getD [] ++ [link.target]) })
    alUpdate m1 link.target (fun n =>
      if link.source ∈ n.linkedFrom.getD [] then n
      else { n with linkedFrom := some (n.linkedFrom.getD [] ++ [link.source]) })
  else m

/-- The fresh start `{ ...n, linksTo: [], linkedFrom: [] }` of
`rebuildNodeRelationships`. -/
def resetNode (n : GraphNode) : GraphNode :=
  { n with linksTo := some [], linkedFrom := some [] }

/-- `new Map(graphData.nodes.map(n => [n.id, { ...n, linksTo: [], linkedFrom: [] }]))`. -/
def initialNodesMap (nodes : List GraphNode) : List (String × GraphNode) :=
  nodes.foldl (fun m n => alSet m n.id (resetNode n)) []

/-- `rebuildNodeRelationships` of `parser.ts`. -/
def rebuildNodeRelationships (graphData : GraphData) : GraphData :=
  let nodesMap2 := graphData.links.foldl rebuildLinkStep (initialNodesMap graphData.nodes)
  { nodes := alValues nodesMap2, links := graphData.links }

/-- The adjacency a node with key `k` is expected to carry after the links
`ps` have been replayed by the rebuilder (used to state the exact rebuild
characterization). -/
def adjSpec (ps : List GraphLink) (k : String) (v0 : GraphNode) : GraphNode :=
  { v0 with
    linksTo := some ((ps.filter (fun l => l.source == k)).map GraphLink.target)
    linkedFrom := some ((ps.filter (fun l => l.target == k)).map GraphLink.source) }

end Parser

namespace Fetcher

/-!
### `CraftGraphFetcher.buildGraphIncremental` (`src/lib/graph/fetcher.ts`)

The network is abstracted into arguments: `currentDocuments` is the result of
the metadata listing (`fetchDocuments`), and `fetchBlocks` is the
per-document content fetch, with `Except.error` standing for a thrown
transport error.  Progress/streaming callbacks are side-effect only and are
dropped. -/

/-- `documentMetadata` entry built from a listed document. -/
def toDocumentMetadata (doc : CraftDocument) : DocumentMetadata :=
  { id := doc.id, title := doc.title, lastModifiedAt := doc.lastModifiedAt
    createdAt := doc.createdAt, deleted := doc.deleted }

/-- The `hasTimestampChange` Boolean of the diff (JS truthiness of the
optional timestamps, `!==` on the values when both are truthy). -/
def hasTimestampChange (doc : CraftDocument) (cached : DocumentMetadata) : Bool :=
  (strTruthy doc.lastModifiedAt && strTruthy cached.lastModifiedAt &&
    !(doc.lastModifiedAt == cached.lastModifiedAt)) ||
  (strTruthy doc.lastModifiedAt && !strTruthy cached.lastModifiedAt) ||
  (!strTruthy doc.lastModifiedAt && strTruthy cached.lastModifiedAt)

/-- The modified test of the diff: timestamp change or title change. -/
def isModifiedDoc (doc : CraftDocument) (cached : DocumentMetadata) : Bool :=
  hasTimestampChange doc cached || !(doc.title == cached.title)

/-- One iteration of the classification loop over `currentDocuments`,
accumulating the `added` and `modified` id lists. -/
def classifyStep (cachedDocMap : List (String × DocumentMetadata))
    (acc : List String × List String) (doc : CraftDocument) :
    List String × List String :=
  match alGet cachedDocMap doc.id with
  | none => (acc.1 ++ [doc.id], acc.2)
  | some cached =>
    if isModifiedDoc doc cached then (acc.1, acc.2 ++ [doc.id]) else acc

mutual

/-- `addBlocksToMap` of `buildGraphIncremental` (same recursion as the
parser's `addBlocksRecursively`). -/
def addBlocksToMap (docId : String) :
    List CraftBlock → List (String × String) → List (String × String)
  | [], m => m
  | b :: bs, m => addBlocksToMap docId bs (addOneBlockToMap docId b m)

/-- The body of the `for` loop of `addBlocksToMap`. -/
def addOneBlockToMap (docId : String) :
    CraftBlock → List (String × String) → List (String × String)
  | .mk bid _ content, m => addBlocksToMap docId content (alSet m bid docId)

end

/-- The mutable state threaded through the added/modified fetch loop. -/
structure IncState where
  blockToDocMap : List (String × String)
  nodesMap : List (String × GraphNode)
  linksArray : List GraphLink
deriving Repr

/-- The node-materialization part of the incremental target loop: create a
node for the resolved target only when it is absent and either a listed
document or a known block id. -/
def incTargetNode (currentDocuments : List CraftDocument)
    (blockToDocMap : List (String × String))
    (nm : List (String × GraphNode)) (targetId : String) :
    List (String × GraphNode) :=
  let targetDocId := Parser.resolveTarget blockToDocMap targetId
  if alHas nm targetDocId then nm
  else
    let targetDoc := currentDocuments.find? (fun d => d.id == targetDocId)
    if targetDoc.isSome ∨ alHas blockToDocMap targetId then
      alSet nm targetDocId
        { id := targetDocId
          title := jsOr (targetDoc.map CraftDocument.title) ("Unknown " ++ targetDocId)
          type := if targetDoc.isSome then NodeType.document else NodeType.block
          linkCount := 0
          clickableLink := targetDoc.bind CraftDocument.clickableLink }
    else nm

/-- One iteration of the `for (const targetId of links)` loop of the
incremental update: materialize the node when allowed, then push the edge
when it is not a self-reference and the endpoint node exists. -/
def incTargetStep (currentDocuments : List CraftDocument)
    (blockToDocMap : List (String × String)) (docId : String)
    (st : List (String × GraphNode) × List GraphLink) (targetId : String) :
    List (String × GraphNode) × List GraphLink :=
  if docId ≠ Parser.resolveTarget blockToDocMap targetId ∧
      alHas (incTargetNode currentDocuments blockToDocMap st.1 targetId)
        (Parser.resolveTarget blockToDocMap targetId) then
    (incTargetNode currentDocuments blockToDocMap st.1 targetId,
      st.2 ++ [⟨docId, Parser.resolveTarget blockToDocMap targetId⟩])
  else (incTargetNode currentDocuments blockToDocMap st.1 targetId, st.2)

/-- The node upsert of the fetch loop: create the document node when absent,
otherwise refresh its title and external link in place. -/
def upsertDocNode (doc : CraftDocument) (docId : String)
    (nm : List (String × GraphNode)) : List (String × GraphNode) :=
  if alHas nm docId then
    alUpdate nm docId (fun n =>
      { n with title := jsOr (some doc.title) "Untitled"
               clickableLink := doc.clickableLink })
  else
    alSet nm docId
      { id := docId, title := jsOr (some doc.title) "Untitled"
        type := NodeType.document, linkCount := 0
        clickableLink := doc.clickableLink }

/-- One iteration of the `for (const docId of docsToFetch)` loop: skip ids
with no listed document; on a fetch error leave the state untouched;
otherwise extend the block→document map, drop the document's old outgoing
edges, upsert its node, and collect its new edges. -/
def processDoc (currentDocuments : List CraftDocument)
    (currentDocMap : List (String × CraftDocument))
    (fetchBlocks : String → Except Unit (List CraftBlock))
    (st : IncState) (docId : String) : IncState :=
  match alGet currentDocMap docId with
  | none => st
  | some doc =>
    match fetchBlocks docId with
    | .error _ => st
    | .ok blocks =>
      let blockToDocMap := addBlocksToMap docId blocks st.blockToDocMap
      let linksArray := st.linksArray.filter (fun l => !(l.source == docId))
      let nodesMap := upsertDocNode doc docId st.nodesMap
      let afterTargets :=
        blocks.foldl
          (fun acc block =>
            (Parser.extractLinksFromBlock block).foldl
              (incTargetStep currentDocuments blockToDocMap docId) acc)
          (nodesMap, ([] : List GraphLink))
      { blockToDocMap := blockToDocMap
        nodesMap := afterTargets.1
        linksArray := linksArray ++ afterTargets.2 }

/-- The final link count of a node id: each entry of the links array bumps
the count of its source and of its target. -/
def linkCountOf (links : List GraphLink) (id : String) : Nat :=
  links.foldl
    (fun c l => (c + (if l.source = id then 1 else 0)) + (if l.target = id then 1 else 0)) 0

/-- The tail of `buildGraphIncremental` after the fetch loop: recompute
`linkCount`/`color` for every node from the final links array, then run
`rebuildNodeRelationships`. -/
def finalizeIncrementalGraph (nodesMap : List (String × GraphNode))
    (linksArray : List GraphLink) : GraphData :=
  let nodesArray := (alValues nodesMap).map (fun n =>
    { n with linkCount := linkCountOf linksArray n.id
             color := some (Parser.calculateNodeColor (linkCountOf linksArray n.id)) })
  Parser.rebuildNodeRelationships { nodes := nodesArray, links := linksArray }

/-- `new Map(currentDocuments.map(doc => [doc.id, doc]))`. -/
def currentDocMapOf (currentDocuments : List CraftDocument) :
    List (String × CraftDocument) :=
  currentDocuments.foldl (fun m doc => alSet m doc.id doc) []

/-- `new Map(cachedMetadata.map(doc => [doc.id, doc]))`. -/
def cachedDocMapOf (cachedMetadata : List DocumentMetadata) :
    List (String × DocumentMetadata) :=
  cachedMetadata.foldl (fun m doc => alSet m doc.id doc) []

/-- The `(added, modified)` lists accumulated by the classification loop over
`currentDocuments`. -/
def addedModifiedOf (cachedMetadata : List DocumentMetadata)
    (currentDocuments : List CraftDocument) : List String × List String :=
  currentDocuments.foldl (classifyStep (cachedDocMapOf cachedMetadata)) ([], [])

/-- The `deleted` list: cached ids absent from the current listing. -/
def deletedOf (cachedMetadata : List DocumentMetadata)
    (currentDocuments : List CraftDocument) : List String :=
  cachedMetadata.foldl
    (fun acc cachedDoc =>
      if alHas (currentDocMapOf currentDocuments) cachedDoc.id then acc
      else acc ++ [cachedDoc.id])
    []

/-- One iteration of the deletion loop: drop the deleted id's node and every
edge touching it. -/
def deleteDocStep (st : List (String × GraphNode) × List GraphLink) (docId : String) :
    List (String × GraphNode) × List GraphLink :=
  (alDelete st.1 docId,
   st.2.filter (fun l => !(l.source == docId) && !(l.target == docId)))

/-- The deletion loop: drop each deleted id's node and every edge touching
it, starting from the copied cached node map and links array. -/
def applyDeletions (cachedGraphData : GraphData) (deleted : List String) :
    List (String × GraphNode) × List GraphLink :=
  deleted.foldl deleteDocStep
    (cachedGraphData.nodes.foldl (fun m n => alSet m n.id n) [], cachedGraphData.links)

/-- Seeding of `blockToDocMap` from the document-kind nodes surviving in the
node map. -/
def seedBlockToDocMap (nodesMap : List (String × GraphNode)) : List (String × String) :=
  nodesMap.foldl
    (fun m p => if p.2.type = NodeType.document then alSet m p.1 p.1 else m) []

/-- `CraftGraphFetcher.buildGraphIncremental` of `fetcher.ts`, as a pure
function of the cached snapshot, the current listing and a content-fetch
oracle. -/
def buildGraphIncremental (cachedMetadata : List DocumentMetadata)
    (cachedGraphData : GraphData) (currentDocuments : List CraftDocument)
    (fetchBlocks : String → Except Unit (List CraftBlock)) : GraphUpdateResult :=
  let added := (addedModifiedOf cachedMetadata currentDocuments).1
  let modified := (addedModifiedOf cachedMetadata currentDocuments).2
  let deleted := deletedOf cachedMetadata currentDocuments
  let documentMetadata :=
    (currentDocuments.filter (fun doc => !(boolTruthy doc.deleted))).map toDocumentMetadata
  if added.length > 0 ∨ modified.length > 0 ∨ deleted.length > 0 then
    let afterDelete := applyDeletions cachedGraphData deleted
    let stFinal := (added ++ modified).foldl
      (processDoc currentDocuments (currentDocMapOf currentDocuments) fetchBlocks)
      { blockToDocMap := seedBlockToDocMap afterDelete.1
        nodesMap := afterDelete.1, linksArray := afterDelete.2 }
    { hasChanges := true, added := added, modified := modified, deleted := deleted
      graphData := finalizeIncrementalGraph stFinal.nodesMap stFinal.linksArray
      documentMetadata := documentMetadata }
  else
    { hasChanges := false, added := [], modified := [], deleted := []
      graphData := cachedGraphData, documentMetadata := documentMetadata }

end Fetcher

namespace Demo

/-!
### `extractHashtags` (`src/scripts/build-demo-graph.ts`)

The hashtag regex is the global `#([a-zA-Z0-9_]+(?:\/[a-zA-Z0-9_]+)*)`;
`scanHashtags` is a character-level model of its exec loop, `scanTagTail`
being the greedy `(?:\/[a-zA-Z0-9_]+)*` part. -/

/-- `[a-zA-Z0-9_]`. -/
def isTagChar (c : Char) : Bool :=
  c.isAlpha || c.isDigit || c == '_'

/-- Greedily consume `(/segment)*` after an initial segment, accumulating the
matched characters. -/
def scanTagTail : Nat → List Char → List Char → List Char × List Char
  | 0, acc, rest => (acc, rest)
  | fuel + 1, acc, rest =>
    match rest with
    | '/' :: rest2 =>
      let seg := rest2.takeWhile isTagChar
      if seg.length > 0 then
        scanTagTail fuel (acc ++ '/' :: seg) (rest2.dropWhile isTagChar)
      else (acc, rest)
    | _ => (acc, rest)

/-- The exec loop collecting `match[1]` of every hashtag match. -/
def scanHashtags : Nat → List Char → List String
  | 0, _ => []
  | _ + 1, [] => []
  | fuel + 1, c :: rest =>
    if c = '#' then
      let seg := rest.takeWhile isTagChar
      if seg.length > 0 then
        let tail := scanTagTail fuel seg (rest.dropWhile isTagChar)
        String.mk tail.1 :: scanHashtags fuel tail.2
      else scanHashtags fuel rest
    else scanHashtags fuel rest

/-- The raw hashtag labels matched in a markdown string (`match[1]` of every
match of the hashtag regex, in order). -/
def hashtagMatches (markdown : String) : List String :=
  scanHashtags (markdown.length + 1) markdown.data

/-- JS `fullTag.includes('/')`. -/
def containsSlash (s : String) : Bool :=
  s.data.contains '/'

/-- JS `String.split('/')` at the character level. -/
def splitCharsOnSlash : List Char → List (List Char)
  | [] => [[]]
  | c :: rest =>
    match splitCharsOnSlash rest with
    | [] => []
    | seg :: segs => if c = '/' then [] :: seg :: segs else (c :: seg) :: segs

/-- JS `fullTag.split('/')`. -/
def splitOnSlash (s : String) : List String :=
  (splitCharsOnSlash s.data).map String.mk

/-- JS `parts.join('/')`. -/
def joinSlash : List String → String
  | [] => ""
  | [p] => p
  | p :: ps => p ++ "/" ++ joinSlash ps

/-- The ancestor labels synthesized for a nested tag:
`parts.slice(0, i).join('/')` for `i = 1 .. parts.length - 1`. -/
def tagAncestors (fullTag : String) : List String :=
  let parts := splitOnSlash fullTag
  (List.range (parts.length - 1)).map
    (fun i => joinSlash (parts.take (i + 1)))

/-- The body of the match loop of `extractHashtags`: push the full tag, then
push each missing ancestor of a nested tag. -/
def addTagStep (tags : List String) (fullTag : String) : List String :=
  let tags1 := tags ++ [fullTag]
  if containsSlash fullTag then
    (tagAncestors fullTag).foldl
      (fun acc parentTag => if parentTag ∈ acc then acc else acc ++ [parentTag]) tags1
  else tags1

/-- `extractHashtags` of `build-demo-graph.ts`. -/
def extractHashtags (markdown : String) : List String :=
  setDedup ((hashtagMatches markdown).foldl addTagStep [])

end Demo

namespace Parser

/-- The projection of a node that forgets the derived adjacency fields
(`linksTo`, `linkedFrom`): everything the rebuilder is allowed to read. -/
def eraseAdj (n : GraphNode) : GraphNode :=
  { n with linksTo := none, linkedFrom := none }

end Parser

namespace Wit


/-! Concrete inputs used by the witness and counterexample theorems. -/

def mdX : DocumentMetadata := { id := "X", title := "Old" }

def dX : CraftDocument := { id := "X", title := "New" }

def mdA : DocumentMetadata := { id := "A", title := "Doc A" }

def dA : CraftDocument := { id := "A", title := "Doc A" }

def dB : CraftDocument := { id := "B", title := "Doc B" }

/-- A block referencing document `A` twice. -/
def blkBB : CraftBlock := .mk "b1" (some "[x](block://A) [y](block://A)") []

/-- A block referencing the unknown id `Z`. -/
def blkZ : CraftBlock := .mk "z1" (some "[z](block://Z)") []

/-- A block referencing document `A` once. -/
def blkCA : CraftBlock := .mk "c1" (some "[a](block://A)") []

/-- Blocks map for the one-document corpus `A` referencing `Z`. -/
def bmAZ : List (String × List CraftBlock) := [("A", [blkZ])]

/-- Blocks map for the corpus `[A, B]` where only `B` has content: one block
referencing document `A`. -/
def bmBC : List (String × List CraftBlock) := [("B", [blkCA])]

/-- The cached graph for the corpus `[A]` with no references. -/
def gA : GraphData :=
  { nodes := [{ id := "A", title := "Doc A", type := NodeType.document, linkCount := 0 }],
    links := [] }

/-- Content fetch: `B`'s tree is `blkBB`, everything else empty. -/
def fB : String → Except Unit (List CraftBlock) :=
  fun i => if i = "B" then Except.ok [blkBB] else Except.ok []

/-- A fetch oracle that always throws. -/
def fErr : String → Except Unit (List CraftBlock) :=
  fun _ => Except.error ()

/-- A populated fetch-loop state. -/
def st0 : Fetcher.IncState :=
  { blockToDocMap := [("A", "A")]
    nodesMap := [("A", { id := "A", title := "Doc A", type := NodeType.document,
                         linkCount := 1, linksTo := some ["B"] })]
    linksArray := [{ source := "A", target := "B" }] }


/-- A graph whose node `A` carries stale adjacency junk. -/
def gJunk : GraphData :=
  { nodes := [{ id := "A", title := "a", type := NodeType.document, linkCount := 0,
                linksTo := some ["junk"], linkedFrom := some ["junk", "junk"] },
              { id := "B", title := "b", type := NodeType.document, linkCount := 0 }],
    links := [{ source := "A", target := "B" }] }

/-- The same graph with the adjacency fields absent. -/
def gClean : GraphData :=
  { nodes := [{ id := "A", title := "a", type := NodeType.document, linkCount := 0 },
              { id := "B", title := "b", type := NodeType.document, linkCount := 0 }],
    links := [{ source := "A", target := "B" }] }


/-- A bare document node for `A`. -/
def ncA : GraphNode := { id := "A", title := "Doc A", type := NodeType.document, linkCount := 0 }

/-- A bare document node for `B`. -/
def ncB : GraphNode := { id := "B", title := "Doc B", type := NodeType.document, linkCount := 0 }

/-- A two-entry node map with matching keys and ids. -/
def nmAB : List (String × GraphNode) := [("A", ncA), ("B", ncB)]

/-- A single-edge links array `A → B`. -/
def lkAB : List GraphLink := [⟨"A", "B"⟩]


end Wit

/-! ### Basic lemmas about the `Map` model -/

theorem alGet_alSet {α : Type} (m : List (String × α)) (k : String) (v : α) (s : String) :
    alGet (alSet m k v) s = if k = s then some v else alGet m s := by
  induction m with
  | nil => simp [alSet, alGet]
  | cons p rest ih =>
    obtain ⟨k', v'⟩ := p
    by_cases h1 : k' = k
    · subst h1
      by_cases h2 : k' = s <;> simp [alSet, alGet, h2]
    · by_cases h2 : k' = s
      · subst h2
        have : ¬ k = k' := fun h => h1 h.symm
        simp [alSet, alGet, h1, this]
      · simp [alSet, alGet, h1, h2, ih]

theorem alGet_alUpdate {α : Type} (m : List (String × α)) (k : String) (f : α → α) (s : String) :
    alGet (alUpdate m k f) s = if k = s then (alGet m s).map f else alGet m s := by
  induction m with
  | nil => simp [alUpdate, alGet]
  | cons p rest ih =>
    obtain ⟨k', v'⟩ := p
    by_cases h1 : k' = k
    · subst h1
      by_cases h2 : k' = s <;> simp [alUpdate, alGet, h2]
    · by_cases h2 : k' = s
      · subst h2
        have : ¬ k = k' := fun h => h1 h.symm
        simp [alUpdate, alGet, h1, this]
      · simp [alUpdate, alGet, h1, h2, ih]

theorem alGet_alDelete {α : Type} (m : List (String × α)) (k : String) (s : String) :
    alGet (alDelete m k) s = if k = s then none else alGet m s := by
  induction m with
  | nil => simp [alDelete, alGet]
  | cons p rest ih =>
    obtain ⟨k', v'⟩ := p
    by_cases h1 : k' = k
    · subst h1
      by_cases h2 : k' = s
      · subst h2
        simpa [alDelete, alGet] using ih
      · simpa [alDelete, alGet, h2] using ih
    · by_cases h2 : k' = s
      · subst h2
        have hks : ¬ k = k' := fun h => h1 h.symm
        simp [alDelete, alGet, h1, hks]
      · simpa [alDelete, alGet, h1, h2] using ih

theorem alHas_alSet {α : Type} (m : List (String × α)) (k : String) (v : α) (s : String) :
    alHas (alSet m k v) s = (if k = s then true else alHas m s) := by
  by_cases h : k = s <;> simp [alHas, alGet_alSet, h]

theorem alHas_alUpdate {α : Type} (m : List (String × α)) (k : String) (f : α → α) (s : String) :
    alHas (alUpdate m k f) s = alHas m s := by
  by_cases h : k = s <;> simp [alHas, alGet_alUpdate, h, Option.isSome_map]

theorem alKeys_alSet {α : Type} (m : List (String × α)) (k : String) (v : α) :
    alKeys (alSet m k v) = if alHas m k then alKeys m else alKeys m ++ [k] := by
  induction m with
  | nil => simp [alSet, alKeys, alHas, alGet]
  | cons p rest ih =>
    obtain ⟨k', v'⟩ := p
    by_cases h1 : k' = k
    · subst h1
      simp [alSet, alKeys, alHas, alGet]
    · by_cases h2 : alHas rest k
      · have hcons : alHas ((k', v') :: rest) k = true := by
          simp only [alHas, alGet, if_neg h1]
          exact h2
        simp only [hcons, if_true]
        simp only [alSet, if_neg h1, alKeys, List.map_cons]
        rw [show List.map Prod.fst (alSet rest k v) = alKeys (alSet rest k v) from rfl, ih]
        simp [h2, alKeys]
      · have h2' : alHas rest k = false := by
          simp only [Bool.not_eq_true] at h2
          exact h2
        have hcons : alHas ((k', v') :: rest) k = false := by
          simp only [alHas, alGet, if_neg h1]
          exact h2'
        simp only [hcons, Bool.false_eq_true, if_false]
        simp only [alSet, if_neg h1, alKeys, List.map_cons]
        rw [show List.map Prod.fst (alSet rest k v) = alKeys (alSet rest k v) from rfl, ih]
        simp [h2', alKeys]

theorem alKeys_alUpdate {α : Type} (m : List (String × α)) (k : String) (f : α → α) :
    alKeys (alUpdate m k f) = alKeys m := by
  induction m with
  | nil => simp [alUpdate, alKeys]
  | cons p rest ih =>
    obtain ⟨k', v'⟩ := p
    by_cases h1 : k' = k <;> simp [alUpdate, alKeys, h1] <;> simpa [alKeys] using ih

theorem alHas_iff_mem_keys {α : Type} (m : List (String × α)) (s : String) :
    alHas m s = true ↔ s ∈ alKeys m := by
  induction m with
  | nil => simp [alHas, alGet, alKeys]
  | cons p rest ih =>
    obtain ⟨k', v'⟩ := p
    by_cases h : k' = s
    · subst h
      simp [alHas, alGet, alKeys]
    · have hne : ¬ s = k' := fun hs => h hs.symm
      simp only [alHas, alGet, if_neg h, alKeys, List.map_cons, List.mem_cons]
      rw [show (alGet rest s).isSome = alHas rest s from rfl, ih]
      simp [alKeys, hne]

theorem alNodupKeys_alSet {α : Type} (m : List (String × α)) (k : String) (v : α)
    (h : alNodupKeys m) : alNodupKeys (alSet m k v) := by
  unfold alNodupKeys
  have hk := alKeys_alSet m k v
  by_cases hh : alHas m k
  · simp only [hh, if_true] at hk
    rw [show (alSet m k v).map Prod.fst = alKeys (alSet m k v) from rfl, hk]
    simpa [alKeys] using h
  · have hh' : alHas m k = false := by
      simp only [Bool.not_eq_true] at hh
      exact hh
    simp only [hh', Bool.false_eq_true, if_false] at hk
    rw [show (alSet m k v).map Prod.fst = alKeys (alSet m k v) from rfl, hk]
    rw [List.nodup_append]
    refine ⟨by simpa [alKeys] using h, List.nodup_singleton k, ?_⟩
    intro a ha hb
    simp only [List.mem_singleton] at hb
    subst hb
    have hmem : alHas m a = true := (alHas_iff_mem_keys m a).2 ha
    rw [hmem] at hh'
    exact absurd hh' (by simp)

theorem alNodupKeys_alUpdate {α : Type} (m : List (String × α)) (k : String) (f : α → α)
    (h : alNodupKeys m) : alNodupKeys (alUpdate m k f) := by
  unfold alNodupKeys
  rw [show (alUpdate m k f).map Prod.fst = alKeys (alUpdate m k f) from rfl,
    alKeys_alUpdate]
  simpa [alKeys] using h

theorem mem_alSet_elim {α : Type} {m : List (String × α)} {k : String} {v : α}
    {p : String × α} (h : p ∈ alSet m k v) : p = (k, v) ∨ p ∈ m := by
  induction m with
  | nil => simpa [alSet] using h
  | cons q rest ih =>
    obtain ⟨k', v'⟩ := q
    by_cases h1 : k' = k
    · subst h1
      rw [show alSet ((k', v') :: rest) k' v = (k', v) :: rest from by
        simp [alSet]] at h
      rcases List.mem_cons.mp h with h | h
      · exact Or.inl h
      · exact Or.inr (List.mem_cons_of_mem _ h)
    · rw [show alSet ((k', v') :: rest) k v = (k', v') :: alSet rest k v from by
        simp [alSet, h1]] at h
      rcases List.mem_cons.mp h with h | h
      · exact Or.inr (h ▸ List.mem_cons_self _ _)
      · rcases ih h with h' | h'
        · exact Or.inl h'
        · exact Or.inr (List.mem_cons_of_mem _ h')

theorem mem_alUpdate_elim {α : Type} {m : List (String × α)} {k : String} {f : α → α}
    {p : String × α} (h : p ∈ alUpdate m k f) :
    p ∈ m ∨ ∃ v, (k, v) ∈ m ∧ p = (k, f v) := by
  induction m with
  | nil => simpa [alUpdate] using h
  | cons q rest ih =>
    obtain ⟨k', v'⟩ := q
    by_cases h1 : k' = k
    · subst h1
      rw [show alUpdate ((k', v') :: rest) k' f = (k', f v') :: rest from by
        simp [alUpdate]] at h
      rcases List.mem_cons.mp h with h | h
      · exact Or.inr ⟨v', List.mem_cons_self _ _, h⟩
      · exact Or.inl (List.mem_cons_of_mem _ h)
    · rw [show alUpdate ((k', v') :: rest) k f = (k', v') :: alUpdate rest k f from by
        simp [alUpdate, h1]] at h
      rcases List.mem_cons.mp h with h | h
      · exact Or.inl (h ▸ List.mem_cons_self _ _)
      · rcases ih h with h' | ⟨w, hw, hp⟩
        · exact Or.inl (List.mem_cons_of_mem _ h')
        · exact Or.inr ⟨w, List.mem_cons_of_mem _ hw, hp⟩

theorem alGet_eq_some_of_mem {α : Type} {m : List (String × α)} {k : String} {v : α}
    (hnd : alNodupKeys m) (h : (k, v) ∈ m) : alGet m k = some v := by
  induction m with
  | nil => simp at h
  | cons q rest ih =>
    obtain ⟨k', v'⟩ := q
    have hnd' : (k' ∉ rest.map Prod.fst) ∧ (rest.map Prod.fst).Nodup := by
      simpa [alNodupKeys] using hnd
    simp only [List.mem_cons] at h
    rcases h with h | h
    · have hk : k = k' := congrArg Prod.fst h
      have hv : v = v' := congrArg Prod.snd h
      subst hk
      subst hv
      simp [alGet]
    · have hk' : k' ≠ k := by
        intro he
        subst he
        exact hnd'.1 (List.mem_map_of_mem Prod.fst h)
      simp only [alGet, if_neg hk']
      exact ih hnd'.2 h

theorem mem_of_alGet_eq_some {α : Type} {m : List (String × α)} {k : String} {v : α}
    (h : alGet m k = some v) : (k, v) ∈ m := by
  induction m with
  | nil => simp [alGet] at h
  | cons q rest ih =>
    obtain ⟨k', v'⟩ := q
    by_cases h1 : k' = k
    · subst h1
      rw [show alGet ((k', v') :: rest) k' = some v' from by simp [alGet]] at h
      injection h with h
      subst h
      exact List.mem_cons_self _ _
    · simp only [alGet, if_neg h1] at h
      exact List.mem_cons_of_mem _ (ih h)

/-! ### Generic lemmas about folds used in the embedding -/

theorem foldl_induction {α σ : Type} (step : σ → α → σ) (P : σ → Prop) :
    ∀ (l : List α) (init : σ), P init → (∀ s a, a ∈ l → P s → P (step s a)) →
      P (l.foldl step init)
  | [], init, h0, _ => h0
  | a :: l, init, h0, hstep => by
    simp only [List.foldl_cons]
    exact foldl_induction step P l (step init a) (hstep init a (by simp) h0)
      (fun s b hb hs => hstep s b (by simp [hb]) hs)

/-- A fold whose step is guarded by a boolean predicate equals the fold over
the filtered list. -/
theorem foldl_guard_eq_foldl_filter {α σ : Type} (step : σ → α → σ) (p : α → Bool) :
    ∀ (l : List α) (init : σ),
      l.foldl (fun s a => if p a then step s a else s) init = (l.filter p).foldl step init
  | [], _ => rfl
  | a :: l, init => by
    by_cases h : p a
    · simp only [List.foldl_cons, h, if_true, List.filter_cons, if_pos h]
      exact foldl_guard_eq_foldl_filter step p l (step init a)
    · simp only [List.foldl_cons, h, if_false, List.filter_cons]
      rw [if_neg (by simpa using h)]
      exact foldl_guard_eq_foldl_filter step p l init

theorem mem_sAdd {s : List String} {x y : String} :
    y ∈ sAdd s x ↔ y ∈ s ∨ y = x := by
  unfold sAdd
  by_cases h : x ∈ s
  · simp only [if_pos h]
    constructor
    · exact fun hy => Or.inl hy
    · rintro (hy | rfl)
      · exact hy
      · exact h
  · simp [if_neg h]

theorem nodup_sAdd {s : List String} {x : String} (h : s.Nodup) : (sAdd s x).Nodup := by
  unfold sAdd
  by_cases hx : x ∈ s
  · simpa [hx]
  · simp only [if_neg hx]
    simpa [List.nodup_append, h] using hx

theorem mem_setDedupFuel {x : String} :
    ∀ (fuel : Nat) (l : List String), l.length ≤ fuel →
      (x ∈ setDedupFuel fuel l ↔ x ∈ l)
  | _, [], _ => by simp [setDedupFuel]
  | 0, y :: l, h => by simp at h
  | fuel + 1, y :: l, h => by
    rw [show setDedupFuel (fuel + 1) (y :: l)
        = y :: setDedupFuel fuel (l.filter (fun z => !(z == y))) from rfl]
    by_cases hxy : x = y
    · subst hxy
      simp
    · simp only [List.mem_cons, hxy, false_or]
      rw [mem_setDedupFuel fuel _
        (le_trans (List.length_filter_le _ _) (by simpa [Nat.succ_le_succ_iff] using h))]
      simp [hxy]

theorem mem_setDedup {x : String} {l : List String} : x ∈ setDedup l ↔ x ∈ l :=
  mem_setDedupFuel l.length l le_rfl

theorem nodup_setDedupFuel :
    ∀ (fuel : Nat) (l : List String), l.length ≤ fuel → (setDedupFuel fuel l).Nodup
  | _, [], _ => by simp [setDedupFuel]
  | 0, y :: l, h => by simp at h
  | fuel + 1, y :: l, h => by
    rw [show setDedupFuel (fuel + 1) (y :: l)
        = y :: setDedupFuel fuel (l.filter (fun z => !(z == y))) from rfl]
    have hlen : (l.filter (fun z => !(z == y))).length ≤ fuel :=
      le_trans (List.length_filter_le _ _) (by simpa [Nat.succ_le_succ_iff] using h)
    refine List.nodup_cons.mpr ⟨?_, nodup_setDedupFuel fuel _ hlen⟩
    rw [mem_setDedupFuel fuel _ hlen]
    simp

theorem nodup_setDedup (l : List String) : (setDedup l).Nodup :=
  nodup_setDedupFuel l.length l le_rfl

/-! ### Lemmas about `new Map(list)`-style folds -/

section BuildMap

variable {β α : Type}

theorem alGet_foldl_alSet_of_not_key (key : β → String) (val : β → α) :
    ∀ (l : List β) (acc : List (String × α)) (s : String),
      (∀ b ∈ l, key b ≠ s) →
      alGet (l.foldl (fun m b => alSet m (key b) (val b)) acc) s = alGet acc s
  | [], _, _, _ => rfl
  | b :: l, acc, s, h => by
    simp only [List.foldl_cons]
    rw [alGet_foldl_alSet_of_not_key key val l _ s (fun b' hb' => h b' (by simp [hb']))]
    rw [alGet_alSet]
    exact if_neg (h b (by simp))

theorem alGet_buildMap (key : β → String) (val : β → α) :
    ∀ (l : List β) (acc : List (String × α)), (l.map key).Nodup → ∀ {x : β}, x ∈ l →
      alGet (l.foldl (fun m b => alSet m (key b) (val b)) acc) (key x) = some (val x)
  | [], _, _, _, hx => by simp at hx
  | b :: l, acc, hnd, x, hx => by
    have hnd0 : key b ∉ l.map key ∧ (l.map key).Nodup := by
      rw [List.map_cons] at hnd
      exact List.nodup_cons.mp hnd
    have hnd' : (l.map key).Nodup ∧ key b ∉ l.map key := ⟨hnd0.2, hnd0.1⟩
    rcases List.mem_cons.mp hx with hx | hx
    · subst hx
      simp only [List.foldl_cons]
      rw [alGet_foldl_alSet_of_not_key key val l _ (key x)
        (fun b' hb' hkey => hnd'.2 (hkey ▸ List.mem_map_of_mem key hb'))]
      rw [alGet_alSet]
      simp
    · simp only [List.foldl_cons]
      exact alGet_buildMap key val l _ hnd'.1 hx

theorem alHas_foldl_alSet (key : β → String) (val : β → α) :
    ∀ (l : List β) (acc : List (String × α)) (s : String),
      alHas (l.foldl (fun m b => alSet m (key b) (val b)) acc) s = true ↔
        alHas acc s = true ∨ ∃ b ∈ l, key b = s
  | [], _, _ => by simp
  | b :: l, acc, s => by
    simp only [List.foldl_cons]
    rw [alHas_foldl_alSet key val l _ s]
    rw [alHas_alSet]
    by_cases h : key b = s
    · simp [h]
    · simp only [if_neg h]
      constructor
      · rintro (h1 | h1)
        · exact Or.inl h1
        · exact Or.inr (by rcases h1 with ⟨b', hb', hk⟩; exact ⟨b', by simp [hb'], hk⟩)
      · rintro (h1 | ⟨b', hb', hk⟩)
        · exact Or.inl h1
        · rcases List.mem_cons.mp hb' with hb' | hb'
          · exact absurd (hb' ▸ hk) h
          · exact Or.inr ⟨b', hb', hk⟩

theorem alGet_buildMap_eq_none (key : β → String) (val : β → α)
    (l : List β) (s : String) (h : ∀ b ∈ l, key b ≠ s) :
    alGet (l.foldl (fun m b => alSet m (key b) (val b)) []) s = none := by
  rw [alGet_foldl_alSet_of_not_key key val l [] s h]
  rfl

theorem alNodupKeys_buildMap (key : β → String) (val : β → α) :
    ∀ (l : List β) (acc : List (String × α)), alNodupKeys acc →
      alNodupKeys (l.foldl (fun m b => alSet m (key b) (val b)) acc)
  | [], _, h => h
  | b :: l, acc, h => by
    simp only [List.foldl_cons]
    exact alNodupKeys_buildMap key val l _ (alNodupKeys_alSet _ _ _ h)

end BuildMap

namespace Fetcher

/-! ### The snapshot diff: characterization of the classification lists -/

theorem mem_classify_modified (cachedDocMap : List (String × DocumentMetadata)) :
    ∀ (l : List CraftDocument) (acc : List String × List String) (id : String),
      id ∈ (l.foldl (classifyStep cachedDocMap) acc).2 ↔
        id ∈ acc.2 ∨ ∃ doc ∈ l, doc.id = id ∧
          ∃ c, alGet cachedDocMap doc.id = some c ∧ isModifiedDoc doc c = true
  | [], acc, id => by simp
  | doc :: l, acc, id => by
    simp only [List.foldl_cons]
    rw [mem_classify_modified cachedDocMap l _ id]
    unfold classifyStep
    cases hget : alGet cachedDocMap doc.id with
    | none =>
      simp only []
      constructor
      · rintro (h | h)
        · exact Or.inl h
        · exact Or.inr (by rcases h with ⟨d, hd, rest⟩; exact ⟨d, by simp [hd], rest⟩)
      · rintro (h | ⟨d, hd, hid, c, hc, hmod⟩)
        · exact Or.inl h
        · rcases List.mem_cons.mp hd with hd | hd
          · subst hd
            rw [hget] at hc
            cases hc
          · exact Or.inr ⟨d, hd, hid, c, hc, hmod⟩
    | some c0 =>
      by_cases hmod0 : isModifiedDoc doc c0 = true
      · simp only [hmod0, if_true]
        constructor
        · rintro (h | h)
          · rcases List.mem_append.mp h with h | h
            · exact Or.inl h
            · simp only [List.mem_singleton] at h
              exact Or.inr ⟨doc, by simp, h.symm, c0, hget, hmod0⟩
          · exact Or.inr (by rcases h with ⟨d, hd, rest⟩; exact ⟨d, by simp [hd], rest⟩)
        · rintro (h | ⟨d, hd, hid, c, hc, hmod⟩)
          · exact Or.inl (List.mem_append.mpr (Or.inl h))
          · rcases List.mem_cons.mp hd with hd | hd
            · subst hd
              exact Or.inl (List.mem_append.mpr (Or.inr (by simp [hid])))
            · exact Or.inr ⟨d, hd, hid, c, hc, hmod⟩
      · simp only [hmod0, if_false]
        constructor
        · rintro (h | h)
          · exact Or.inl h
          · exact Or.inr (by rcases h with ⟨d, hd, rest⟩; exact ⟨d, by simp [hd], rest⟩)
        · rintro (h | ⟨d, hd, hid, c, hc, hmod⟩)
          · exact Or.inl h
          · rcases List.mem_cons.mp hd with hd | hd
            · subst hd
              rw [hget] at hc
              injection hc with hc
              subst hc
              exact absurd hmod hmod0
            · exact Or.inr ⟨d, hd, hid, c, hc, hmod⟩

theorem mem_classify_added (cachedDocMap : List (String × DocumentMetadata)) :
    ∀ (l : List CraftDocument) (acc : List String × List String) (id : String),
      id ∈ (l.foldl (classifyStep cachedDocMap) acc).1 ↔
        id ∈ acc.1 ∨ ∃ doc ∈ l, doc.id = id ∧ alGet cachedDocMap doc.id = none
  | [], acc, id => by simp
  | doc :: l, acc, id => by
    simp only [List.foldl_cons]
    rw [mem_classify_added cachedDocMap l _ id]
    unfold classifyStep
    cases hget : alGet cachedDocMap doc.id with
    | none =>
      simp only []
      constructor
      · rintro (h | h)
        · rcases List.mem_append.mp h with h | h
          · exact Or.inl h
          · simp only [List.mem_singleton] at h
            exact Or.inr ⟨doc, by simp, h.symm, hget⟩
        · exact Or.inr (by rcases h with ⟨d, hd, rest⟩; exact ⟨d, by simp [hd], rest⟩)
      · rintro (h | ⟨d, hd, hid, hc⟩)
        · exact Or.inl (List.mem_append.mpr (Or.inl h))
        · rcases List.mem_cons.mp hd with hd | hd
          · subst hd
            exact Or.inl (List.mem_append.mpr (Or.inr (by simp [hid])))
          · exact Or.inr ⟨d, hd, hid, hc⟩
    | some c0 =>
      by_cases hmod0 : isModifiedDoc doc c0 = true
      · simp only [hmod0, if_true]
        constructor
        · rintro (h | h)
          · exact Or.inl h
          · exact Or.inr (by rcases h with ⟨d, hd, rest⟩; exact ⟨d, by simp [hd], rest⟩)
        · rintro (h | ⟨d, hd, hid, hc⟩)
          · exact Or.inl h
          · rcases List.mem_cons.mp hd with hd | hd
            · subst hd
              rw [hget] at hc
              cases hc
            · exact Or.inr ⟨d, hd, hid, hc⟩
      · simp only [hmod0, if_false]
        constructor
        · rintro (h | h)
          · exact Or.inl h
          · exact Or.inr (by rcases h with ⟨d, hd, rest⟩; exact ⟨d, by simp [hd], rest⟩)
        · rintro (h | ⟨d, hd, hid, hc⟩)
          · exact Or.inl h
          · rcases List.mem_cons.mp hd with hd | hd
            · subst hd
              rw [hget] at hc
              cases hc
            · exact Or.inr ⟨d, hd, hid, hc⟩

theorem buildGraphIncremental_modified_eq (cm : List DocumentMetadata) (g : GraphData)
    (cur : List CraftDocument) (f : String → Except Unit (List CraftBlock)) :
    (buildGraphIncremental cm g cur f).modified = (addedModifiedOf cm cur).2 := by
  unfold buildGraphIncremental
  by_cases h : ((addedModifiedOf cm cur).1.length > 0 ∨
      (addedModifiedOf cm cur).2.length > 0 ∨ (deletedOf cm cur).length > 0)
  · simp only [if_pos h]
  · simp only [if_neg h]
    push_neg at h
    have hz : (addedModifiedOf cm cur).2.length = 0 := Nat.le_zero.mp h.2.1
    exact (List.length_eq_zero.mp hz).symm

theorem buildGraphIncremental_added_eq (cm : List DocumentMetadata) (g : GraphData)
    (cur : List CraftDocument) (f : String → Except Unit (List CraftBlock)) :
    (buildGraphIncremental cm g cur f).added = (addedModifiedOf cm cur).1 := by
  unfold buildGraphIncremental
  by_cases h : ((addedModifiedOf cm cur).1.length > 0 ∨
      (addedModifiedOf cm cur).2.length > 0 ∨ (deletedOf cm cur).length > 0)
  · simp only [if_pos h]
  · simp only [if_neg h]
    push_neg at h
    have hz : (addedModifiedOf cm cur).1.length = 0 := Nat.le_zero.mp h.1
    exact (List.length_eq_zero.mp hz).symm

theorem buildGraphIncremental_deleted_eq (cm : List DocumentMetadata) (g : GraphData)
    (cur : List CraftDocument) (f : String → Except Unit (List CraftBlock)) :
    (buildGraphIncremental cm g cur f).deleted = deletedOf cm cur := by
  unfold buildGraphIncremental
  by_cases h : ((addedModifiedOf cm cur).1.length > 0 ∨
      (addedModifiedOf cm cur).2.length > 0 ∨ (deletedOf cm cur).length > 0)
  · simp only [if_pos h]
  · simp only [if_neg h]
    push_neg at h
    have hz : (deletedOf cm cur).length = 0 := Nat.le_zero.mp h.2.2
    exact (List.length_eq_zero.mp hz).symm

end Fetcher

/-- **C4.**  In the snapshot diff of `buildGraphIncremental`, a document id
present in both the cached metadata and the current listing is classified as
modified if and only if (both sides carry a (truthy) `lastModifiedAt` and the
values differ), or exactly one of the two sides carries one, or the titles
differ; in particular, when neither side carries a timestamp and the titles
agree, the document is not classified as modified. -/
theorem c4_modified_classification
    (cachedMetadata : List DocumentMetadata) (cachedGraphData : GraphData)
    (currentDocuments : List CraftDocument)
    (fetchBlocks : String → Except Unit (List CraftBlock))
    (doc : CraftDocument) (m : DocumentMetadata)
    (hndCur : (currentDocuments.map CraftDocument.id).Nodup)
    (hndCache : (cachedMetadata.map DocumentMetadata.id).Nodup)
    (hdoc : doc ∈ currentDocuments) (hm : m ∈ cachedMetadata) (hid : m.id = doc.id) :
    (doc.id ∈ (Fetcher.buildGraphIncremental cachedMetadata cachedGraphData
        currentDocuments fetchBlocks).modified ↔
      ((strTruthy doc.lastModifiedAt = true ∧ strTruthy m.lastModifiedAt = true ∧
          doc.lastModifiedAt ≠ m.lastModifiedAt) ∨
       (strTruthy doc.lastModifiedAt = true ∧ strTruthy m.lastModifiedAt = false) ∨
       (strTruthy doc.lastModifiedAt = false ∧ strTruthy m.lastModifiedAt = true) ∨
       doc.title ≠ m.title)) ∧
    ((strTruthy doc.lastModifiedAt = false ∧ strTruthy m.lastModifiedAt = false ∧
        doc.title = m.title) →
      doc.id ∉ (Fetcher.buildGraphIncremental cachedMetadata cachedGraphData
        currentDocuments fetchBlocks).modified) := by
  have hget : alGet (Fetcher.cachedDocMapOf cachedMetadata) doc.id = some m := by
    rw [← hid]
    exact alGet_buildMap DocumentMetadata.id (fun b => b) cachedMetadata [] hndCache hm
  have hboolSpec : Fetcher.isModifiedDoc doc m = true ↔
      ((strTruthy doc.lastModifiedAt = true ∧ strTruthy m.lastModifiedAt = true ∧
          doc.lastModifiedAt ≠ m.lastModifiedAt) ∨
       (strTruthy doc.lastModifiedAt = true ∧ strTruthy m.lastModifiedAt = false) ∨
       (strTruthy doc.lastModifiedAt = false ∧ strTruthy m.lastModifiedAt = true) ∨
       doc.title ≠ m.title) := by
    unfold Fetcher.isModifiedDoc Fetcher.hasTimestampChange
    cases hd : strTruthy doc.lastModifiedAt <;> cases hc : strTruthy m.lastModifiedAt <;>
      simp [bne_iff_ne]
  have hmain : doc.id ∈ (Fetcher.buildGraphIncremental cachedMetadata cachedGraphData
      currentDocuments fetchBlocks).modified ↔ Fetcher.isModifiedDoc doc m = true := by
    rw [Fetcher.buildGraphIncremental_modified_eq]
    unfold Fetcher.addedModifiedOf
    rw [Fetcher.mem_classify_modified]
    constructor
    · rintro (h | ⟨d, hd, hdid, c, hcget, hcmod⟩)
      · simp at h
      · have hde : d = doc := List.inj_on_of_nodup_map hndCur hd hdoc hdid
        subst hde
        rw [hget] at hcget
        injection hcget with hce
        subst hce
        exact hcmod
    · intro hmod
      exact Or.inr ⟨doc, hdoc, rfl, m, hget, hmod⟩
  refine ⟨hmain.trans hboolSpec, ?_⟩
  rintro ⟨h1, h2, h3⟩ hmem
  rcases (hmain.trans hboolSpec).mp hmem with ⟨ha, _⟩ | ⟨ha, _⟩ | ⟨_, hb⟩ | ht
  · rw [h1] at ha
    cases ha
  · rw [h1] at ha
    cases ha
  · rw [h2] at hb
    cases hb
  · exact ht h3


/-- Witness for C4 at a concrete input: document `X` is present on both
sides, timestamps are absent on both sides and the titles differ, so `X` is
classified as modified. -/
theorem c4_witness :
    (([Wit.dX].map CraftDocument.id).Nodup ∧ ([Wit.mdX].map DocumentMetadata.id).Nodup ∧
      Wit.dX ∈ [Wit.dX] ∧ Wit.mdX ∈ [Wit.mdX] ∧ Wit.mdX.id = Wit.dX.id) ∧
    ((Wit.dX.id ∈ (Fetcher.buildGraphIncremental [Wit.mdX] ⟨[], []⟩ [Wit.dX]
        (fun _ => Except.ok [])).modified ↔
      ((strTruthy Wit.dX.lastModifiedAt = true ∧ strTruthy Wit.mdX.lastModifiedAt = true ∧
          Wit.dX.lastModifiedAt ≠ Wit.mdX.lastModifiedAt) ∨
       (strTruthy Wit.dX.lastModifiedAt = true ∧ strTruthy Wit.mdX.lastModifiedAt = false) ∨
       (strTruthy Wit.dX.lastModifiedAt = false ∧ strTruthy Wit.mdX.lastModifiedAt = true) ∨
       Wit.dX.title ≠ Wit.mdX.title)) ∧
     ((strTruthy Wit.dX.lastModifiedAt = false ∧ strTruthy Wit.mdX.lastModifiedAt = false ∧
         Wit.dX.title = Wit.mdX.title) →
       Wit.dX.id ∉ (Fetcher.buildGraphIncremental [Wit.mdX] ⟨[], []⟩ [Wit.dX]
         (fun _ => Except.ok [])).modified)) :=
  ⟨⟨by decide, by decide, by decide, by decide, by decide⟩,
   c4_modified_classification [Wit.mdX] ⟨[], []⟩ [Wit.dX] (fun _ => Except.ok [])
     Wit.dX Wit.mdX (by decide) (by decide) (by decide) (by decide) (by decide)⟩

namespace Demo

/-! ### Characterization of `extractHashtags` (claim C7) -/

theorem mem_foldl_append_if_new :
    ∀ (anc : List String) (acc : List String) (x : String),
      x ∈ anc.foldl (fun a p => if p ∈ a then a else a ++ [p]) acc ↔ x ∈ acc ∨ x ∈ anc
  | [], acc, x => by simp
  | p :: anc, acc, x => by
    simp only [List.foldl_cons]
    rw [mem_foldl_append_if_new anc _ x]
    by_cases hp : p ∈ acc
    · simp only [if_pos hp]
      constructor
      · rintro (h | h)
        · exact Or.inl h
        · simp [h]
      · rintro (h | h)
        · exact Or.inl h
        · rcases List.mem_cons.mp h with h | h
          · exact Or.inl (h ▸ hp)
          · exact Or.inr h
    · simp only [if_neg hp]
      constructor
      · rintro (h | h)
        · rcases List.mem_append.mp h with h | h
          · exact Or.inl h
          · simp only [List.mem_singleton] at h
            simp [h]
        · simp [h]
      · rintro (h | h)
        · exact Or.inl (List.mem_append.mpr (Or.inl h))
        · rcases List.mem_cons.mp h with h | h
          · exact Or.inl (List.mem_append.mpr (Or.inr (by simp [h])))
          · exact Or.inr h

theorem mem_addTagStep (tags : List String) (t : String) (x : String) :
    x ∈ addTagStep tags t ↔
      x ∈ tags ∨ x = t ∨ (containsSlash t = true ∧ x ∈ tagAncestors t) := by
  unfold addTagStep
  by_cases hs : containsSlash t = true
  · rw [if_pos hs, mem_foldl_append_if_new]
    constructor
    · rintro (h | h)
      · rcases List.mem_append.mp h with h | h
        · exact Or.inl h
        · simp only [List.mem_singleton] at h
          exact Or.inr (Or.inl h)
      · exact Or.inr (Or.inr ⟨hs, h⟩)
    · rintro (h | h | ⟨_, h⟩)
      · exact Or.inl (List.mem_append.mpr (Or.inl h))
      · exact Or.inl (List.mem_append.mpr (Or.inr (by simp [h])))
      · exact Or.inr h
  · rw [if_neg hs]
    constructor
    · intro h
      rcases List.mem_append.mp h with h | h
      · exact Or.inl h
      · simp only [List.mem_singleton] at h
        exact Or.inr (Or.inl h)
    · rintro (h | h | ⟨hc, _⟩)
      · exact List.mem_append.mpr (Or.inl h)
      · exact List.mem_append.mpr (Or.inr (by simp [h]))
      · exact absurd hc hs

theorem mem_foldl_addTagStep :
    ∀ (ms : List String) (acc : List String) (x : String),
      x ∈ ms.foldl addTagStep acc ↔
        x ∈ acc ∨ ∃ t ∈ ms, x = t ∨ (containsSlash t = true ∧ x ∈ tagAncestors t)
  | [], acc, x => by simp
  | t :: ms, acc, x => by
    simp only [List.foldl_cons]
    rw [mem_foldl_addTagStep ms _ x, mem_addTagStep]
    constructor
    · rintro ((h | h | h) | h)
      · exact Or.inl h
      · exact Or.inr ⟨t, by simp, Or.inl h⟩
      · exact Or.inr ⟨t, by simp, Or.inr h⟩
      · rcases h with ⟨u, hu, hx⟩
        exact Or.inr ⟨u, by simp [hu], hx⟩
    · rintro (h | ⟨u, hu, hx⟩)
      · exact Or.inl (Or.inl h)
      · rcases List.mem_cons.mp hu with hu | hu
        · subst hu
          rcases hx with hx | hx
          · exact Or.inl (Or.inr (Or.inl hx))
          · exact Or.inl (Or.inr (Or.inr hx))
        · exact Or.inr ⟨u, hu, hx⟩

end Demo

/-! ### Lemmas for the relationship rebuilder (claim C8) -/

theorem alGet_append {α : Type} (a b : List (String × α)) (s : String) :
    alGet (a ++ b) s = match alGet a s with
      | some v => some v
      | none => alGet b s := by
  induction a with
  | nil => simp [alGet]
  | cons p rest ih =>
    obtain ⟨k', v'⟩ := p
    by_cases h : k' = s
    · simp [alGet, h]
    · simpa [alGet, h] using ih

theorem alSet_append_of_not_has {α : Type} {m : List (String × α)} {k : String} (v : α)
    (h : alHas m k = false) : alSet m k v = m ++ [(k, v)] := by
  induction m with
  | nil => simp [alSet]
  | cons p rest ih =>
    obtain ⟨k', v'⟩ := p
    by_cases h1 : k' = k
    · subst h1
      simp [alHas, alGet] at h
    · have hrest : alHas rest k = false := by
        simpa [alHas, alGet, h1] using h
      simp [alSet, h1, ih hrest]

theorem map_eq_self_of_fixed {β : Type} (f : β → β) :
    ∀ (l : List β), (∀ x ∈ l, f x = x) → l.map f = l
  | [], _ => rfl
  | a :: l, h => by
    simp only [List.map_cons]
    rw [h a (by simp), map_eq_self_of_fixed f l (fun x hx => h x (by simp [hx]))]

theorem foldl_congr_of_map_eq {β γ σ : Type} (f : β → γ) (step : σ → β → σ)
    (hstep : ∀ s a b, f a = f b → step s a = step s b) :
    ∀ (l l' : List β), l.map f = l'.map f → ∀ s, l.foldl step s = l'.foldl step s
  | [], [], _, _ => rfl
  | [], _ :: _, h, _ => by simp at h
  | _ :: _, [], h, _ => by simp at h
  | a :: l, b :: l', h, s => by
    simp only [List.map_cons, List.cons.injEq] at h
    simp only [List.foldl_cons]
    rw [hstep s a b h.1]
    exact foldl_congr_of_map_eq f step hstep l l' h.2 _

namespace Parser


theorem resetNode_congr {a b : GraphNode} (h : eraseAdj a = eraseAdj b) :
    resetNode a = resetNode b := by
  have ha : resetNode a = { eraseAdj a with linksTo := some [], linkedFrom := some [] } := rfl
  have hb : resetNode b = { eraseAdj b with linksTo := some [], linkedFrom := some [] } := rfl
  rw [ha, hb, h]

theorem id_congr_of_eraseAdj {a b : GraphNode} (h : eraseAdj a = eraseAdj b) :
    a.id = b.id := by
  have : (eraseAdj a).id = (eraseAdj b).id := congrArg GraphNode.id h
  exact this

/-- The two node mutations of `rebuildLinkStep` do not change anything the
reset projection keeps. -/
theorem resetNode_rebuildFn_linksTo (t : String) (v : GraphNode) :
    resetNode (if t ∈ v.linksTo.getD [] then v
      else { v with linksTo := some (v.linksTo.getD [] ++ [t]) }) = resetNode v := by
  by_cases h : t ∈ v.linksTo.getD [] <;> simp [h, resetNode]

theorem resetNode_rebuildFn_linkedFrom (s : String) (v : GraphNode) :
    resetNode (if s ∈ v.linkedFrom.getD [] then v
      else { v with linkedFrom := some (v.linkedFrom.getD [] ++ [s]) }) = resetNode v := by
  by_cases h : s ∈ v.linkedFrom.getD [] <;> simp [h, resetNode]

theorem map_resetPair_alUpdate (m : List (String × GraphNode)) (k : String)
    (f : GraphNode → GraphNode) (hf : ∀ v, resetNode (f v) = resetNode v) :
    (alUpdate m k f).map (fun p => (p.1, resetNode p.2)) =
      m.map (fun p => (p.1, resetNode p.2)) := by
  induction m with
  | nil => rfl
  | cons p rest ih =>
    obtain ⟨k', v'⟩ := p
    by_cases h1 : k' = k
    · simp [alUpdate, h1, hf]
    · simp [alUpdate, h1, ih]

theorem map_resetPair_rebuildLinkStep (m : List (String × GraphNode)) (link : GraphLink) :
    (rebuildLinkStep m link).map (fun p => (p.1, resetNode p.2)) =
      m.map (fun p => (p.1, resetNode p.2)) := by
  unfold rebuildLinkStep
  by_cases h : alHas m link.source = true ∧ alHas m link.target = true
  · rw [if_pos h]
    rw [map_resetPair_alUpdate _ _ _ (resetNode_rebuildFn_linkedFrom link.source)]
    rw [map_resetPair_alUpdate _ _ _ (resetNode_rebuildFn_linksTo link.target)]
  · rw [if_neg h]

theorem map_resetPair_foldl_rebuildLinkStep (links : List GraphLink) :
    ∀ (m : List (String × GraphNode)),
      (links.foldl rebuildLinkStep m).map (fun p => (p.1, resetNode p.2)) =
        m.map (fun p => (p.1, resetNode p.2)) := by
  induction links with
  | nil => intro m; rfl
  | cons l ls ih =>
    intro m
    simp only [List.foldl_cons]
    rw [ih, map_resetPair_rebuildLinkStep]

theorem alKeys_rebuildLinkStep (m : List (String × GraphNode)) (link : GraphLink) :
    alKeys (rebuildLinkStep m link) = alKeys m := by
  unfold rebuildLinkStep
  by_cases h : alHas m link.source = true ∧ alHas m link.target = true
  · rw [if_pos h, alKeys_alUpdate, alKeys_alUpdate]
  · rw [if_neg h]

theorem alKeys_foldl_rebuildLinkStep (links : List GraphLink) :
    ∀ (m : List (String × GraphNode)),
      alKeys (links.foldl rebuildLinkStep m) = alKeys m := by
  induction links with
  | nil => intro m; rfl
  | cons l ls ih =>
    intro m
    simp only [List.foldl_cons]
    rw [ih, alKeys_rebuildLinkStep]

/-- Every entry of an `initialNodesMap` stores a reset node whose stored id
is its key. -/
theorem initialNodesMap_entry_invariant (nodes : List GraphNode) :
    ∀ p ∈ initialNodesMap nodes, resetNode p.2 = p.2 ∧ p.2.id = p.1 := by
  unfold initialNodesMap
  refine foldl_induction (fun m n => alSet m n.id (resetNode n))
    (fun m => ∀ p ∈ m, resetNode p.2 = p.2 ∧ p.2.id = p.1) nodes [] ?_ ?_
  · intro p hp
    simp at hp
  · intro s n _ hs p hp
    rcases mem_alSet_elim hp with h | h
    · subst h
      exact ⟨rfl, rfl⟩
    · exact hs p h

theorem alNodupKeys_initialNodesMap (nodes : List GraphNode) :
    alNodupKeys (initialNodesMap nodes) :=
  alNodupKeys_buildMap GraphNode.id resetNode nodes [] (by simp [alNodupKeys])

theorem id_rebuildFn_linksTo (t : String) (v : GraphNode) :
    (if t ∈ v.linksTo.getD [] then v
      else { v with linksTo := some (v.linksTo.getD [] ++ [t]) }).id = v.id := by
  by_cases h : t ∈ v.linksTo.getD [] <;> simp [h]

theorem id_rebuildFn_linkedFrom (s : String) (v : GraphNode) :
    (if s ∈ v.linkedFrom.getD [] then v
      else { v with linkedFrom := some (v.linkedFrom.getD [] ++ [s]) }).id = v.id := by
  by_cases h : s ∈ v.linkedFrom.getD [] <;> simp [h]

theorem alUpdate_id_invariant {m : List (String × GraphNode)} {k : String}
    {f : GraphNode → GraphNode} (hm : ∀ p ∈ m, p.2.id = p.1)
    (hf : ∀ v, (f v).id = v.id) : ∀ p ∈ alUpdate m k f, p.2.id = p.1 := by
  intro p hp
  rcases mem_alUpdate_elim hp with hp | ⟨v, hv, hpe⟩
  · exact hm p hp
  · subst hpe
    exact (hf v).trans (hm _ hv)

/-- Entries of the rebuilt node map keep `id = key`. -/
theorem rebuild_entry_id_invariant (links : List GraphLink) :
    ∀ (m : List (String × GraphNode)), (∀ p ∈ m, p.2.id = p.1) →
      ∀ p ∈ links.foldl rebuildLinkStep m, p.2.id = p.1 := by
  intro m hm
  refine foldl_induction rebuildLinkStep (fun m2 => ∀ p ∈ m2, p.2.id = p.1)
    links m hm ?_
  intro s link _ hs
  unfold rebuildLinkStep
  by_cases h : alHas s link.source = true ∧ alHas s link.target = true
  · rw [if_pos h]
    exact alUpdate_id_invariant
      (alUpdate_id_invariant hs (id_rebuildFn_linksTo link.target))
      (id_rebuildFn_linkedFrom link.source)
  · rw [if_neg h]
    exact hs

/-- Re-inserting the values of a fresh-keyed node map reproduces it (with
reset values): the heart of idempotence. -/
theorem foldl_initStep_fresh :
    ∀ (m acc : List (String × GraphNode)),
      (m.map Prod.fst).Nodup →
      (∀ k ∈ m.map Prod.fst, alHas acc k = false) →
      (∀ p ∈ m, p.2.id = p.1) →
      (alValues m).foldl (fun a n => alSet a n.id (resetNode n)) acc
        = acc ++ m.map (fun p => (p.1, resetNode p.2))
  | [], acc, _, _, _ => by simp [alValues]
  | (k, v) :: rest, acc, hnd, hfresh, hid => by
    have hvk : v.id = k := hid (k, v) (by simp)
    have hnd0 : k ∉ rest.map Prod.fst ∧ (rest.map Prod.fst).Nodup := by
      rw [List.map_cons] at hnd
      exact List.nodup_cons.mp hnd
    have hnd' : (rest.map Prod.fst).Nodup ∧ k ∉ rest.map Prod.fst := ⟨hnd0.2, hnd0.1⟩
    simp only [alValues, List.map_cons, List.foldl_cons]
    rw [hvk, alSet_append_of_not_has (resetNode v) (hfresh k (by simp))]
    rw [show (rest.map Prod.snd).foldl (fun a n => alSet a n.id (resetNode n))
          (acc ++ [(k, resetNode v)])
        = (alValues rest).foldl (fun a n => alSet a n.id (resetNode n))
          (acc ++ [(k, resetNode v)]) from rfl]
    rw [foldl_initStep_fresh rest (acc ++ [(k, resetNode v)]) hnd'.1 ?_ ?_]
    · simp
    · intro k2 hk2
      have hne : k2 ≠ k := fun he => hnd'.2 (he ▸ hk2)
      rw [show alHas (acc ++ [(k, resetNode v)]) k2
          = (alGet (acc ++ [(k, resetNode v)]) k2).isSome from rfl]
      rw [alGet_append]
      have : alGet acc k2 = none := by
        have := hfresh k2 (by simp [hk2])
        simpa [alHas, Option.isSome_iff_exists] using this
      simp only [this]
      simp [alGet, hne.symm, alHas]
    · intro p hp
      exact hid p (by simp [hp])

theorem nodup_append_singleton {l : List String} {x : String}
    (h : l.Nodup) (hx : x ∉ l) : (l ++ [x]).Nodup := by
  rw [List.nodup_append]
  exact ⟨h, List.nodup_singleton x, fun a ha hb => by
    simp only [List.mem_singleton] at hb
    exact hx (hb ▸ ha)⟩

/-- The adjacency lists of every stored node stay duplicate free through the
rebuild loop. -/
theorem rebuild_adj_nodup_invariant (links : List GraphLink) :
    ∀ (m : List (String × GraphNode)),
      (∀ p ∈ m, (p.2.linksTo.getD []).Nodup ∧ (p.2.linkedFrom.getD []).Nodup) →
      ∀ p ∈ links.foldl rebuildLinkStep m,
        (p.2.linksTo.getD []).Nodup ∧ (p.2.linkedFrom.getD []).Nodup := by
  intro m hm
  refine foldl_induction rebuildLinkStep
    (fun m2 => ∀ p ∈ m2, (p.2.linksTo.getD []).Nodup ∧ (p.2.linkedFrom.getD []).Nodup)
    links m hm ?_
  intro s link _ hs
  unfold rebuildLinkStep
  by_cases h : alHas s link.source = true ∧ alHas s link.target = true
  · rw [if_pos h]
    intro p hp
    rcases mem_alUpdate_elim hp with hp | ⟨v, hv, hpe⟩
    · rcases mem_alUpdate_elim hp with hp | ⟨w, hw, hpe⟩
      · exact hs p hp
      · subst hpe
        have hw' := hs _ hw
        by_cases hc : link.target ∈ w.linksTo.getD []
        · simpa [hc] using hw'
        · simp only [hc, if_false]
          exact ⟨by simpa using nodup_append_singleton hw'.1 hc, by simpa using hw'.2⟩
    · have hv' : (v.linksTo.getD []).Nodup ∧ (v.linkedFrom.getD []).Nodup := by
        rcases mem_alUpdate_elim hv with hv | ⟨w, hw, hve⟩
        · exact hs _ hv
        · have hvw : v = (if link.target ∈ w.linksTo.getD [] then w
              else { w with linksTo := some (w.linksTo.getD [] ++ [link.target]) }) :=
            congrArg Prod.snd hve
          rw [hvw]
          have hw' := hs _ hw
          by_cases hc : link.target ∈ w.linksTo.getD []
          · simpa [hc] using hw'
          · simp only [hc, if_false]
            exact ⟨by simpa using nodup_append_singleton hw'.1 hc, by simpa using hw'.2⟩
      subst hpe
      by_cases hc : link.source ∈ v.linkedFrom.getD []
      · simpa [hc] using hv'
      · simp only [hc, if_false]
        exact ⟨by simpa using hv'.1, by simpa using nodup_append_singleton hv'.2 hc⟩
  · rw [if_neg h]
    exact hs

end Parser

/-- **C8.**  `rebuildNodeRelationships` derives `linksTo`/`linkedFrom` purely
from the links array (two inputs agreeing on links and on everything except
the pre-existing adjacency fields rebuild identically), both lists come out
duplicate free, and the rebuild is idempotent. -/
theorem c8_rebuild_pure_idempotent :
    (∀ g g' : GraphData, g.links = g'.links →
      g.nodes.map Parser.eraseAdj = g'.nodes.map Parser.eraseAdj →
      Parser.rebuildNodeRelationships g = Parser.rebuildNodeRelationships g') ∧
    (∀ g : GraphData, ∀ n ∈ (Parser.rebuildNodeRelationships g).nodes,
      (n.linksTo.getD []).Nodup ∧ (n.linkedFrom.getD []).Nodup) ∧
    (∀ g : GraphData,
      Parser.rebuildNodeRelationships (Parser.rebuildNodeRelationships g) =
        Parser.rebuildNodeRelationships g) := by
  have hinit_congr : ∀ (nodes nodes' : List GraphNode),
      nodes.map Parser.eraseAdj = nodes'.map Parser.eraseAdj →
      Parser.initialNodesMap nodes = Parser.initialNodesMap nodes' := by
    intro nodes nodes' hmap
    unfold Parser.initialNodesMap
    refine foldl_congr_of_map_eq Parser.eraseAdj _ ?_ nodes nodes' hmap []
    intro s a b hab
    rw [show a.id = b.id from Parser.id_congr_of_eraseAdj hab,
      Parser.resetNode_congr hab]
  refine ⟨?_, ?_, ?_⟩
  · intro g g' hl hn
    unfold Parser.rebuildNodeRelationships
    rw [hinit_congr g.nodes g'.nodes hn, hl]
  · intro g n hn
    unfold Parser.rebuildNodeRelationships at hn
    simp only [alValues, List.mem_map] at hn
    obtain ⟨p, hp, hpn⟩ := hn
    subst hpn
    refine Parser.rebuild_adj_nodup_invariant g.links (Parser.initialNodesMap g.nodes)
      ?_ p hp
    intro q hq
    have hreset := (Parser.initialNodesMap_entry_invariant g.nodes q hq).1
    have hLT : q.2.linksTo = some [] := by
      rw [← hreset]
      rfl
    have hLF : q.2.linkedFrom = some [] := by
      rw [← hreset]
      rfl
    rw [hLT, hLF]
    simp
  · intro g
    set init1 := Parser.initialNodesMap g.nodes with hinit1
    set nm := g.links.foldl Parser.rebuildLinkStep init1 with hnm
    have hrg : Parser.rebuildNodeRelationships g = ⟨alValues nm, g.links⟩ := rfl
    have hkeys : alKeys nm = alKeys init1 := Parser.alKeys_foldl_rebuildLinkStep g.links init1
    have hnd1 : alNodupKeys init1 := Parser.alNodupKeys_initialNodesMap g.nodes
    have hndnm : (nm.map Prod.fst).Nodup := by
      rw [show nm.map Prod.fst = alKeys nm from rfl, hkeys]
      exact hnd1
    have hidnm : ∀ p ∈ nm, p.2.id = p.1 :=
      Parser.rebuild_entry_id_invariant g.links init1
        (fun p hp => (Parser.initialNodesMap_entry_invariant g.nodes p hp).2)
    have hinit2 : Parser.initialNodesMap (alValues nm)
        = nm.map (fun p => (p.1, Parser.resetNode p.2)) := by
      unfold Parser.initialNodesMap
      rw [show (alValues nm).foldl (fun m n => alSet m n.id (Parser.resetNode n)) []
          = (alValues nm).foldl (fun a n => alSet a n.id (Parser.resetNode n)) [] from rfl]
      rw [Parser.foldl_initStep_fresh nm [] hndnm (fun k _ => rfl) hidnm]
      simp
    have hproj : nm.map (fun p => (p.1, Parser.resetNode p.2))
        = init1.map (fun p => (p.1, Parser.resetNode p.2)) := by
      rw [hnm]
      exact Parser.map_resetPair_foldl_rebuildLinkStep g.links init1
    have hfix : init1.map (fun p => (p.1, Parser.resetNode p.2)) = init1 := by
      refine map_eq_self_of_fixed _ init1 ?_
      intro p hp
      have := (Parser.initialNodesMap_entry_invariant g.nodes p hp).1
      rw [this]
    have hinit2' : Parser.initialNodesMap (alValues nm) = init1 := by
      rw [hinit2, hproj, hfix]
    show Parser.rebuildNodeRelationships ⟨alValues nm, g.links⟩ = ⟨alValues nm, g.links⟩
    unfold Parser.rebuildNodeRelationships
    rw [show (⟨alValues nm, g.links⟩ : GraphData).nodes = alValues nm from rfl,
      hinit2']


namespace Parser

/-! ### Characterization of phase 1 of `buildGraphData` -/

/-- Membership in the per-source target sets through one target loop. -/
theorem lm_mem_target_fold (documents : List CraftDocument)
    (btd : List (String × String)) (docId : String) :
    ∀ (tgts : List String) (st : List (String × GraphNode) × List (String × List String))
      (s x : String),
      (∃ ts, alGet ((tgts.foldl (addTargetStep documents btd docId) st).2) s = some ts ∧ x ∈ ts)
        ↔ (∃ ts, alGet st.2 s = some ts ∧ x ∈ ts) ∨
          (s = docId ∧ alHas st.2 docId = true ∧ ∃ t ∈ tgts, resolveTarget btd t = x)
  | [], st, s, x => by simp
  | t :: tgts, st, s, x => by
    simp only [List.foldl_cons]
    rw [lm_mem_target_fold documents btd docId tgts _ s x]
    have hlm1 : (addTargetStep documents btd docId st t).2
        = alUpdate st.2 docId (fun ts => sAdd ts (resolveTarget btd t)) := rfl
    rw [hlm1, alHas_alUpdate]
    by_cases hs : docId = s
    · subst hs
      cases hget : alGet st.2 docId with
      | none =>
        have hhas0 : alHas st.2 docId = false := by simp [alHas, hget]
        have hupd : alGet (alUpdate st.2 docId (fun ts => sAdd ts (resolveTarget btd t)))
            docId = none := by
          rw [alGet_alUpdate, if_pos rfl, hget]
          rfl
        rw [hupd]
        simp [hhas0]
      | some ts0 =>
        have hhas0 : alHas st.2 docId = true := by simp [alHas, hget]
        have hupd : alGet (alUpdate st.2 docId (fun ts => sAdd ts (resolveTarget btd t)))
            docId = some (sAdd ts0 (resolveTarget btd t)) := by
          rw [alGet_alUpdate, if_pos rfl, hget]
          rfl
        constructor
        · rintro (⟨ts, hts, hx⟩ | ⟨_, _, t', ht', hxr⟩)
          · rw [hupd] at hts
            injection hts with hts
            subst hts
            rcases mem_sAdd.mp hx with hx | hx
            · exact Or.inl ⟨ts0, rfl, hx⟩
            · exact Or.inr ⟨rfl, hhas0, t, List.mem_cons_self _ _, hx.symm⟩
          · exact Or.inr ⟨rfl, hhas0, t', List.mem_cons_of_mem _ ht', hxr⟩
        · rintro (⟨ts, hts, hx⟩ | ⟨_, _, t', ht', hxr⟩)
          · injection hts with hts
            subst hts
            exact Or.inl ⟨_, hupd, mem_sAdd.mpr (Or.inl hx)⟩
          · rcases List.mem_cons.mp ht' with ht' | ht'
            · subst ht'
              exact Or.inl ⟨_, hupd, mem_sAdd.mpr (Or.inr hxr.symm)⟩
            · exact Or.inr ⟨rfl, hhas0, t', ht', hxr⟩
    · have hupd : alGet (alUpdate st.2 docId (fun ts => sAdd ts (resolveTarget btd t))) s
          = alGet st.2 s := by
        rw [alGet_alUpdate, if_neg hs]
      rw [hupd]
      have hsne : ¬ s = docId := fun h => hs h.symm
      simp only [hsne, false_and, or_false]

/-- Membership in the per-source target sets through one block loop. -/
theorem lm_mem_block_fold (documents : List CraftDocument)
    (btd : List (String × String)) (docId : String) :
    ∀ (blocks : List CraftBlock)
      (st : List (String × GraphNode) × List (String × List String)) (s x : String),
      (∃ ts, alGet ((blocks.foldl (processBlockStep documents btd docId) st).2) s
          = some ts ∧ x ∈ ts)
        ↔ (∃ ts, alGet st.2 s = some ts ∧ x ∈ ts) ∨
          (s = docId ∧ ∃ t ∈ extractLinksFromBlockList blocks, resolveTarget btd t = x)
  | [], st, s, x => by simp [extractLinksFromBlockList]
  | block :: blocks, st, s, x => by
    simp only [List.foldl_cons]
    rw [lm_mem_block_fold documents btd docId blocks _ s x]
    have hsplit : extractLinksFromBlockList (block :: blocks)
        = extractLinksFromBlock block ++ extractLinksFromBlockList blocks := rfl
    rw [hsplit]
    have hstep : (∃ ts, alGet ((processBlockStep documents btd docId st block).2) s
          = some ts ∧ x ∈ ts)
        ↔ (∃ ts, alGet st.2 s = some ts ∧ x ∈ ts) ∨
          (s = docId ∧ ∃ t ∈ extractLinksFromBlock block, resolveTarget btd t = x) := by
      unfold processBlockStep
      by_cases hlen : (extractLinksFromBlock block).length > 0
      · rw [if_pos hlen]
        have hmem0 : ∀ y,
            (∃ ts, alGet (if alHas st.2 docId then st.2 else alSet st.2 docId []) y
                = some ts ∧ x ∈ ts)
              ↔ (∃ ts, alGet st.2 y = some ts ∧ x ∈ ts) := by
          intro y
          by_cases hh : alHas st.2 docId
          · rw [if_pos hh]
          · rw [if_neg hh]
            rw [show alGet (alSet st.2 docId ([] : List String)) y
                = if docId = y then some [] else alGet st.2 y from alGet_alSet st.2 docId [] y]
            by_cases hy : docId = y
            · subst hy
              have : alGet st.2 docId = none :=
                Option.not_isSome_iff_eq_none.mp (by simpa [alHas] using hh)
              simp [this]
            · rw [if_neg hy]
        have hhas0 : alHas (if alHas st.2 docId then st.2 else alSet st.2 docId []) docId
            = true := by
          by_cases hh : alHas st.2 docId
          · rw [if_pos hh]
            exact hh
          · rw [if_neg hh, alHas_alSet]
            simp
        rw [lm_mem_target_fold documents btd docId (extractLinksFromBlock block)
          (st.1, if alHas st.2 docId then st.2 else alSet st.2 docId []) s x]
        rw [show (st.1, if alHas st.2 docId then st.2 else alSet st.2 docId []).2
            = (if alHas st.2 docId then st.2 else alSet st.2 docId []) from rfl]
        rw [hmem0 s, hhas0]
        simp
      · rw [if_neg hlen]
        have : extractLinksFromBlock block = [] := by
          simpa using hlen
        simp [this]
    rw [hstep]
    constructor
    · rintro ((h | h) | h)
      · exact Or.inl h
      · exact Or.inr ⟨h.1, by
          rcases h.2 with ⟨t, ht, hr⟩
          exact ⟨t, List.mem_append.mpr (Or.inl ht), hr⟩⟩
      · exact Or.inr ⟨h.1, by
          rcases h.2 with ⟨t, ht, hr⟩
          exact ⟨t, List.mem_append.mpr (Or.inr ht), hr⟩⟩
    · rintro (h | ⟨hsd, t, ht, hr⟩)
      · exact Or.inl (Or.inl h)
      · rcases List.mem_append.mp ht with ht | ht
        · exact Or.inl (Or.inr ⟨hsd, t, ht, hr⟩)
        · exact Or.inr ⟨hsd, t, ht, hr⟩

/-- Membership in the per-source target sets through the document loop. -/
theorem lm_mem_doc_fold (documents : List CraftDocument)
    (btd : List (String × String)) (blocksMap : List (String × List CraftBlock)) :
    ∀ (docs : List CraftDocument)
      (st : List (String × GraphNode) × List (String × List String)) (s x : String),
      (∃ ts, alGet ((docs.foldl (processDocumentStep documents btd blocksMap) st).2) s
          = some ts ∧ x ∈ ts)
        ↔ (∃ ts, alGet st.2 s = some ts ∧ x ∈ ts) ∨
          ∃ doc ∈ docs, doc.id = s ∧
            ∃ t ∈ rawLinksOfDoc blocksMap doc.id, resolveTarget btd t = x
  | [], st, s, x => by simp
  | doc :: docs, st, s, x => by
    simp only [List.foldl_cons]
    rw [lm_mem_doc_fold documents btd blocksMap docs _ s x]
    have hstep : (∃ ts, alGet ((processDocumentStep documents btd blocksMap st doc).2) s
          = some ts ∧ x ∈ ts)
        ↔ (∃ ts, alGet st.2 s = some ts ∧ x ∈ ts) ∨
          (doc.id = s ∧ ∃ t ∈ rawLinksOfDoc blocksMap doc.id, resolveTarget btd t = x) := by
      unfold processDocumentStep
      cases hbm : alGet blocksMap doc.id with
      | none =>
        simp only [hbm]
        unfold rawLinksOfDoc
        rw [hbm]
        simp
      | some blocks =>
        simp only [hbm]
        rw [lm_mem_block_fold documents btd doc.id blocks _ s x]
        unfold rawLinksOfDoc
        rw [hbm]
        constructor
        · rintro (h | h)
          · exact Or.inl h
          · exact Or.inr ⟨h.1.symm, h.2⟩
        · rintro (h | h)
          · exact Or.inl h
          · exact Or.inr ⟨h.1.symm, h.2⟩
    rw [hstep]
    constructor
    · rintro ((h | h) | h)
      · exact Or.inl h
      · exact Or.inr ⟨doc, by simp, h.1, h.2⟩
      · rcases h with ⟨d, hd, rest⟩
        exact Or.inr ⟨d, by simp [hd], rest⟩
    · rintro (h | ⟨d, hd, hds, rest⟩)
      · exact Or.inl (Or.inl h)
      · rcases List.mem_cons.mp hd with hd | hd
        · subst hd
          exact Or.inl (Or.inr ⟨hds, rest⟩)
        · exact Or.inr ⟨d, hd, hds, rest⟩

/-- The target-set map keeps unique keys and duplicate-free sets through the
target loop. -/
theorem lm_wf_target_fold (documents : List CraftDocument)
    (btd : List (String × String)) (docId : String) :
    ∀ (tgts : List String) (st : List (String × GraphNode) × List (String × List String)),
      alNodupKeys st.2 → (∀ p ∈ st.2, p.2.Nodup) →
      alNodupKeys ((tgts.foldl (addTargetStep documents btd docId) st).2) ∧
        (∀ p ∈ (tgts.foldl (addTargetStep documents btd docId) st).2, p.2.Nodup)
  | [], st, h1, h2 => ⟨h1, h2⟩
  | t :: tgts, st, h1, h2 => by
    simp only [List.foldl_cons]
    refine lm_wf_target_fold documents btd docId tgts _ ?_ ?_
    · exact alNodupKeys_alUpdate _ _ _ h1
    · intro p hp
      rcases mem_alUpdate_elim hp with hp | ⟨v, hv, hpe⟩
      · exact h2 p hp
      · subst hpe
        exact nodup_sAdd (h2 _ hv)

/-- Same invariant through the block loop. -/
theorem lm_wf_block_fold (documents : List CraftDocument)
    (btd : List (String × String)) (docId : String) :
    ∀ (blocks : List CraftBlock)
      (st : List (String × GraphNode) × List (String × List String)),
      alNodupKeys st.2 → (∀ p ∈ st.2, p.2.Nodup) →
      alNodupKeys ((blocks.foldl (processBlockStep documents btd docId) st).2) ∧
        (∀ p ∈ (blocks.foldl (processBlockStep documents btd docId) st).2, p.2.Nodup)
  | [], st, h1, h2 => ⟨h1, h2⟩
  | block :: blocks, st, h1, h2 => by
    simp only [List.foldl_cons]
    refine lm_wf_block_fold documents btd docId blocks _ ?_ ?_
    all_goals
      unfold processBlockStep
      by_cases hlen : (extractLinksFromBlock block).length > 0
    · rw [if_pos hlen]
      refine (lm_wf_target_fold documents btd docId _ _ ?_ ?_).1
      · by_cases hh : alHas st.2 docId
        · rw [show (st.1, if alHas st.2 docId then st.2 else alSet st.2 docId []).2
              = st.2 from by rw [if_pos hh]]
          exact h1
        · rw [show (st.1, if alHas st.2 docId then st.2 else alSet st.2 docId []).2
              = alSet st.2 docId [] from by rw [if_neg hh]]
          exact alNodupKeys_alSet _ _ _ h1
      · intro p hp
        by_cases hh : alHas st.2 docId
        · rw [show (st.1, if alHas st.2 docId then st.2 else alSet st.2 docId []).2
              = st.2 from by rw [if_pos hh]] at hp
          exact h2 p hp
        · rw [show (st.1, if alHas st.2 docId then st.2 else alSet st.2 docId []).2
              = alSet st.2 docId [] from by rw [if_neg hh]] at hp
          rcases mem_alSet_elim hp with hp | hp
          · subst hp
            simp
          · exact h2 p hp
    · rw [if_neg hlen]
      exact h1
    · rw [if_pos hlen]
      refine (lm_wf_target_fold documents btd docId _ _ ?_ ?_).2
      · by_cases hh : alHas st.2 docId
        · rw [show (st.1, if alHas st.2 docId then st.2 else alSet st.2 docId []).2
              = st.2 from by rw [if_pos hh]]
          exact h1
        · rw [show (st.1, if alHas st.2 docId then st.2 else alSet st.2 docId []).2
              = alSet st.2 docId [] from by rw [if_neg hh]]
          exact alNodupKeys_alSet _ _ _ h1
      · intro p hp
        by_cases hh : alHas st.2 docId
        · rw [show (st.1, if alHas st.2 docId then st.2 else alSet st.2 docId []).2
              = st.2 from by rw [if_pos hh]] at hp
          exact h2 p hp
        · rw [show (st.1, if alHas st.2 docId then st.2 else alSet st.2 docId []).2
              = alSet st.2 docId [] from by rw [if_neg hh]] at hp
          rcases mem_alSet_elim hp with hp | hp
          · subst hp
            simp
          · exact h2 p hp
    · rw [if_neg hlen]
      exact h2

/-- Same invariant through the document loop. -/
theorem lm_wf_doc_fold (documents : List CraftDocument)
    (btd : List (String × String)) (blocksMap : List (String × List CraftBlock)) :
    ∀ (docs : List CraftDocument)
      (st : List (String × GraphNode) × List (String × List String)),
      alNodupKeys st.2 → (∀ p ∈ st.2, p.2.Nodup) →
      alNodupKeys ((docs.foldl (processDocumentStep documents btd blocksMap) st).2) ∧
        (∀ p ∈ (docs.foldl (processDocumentStep documents btd blocksMap) st).2, p.2.Nodup)
  | [], st, h1, h2 => ⟨h1, h2⟩
  | doc :: docs, st, h1, h2 => by
    simp only [List.foldl_cons]
    have hstep : alNodupKeys ((processDocumentStep documents btd blocksMap st doc).2) ∧
        (∀ p ∈ (processDocumentStep documents btd blocksMap st doc).2, p.2.Nodup) := by
      unfold processDocumentStep
      cases hbm : alGet blocksMap doc.id with
      | none =>
        simp only [hbm]
        exact ⟨h1, h2⟩
      | some blocks =>
        simp only [hbm]
        exact lm_wf_block_fold documents btd doc.id blocks _ h1 h2
    exact lm_wf_doc_fold documents btd blocksMap docs _ hstep.1 hstep.2

/-! ### Characterization of phase 2 of `buildGraphData` -/

theorem linkTargetStep_links (source : String)
    (st : List (String × GraphNode) × List GraphLink) (t : String) :
    (linkTargetStep source st t).2 =
      if source ≠ t then st.2 ++ [⟨source, t⟩] else st.2 := by
  unfold linkTargetStep
  by_cases h : source ≠ t
  · rw [if_pos h, if_pos h]
  · rw [if_neg h, if_neg h]

theorem target_fold_links (source : String) :
    ∀ (targets : List String) (st : List (String × GraphNode) × List GraphLink),
      (targets.foldl (linkTargetStep source) st).2 =
        st.2 ++ (targets.filter (fun t => !(source == t))).map (fun t => ⟨source, t⟩)
  | [], st => by simp
  | t :: targets, st => by
    simp only [List.foldl_cons]
    rw [target_fold_links source targets _]
    by_cases h : source ≠ t
    · have hb : (!(source == t)) = true := by simpa using h
      rw [show (linkTargetStep source st t).2 = st.2 ++ [⟨source, t⟩] from by
        rw [linkTargetStep_links, if_pos h]]
      simp [List.filter_cons, hb]
    · have hb : (!(source == t)) = false := by simpa using h
      rw [show (linkTargetStep source st t).2 = st.2 from by
        rw [linkTargetStep_links, if_neg h]]
      simp [List.filter_cons, hb]

theorem linkEntryStep_links (st : List (String × GraphNode) × List GraphLink)
    (e : String × List String) :
    (linkEntryStep st e).2 = st.2 ++ entryLinks e := by
  unfold linkEntryStep entryLinks
  rw [target_fold_links]

theorem phase2_links :
    ∀ (lm : List (String × List String)) (st : List (String × GraphNode) × List GraphLink),
      (lm.foldl linkEntryStep st).2 = st.2 ++ (lm.map entryLinks).join
  | [], st => by simp
  | e :: lm, st => by
    simp only [List.foldl_cons, List.map_cons, List.join]
    rw [phase2_links lm _, linkEntryStep_links]
    simp

theorem mem_entryLinks {p : GraphLink} {e : String × List String} :
    p ∈ entryLinks e ↔ p.source = e.1 ∧ p.target ∈ e.2 ∧ e.1 ≠ p.target := by
  unfold entryLinks
  rw [List.mem_map]
  constructor
  · rintro ⟨t, ht, hpe⟩
    have hmem := List.mem_filter.mp ht
    subst hpe
    refine ⟨rfl, hmem.1, ?_⟩
    simpa using hmem.2
  · rintro ⟨hsrc, htgt, hne⟩
    refine ⟨p.target, List.mem_filter.mpr ⟨htgt, by simpa [hsrc] using hne⟩, ?_⟩
    cases p
    simp at hsrc ⊢
    rw [hsrc]

theorem mem_phase2_links {p : GraphLink} (lm : List (String × List String))
    (st : List (String × GraphNode) × List GraphLink) :
    p ∈ (lm.foldl linkEntryStep st).2 ↔
      p ∈ st.2 ∨ ∃ e ∈ lm, p.source = e.1 ∧ p.target ∈ e.2 ∧ e.1 ≠ p.target := by
  rw [phase2_links]
  rw [List.mem_append]
  constructor
  · rintro (h | h)
    · exact Or.inl h
    · rw [List.mem_join] at h
      rcases h with ⟨l, hl, hpl⟩
      rw [List.mem_map] at hl
      rcases hl with ⟨e, he, hle⟩
      subst hle
      exact Or.inr ⟨e, he, mem_entryLinks.mp hpl⟩
  · rintro (h | ⟨e, he, hchar⟩)
    · exact Or.inl h
    · refine Or.inr ?_
      rw [List.mem_join]
      exact ⟨entryLinks e, List.mem_map.mpr ⟨e, he, rfl⟩, mem_entryLinks.mpr hchar⟩

theorem nodup_phase2_links :
    ∀ (lm : List (String × List String)) (st : List (String × GraphNode) × List GraphLink),
      alNodupKeys lm → (∀ e ∈ lm, e.2.Nodup) → st.2.Nodup →
      (∀ p ∈ st.2, p.source ∉ lm.map Prod.fst) →
      ((lm.foldl linkEntryStep st).2).Nodup
  | [], st, _, _, hst, _ => hst
  | e :: lm, st, hkeys, hvals, hst, hdisj => by
    simp only [List.foldl_cons]
    have hkeys0 : ((e :: lm).map Prod.fst).Nodup := hkeys
    rw [List.map_cons] at hkeys0
    have hkeys' : e.1 ∉ lm.map Prod.fst ∧ (lm.map Prod.fst).Nodup :=
      List.nodup_cons.mp hkeys0
    refine nodup_phase2_links lm _ hkeys'.2 (fun e' he' => hvals e' (by simp [he'])) ?_ ?_
    · rw [linkEntryStep_links]
      rw [List.nodup_append]
      refine ⟨hst, ?_, ?_⟩
      · unfold entryLinks
        refine List.Nodup.map ?_ ((hvals e (by simp)).filter _)
        intro a b hab
        injection hab
      · intro p hp hq
        have hps : p.source ∉ (e :: lm).map Prod.fst := hdisj p hp
        have hqs : p.source = e.1 := (mem_entryLinks.mp hq).1
        apply hps
        rw [List.map_cons, List.mem_cons]
        exact Or.inl hqs
    · intro p hp
      rw [linkEntryStep_links, List.mem_append] at hp
      rcases hp with hp | hp
      · intro hmem
        exact hdisj p hp (by simp [hmem])
      · rw [(mem_entryLinks.mp hp).1]
        exact hkeys'.1

/-! ### The master characterizations of `buildGraphData` -/

/-- The links of the built graph are the phase-2 fold over the phase-1
target-set map. -/
theorem buildGraphData_links_eq (documents : List CraftDocument)
    (blocksMap : List (String × List CraftBlock)) :
    (buildGraphData documents blocksMap).links
      = (((documents.foldl (processDocumentStep documents
          (buildBlockToDocumentMap documents blocksMap) blocksMap) ([], [])).2).foldl
            linkEntryStep ((documents.foldl (processDocumentStep documents
              (buildBlockToDocumentMap documents blocksMap) blocksMap) ([], [])).1, [])).2 :=
  rfl

/-- The nodes of the built graph are the values of the phase-2 node map. -/
theorem buildGraphData_nodes_eq (documents : List CraftDocument)
    (blocksMap : List (String × List CraftBlock)) :
    (buildGraphData documents blocksMap).nodes
      = alValues (((documents.foldl (processDocumentStep documents
          (buildBlockToDocumentMap documents blocksMap) blocksMap) ([], [])).2).foldl
            linkEntryStep ((documents.foldl (processDocumentStep documents
              (buildBlockToDocumentMap documents blocksMap) blocksMap) ([], [])).1, [])).1 :=
  rfl

/-- A pair is an edge of the built graph exactly when some document's raw
extracted targets resolve to it, excluding self references. -/
theorem mem_buildGraphData_links (documents : List CraftDocument)
    (blocksMap : List (String × List CraftBlock)) (p : GraphLink) :
    p ∈ (buildGraphData documents blocksMap).links ↔
      ∃ doc ∈ documents, doc.id = p.source ∧
        (∃ t ∈ rawLinksOfDoc blocksMap doc.id,
          resolveTarget (buildBlockToDocumentMap documents blocksMap) t = p.target) ∧
        p.source ≠ p.target := by
  rw [buildGraphData_links_eq]
  rw [mem_phase2_links]
  have hwf := lm_wf_doc_fold documents (buildBlockToDocumentMap documents blocksMap)
    blocksMap documents ([], []) (by simp [alNodupKeys]) (by simp)
  have hdoc := lm_mem_doc_fold documents (buildBlockToDocumentMap documents blocksMap)
    blocksMap documents ([], []) p.source p.target
  simp only [alGet] at hdoc
  constructor
  · rintro (h | ⟨e, he, hsrc, htgt, hne⟩)
    · simp at h
    · have hget : alGet ((documents.foldl (processDocumentStep documents
          (buildBlockToDocumentMap documents blocksMap) blocksMap) ([], [])).2) e.1
          = some e.2 := alGet_eq_some_of_mem hwf.1 (by
            rw [show (e.1, e.2) = e from rfl]
            exact he)
      have hex : ∃ ts, alGet ((documents.foldl (processDocumentStep documents
          (buildBlockToDocumentMap documents blocksMap) blocksMap) ([], [])).2) p.source
          = some ts ∧ p.target ∈ ts := ⟨e.2, by rw [hsrc]; exact hget, htgt⟩
      rcases hdoc.mp (by simpa using hex) with h | ⟨doc, hdmem, hdid, hres⟩
      · simp at h
      · exact ⟨doc, hdmem, hdid, hres, by rw [hsrc]; exact hne⟩
  · rintro ⟨doc, hdmem, hdid, hres, hne⟩
    have hex := hdoc.mpr (Or.inr ⟨doc, hdmem, hdid, hres⟩)
    simp only [] at hex
    rcases hex with ⟨ts, hts, htgt⟩
    refine Or.inr ⟨(p.source, ts), mem_of_alGet_eq_some hts, rfl, htgt, ?_⟩
    exact hne

/-- The built edge list never holds two copies of the same ordered pair. -/
theorem nodup_buildGraphData_links (documents : List CraftDocument)
    (blocksMap : List (String × List CraftBlock)) :
    ((buildGraphData documents blocksMap).links).Nodup := by
  rw [buildGraphData_links_eq]
  have hwf := lm_wf_doc_fold documents (buildBlockToDocumentMap documents blocksMap)
    blocksMap documents ([], []) (by simp [alNodupKeys]) (by simp)
  exact nodup_phase2_links _ _ hwf.1 hwf.2 (by simp) (by simp)

end Parser

/-- Witness for C8's purity conjunct: a graph whose nodes carry stale
adjacency junk rebuilds identically to its stripped version. -/
theorem c8_witness :
    (Wit.gJunk.links = Wit.gClean.links ∧
      Wit.gJunk.nodes.map Parser.eraseAdj = Wit.gClean.nodes.map Parser.eraseAdj) ∧
    Parser.rebuildNodeRelationships Wit.gJunk = Parser.rebuildNodeRelationships Wit.gClean :=
  ⟨⟨by decide, by decide⟩,
   c8_rebuild_pure_idempotent.1 Wit.gJunk Wit.gClean (by decide) (by decide)⟩

/-- **C7.**  Hashtag extraction returns, deduplicated, exactly the matched
hashtag labels together with every strict-prefix ancestor of each nested
(slash-containing) label; in particular a text containing only the hashtag
`#a/b/c` yields exactly the labels `a/b/c`, `a` and `a/b`. -/
theorem c7_nested_hashtags :
    (∀ markdown : String, (Demo.extractHashtags markdown).Nodup) ∧
    (∀ (markdown : String) (x : String),
      x ∈ Demo.extractHashtags markdown ↔
        ∃ t ∈ Demo.hashtagMatches markdown,
          x = t ∨ (Demo.containsSlash t = true ∧ x ∈ Demo.tagAncestors t)) ∧
    Demo.extractHashtags "see #a/b/c now" = ["a/b/c", "a", "a/b"] := by
  refine ⟨fun markdown => nodup_setDedup _, fun markdown x => ?_, by decide⟩
  unfold Demo.extractHashtags
  rw [mem_setDedup, Demo.mem_foldl_addTagStep]
  simp

/-- **C2 (amended).**  On the full-build path the canonical edge list is
deduplicated: the built links contain at most one copy of any ordered pair,
and (existence) every non-self resolved reference of a document produces its
edge.  (The incremental path violates the original claim; see the
counterexample.) -/
theorem c2_full_build_edge_dedup :
    (∀ (documents : List CraftDocument) (blocksMap : List (String × List CraftBlock)),
      ((Parser.buildGraphData documents blocksMap).links).Nodup) ∧
    (∀ (documents : List CraftDocument) (blocksMap : List (String × List CraftBlock))
        (doc : CraftDocument) (t : String),
      doc ∈ documents → t ∈ Parser.rawLinksOfDoc blocksMap doc.id →
      doc.id ≠ Parser.resolveTarget (Parser.buildBlockToDocumentMap documents blocksMap) t →
      (⟨doc.id, Parser.resolveTarget (Parser.buildBlockToDocumentMap documents blocksMap) t⟩
          : GraphLink)
        ∈ (Parser.buildGraphData documents blocksMap).links) := by
  refine ⟨Parser.nodup_buildGraphData_links, ?_⟩
  intro documents blocksMap doc t hdoc ht hne
  rw [Parser.mem_buildGraphData_links]
  exact ⟨doc, hdoc, rfl, ⟨t, ht, rfl⟩, hne⟩

/-- Counterexample to C2 as stated: on the incremental path, an added
document whose content references the same target twice contributes the
ordered pair twice to the final edge list. -/
theorem c2_counterexample :
    Parser.extractLinksFromBlock Wit.blkBB = ["A", "A"] ∧
    List.count (⟨"B", "A"⟩ : GraphLink)
      (Fetcher.buildGraphIncremental [Wit.mdA] Wit.gA [Wit.dA, Wit.dB]
        Wit.fB).graphData.links = 2 := by
  constructor
  · decide
  · decide

/-- Witness for C2's amended existence conjunct at a concrete input. -/
theorem c2_witness :
    (Wit.dA ∈ [Wit.dA] ∧ "Z" ∈ Parser.rawLinksOfDoc Wit.bmAZ Wit.dA.id ∧
      Wit.dA.id ≠ Parser.resolveTarget
        (Parser.buildBlockToDocumentMap [Wit.dA] Wit.bmAZ) "Z") ∧
    (⟨Wit.dA.id, Parser.resolveTarget
        (Parser.buildBlockToDocumentMap [Wit.dA] Wit.bmAZ) "Z"⟩ : GraphLink)
      ∈ (Parser.buildGraphData [Wit.dA] Wit.bmAZ).links :=
  ⟨⟨by decide, by decide, by decide⟩,
   c2_full_build_edge_dedup.2 [Wit.dA] Wit.bmAZ Wit.dA "Z"
     (by decide) (by decide) (by decide)⟩

namespace Fetcher

/-! ### Link-shape invariants of the incremental path (claims C9, C5) -/

theorem finalizeIncrementalGraph_links (nm : List (String × GraphNode))
    (links : List GraphLink) : (finalizeIncrementalGraph nm links).links = links := rfl

/-- One incremental target step only appends edges from the processed
document to a resolved non-self target. -/
theorem mem_incTargetStep_links_elim {cur : List CraftDocument}
    {btd : List (String × String)} {docId : String}
    {st : List (String × GraphNode) × List GraphLink} {tid : String} {l : GraphLink}
    (hl : l ∈ (incTargetStep cur btd docId st tid).2) :
    l ∈ st.2 ∨ (l = ⟨docId, Parser.resolveTarget btd tid⟩ ∧
      docId ≠ Parser.resolveTarget btd tid) := by
  unfold incTargetStep at hl
  by_cases h : docId ≠ Parser.resolveTarget btd tid ∧
      alHas (incTargetNode cur btd st.1 tid) (Parser.resolveTarget btd tid) = true
  · rw [if_pos h] at hl
    rcases List.mem_append.mp hl with hl | hl
    · exact Or.inl hl
    · simp only [List.mem_singleton] at hl
      exact Or.inr ⟨hl, h.1⟩
  · rw [if_neg h] at hl
    exact Or.inl hl

theorem no_self_loops_incTargets_fold (cur : List CraftDocument)
    (btd : List (String × String)) (docId : String) :
    ∀ (tgts : List String) (st : List (String × GraphNode) × List GraphLink),
      (∀ l ∈ st.2, l.source ≠ l.target) →
      ∀ l ∈ (tgts.foldl (incTargetStep cur btd docId) st).2, l.source ≠ l.target
  | [], _, h => h
  | tid :: tgts, st, h => by
    simp only [List.foldl_cons]
    refine no_self_loops_incTargets_fold cur btd docId tgts _ ?_
    intro l hl
    rcases mem_incTargetStep_links_elim hl with hl | ⟨hle, hne⟩
    · exact h l hl
    · subst hle
      exact hne

/-- Folding an inner loop over the per-block extractions equals one fold over
the concatenated extraction. -/
theorem nested_extract_foldl {σ : Type} (step : σ → String → σ) :
    ∀ (blocks : List CraftBlock) (init : σ),
      blocks.foldl (fun acc block => (Parser.extractLinksFromBlock block).foldl step acc) init
        = (Parser.extractLinksFromBlockList blocks).foldl step init
  | [], _ => rfl
  | b :: bs, init => by
    simp only [List.foldl_cons]
    rw [nested_extract_foldl step bs _]
    rw [show Parser.extractLinksFromBlockList (b :: bs)
        = Parser.extractLinksFromBlock b ++ Parser.extractLinksFromBlockList bs from rfl]
    rw [List.foldl_append]

/-- One fetch-loop iteration preserves the no-self-loop property of the
links array. -/
theorem processDoc_no_self (cur : List CraftDocument)
    (cdm : List (String × CraftDocument)) (f : String → Except Unit (List CraftBlock))
    (st : IncState) (docId : String)
    (h : ∀ l ∈ st.linksArray, l.source ≠ l.target) :
    ∀ l ∈ (processDoc cur cdm f st docId).linksArray, l.source ≠ l.target := by
  unfold processDoc
  cases hdoc : alGet cdm docId with
  | none => exact h
  | some doc =>
    cases hf : f docId with
    | error e => exact h
    | ok blocks =>
      simp only []
      intro l hl
      rcases List.mem_append.mp hl with hl | hl
      · exact h l (List.mem_filter.mp hl).1
      · rw [nested_extract_foldl] at hl
        exact no_self_loops_incTargets_fold cur
          (addBlocksToMap docId blocks st.blockToDocMap) docId
          (Parser.extractLinksFromBlockList blocks) _ (by simp) l hl

/-- The deletion loop only removes links. -/
theorem applyDeletions_links_subset (g : GraphData) (dels : List String) :
    ∀ l ∈ (applyDeletions g dels).2, l ∈ g.links := by
  unfold applyDeletions
  refine foldl_induction deleteDocStep
    (fun st => ∀ l ∈ st.2, l ∈ g.links) dels
    (g.nodes.foldl (fun m n => alSet m n.id n) [], g.links)
    (fun l hl => hl) ?_
  intro s d _ hs l hl
  exact hs l (List.mem_filter.mp hl).1

end Fetcher

/-- **C9.**  No assembled graph contains a self-loop: the full build skips
self-resolved references outright, and the incremental update, run on a
cache without self-loops, never introduces one — even when a document
references its own id or one of its own block ids. -/
theorem c9_no_self_loops :
    (∀ (documents : List CraftDocument) (blocksMap : List (String × List CraftBlock)),
      ∀ l ∈ (Parser.buildGraphData documents blocksMap).links, l.source ≠ l.target) ∧
    (∀ (cachedMetadata : List DocumentMetadata) (cachedGraphData : GraphData)
        (currentDocuments : List CraftDocument)
        (fetchBlocks : String → Except Unit (List CraftBlock)),
      (∀ l ∈ cachedGraphData.links, l.source ≠ l.target) →
      ∀ l ∈ (Fetcher.buildGraphIncremental cachedMetadata cachedGraphData
          currentDocuments fetchBlocks).graphData.links, l.source ≠ l.target) := by
  constructor
  · intro documents blocksMap l hl
    exact ((Parser.mem_buildGraphData_links documents blocksMap l).mp hl).choose_spec.2.2.2
  · intro cm g cur f hcache l hl
    unfold Fetcher.buildGraphIncremental at hl
    by_cases hch : ((Fetcher.addedModifiedOf cm cur).1.length > 0 ∨
        (Fetcher.addedModifiedOf cm cur).2.length > 0 ∨ (Fetcher.deletedOf cm cur).length > 0)
    · rw [if_pos hch] at hl
      simp only [Fetcher.finalizeIncrementalGraph_links] at hl
      have hfold := foldl_induction
        (Fetcher.processDoc cur (Fetcher.currentDocMapOf cur) f)
        (fun st => ∀ l2 ∈ st.linksArray, l2.source ≠ l2.target)
        ((Fetcher.addedModifiedOf cm cur).1 ++ (Fetcher.addedModifiedOf cm cur).2)
        { blockToDocMap := Fetcher.seedBlockToDocMap (Fetcher.applyDeletions g
            (Fetcher.deletedOf cm cur)).1
          nodesMap := (Fetcher.applyDeletions g (Fetcher.deletedOf cm cur)).1
          linksArray := (Fetcher.applyDeletions g (Fetcher.deletedOf cm cur)).2 }
        (fun l2 hl2 => hcache l2
          (Fetcher.applyDeletions_links_subset g (Fetcher.deletedOf cm cur) l2 hl2))
        (fun s a _ hs => Fetcher.processDoc_no_self cur (Fetcher.currentDocMapOf cur) f s a hs)
      exact hfold l hl
    · rw [if_neg hch] at hl
      exact hcache l hl

/-- Witness for C9's conjuncts at concrete inputs: a document referencing its
own root id and one of its own block ids produces no self-loop on either
path. -/
theorem c9_witness :
    (∀ l ∈ (Parser.buildGraphData [Wit.dA]
        [("A", [CraftBlock.mk "s1" (some "[me](block://s1) [me2](block://A)") []])]).links,
      l.source ≠ l.target) ∧
    ((∀ l ∈ Wit.gA.links, l.source ≠ l.target) ∧
      (∀ l ∈ (Fetcher.buildGraphIncremental [Wit.mdA] Wit.gA [Wit.dA, Wit.dB]
          Wit.fB).graphData.links, l.source ≠ l.target)) :=
  ⟨c9_no_self_loops.1 [Wit.dA]
      [("A", [CraftBlock.mk "s1" (some "[me](block://s1) [me2](block://A)") []])],
   by decide,
   c9_no_self_loops.2 [Wit.mdA] Wit.gA [Wit.dA, Wit.dB] Wit.fB (by decide)⟩

/-- **C10.**  When fetching an added/modified document's content throws, that
iteration of the incremental fetch loop is the identity on the accumulated
state — the document's old outgoing edges survive, its node is untouched, no
empty tree is substituted — and the loop continues with the remaining
documents exactly as if the failing document had been skipped. -/
theorem c10_fetch_failure_preserves_state
    (currentDocuments : List CraftDocument)
    (currentDocMap : List (String × CraftDocument))
    (fetchBlocks : String → Except Unit (List CraftBlock)) (docId : String)
    (hfail : fetchBlocks docId = Except.error ()) :
    (∀ st : Fetcher.IncState,
      Fetcher.processDoc currentDocuments currentDocMap fetchBlocks st docId = st) ∧
    (∀ (pre post : List String) (st : Fetcher.IncState),
      (pre ++ docId :: post).foldl
          (Fetcher.processDoc currentDocuments currentDocMap fetchBlocks) st
        = (pre ++ post).foldl
          (Fetcher.processDoc currentDocuments currentDocMap fetchBlocks) st) := by
  have hid : ∀ st : Fetcher.IncState,
      Fetcher.processDoc currentDocuments currentDocMap fetchBlocks st docId = st := by
    intro st
    unfold Fetcher.processDoc
    cases hdoc : alGet currentDocMap docId with
    | none => rfl
    | some doc =>
      rw [hfail]
  refine ⟨hid, ?_⟩
  intro pre post st
  rw [List.foldl_append, List.foldl_append, List.foldl_cons, hid]

/-- Witness for C10 at a concrete input: with a throwing fetch for `B`, the
loop iteration for `B` leaves a populated state unchanged and the batch
`[A, B]` behaves like `[A]`. -/
theorem c10_witness :
    Wit.fErr "B" = Except.error () ∧
    Fetcher.processDoc [Wit.dA, Wit.dB] [("A", Wit.dA), ("B", Wit.dB)] Wit.fErr Wit.st0 "B"
      = Wit.st0 ∧
    (["A"] ++ "B" :: []).foldl
        (Fetcher.processDoc [Wit.dA, Wit.dB] [("A", Wit.dA), ("B", Wit.dB)] Wit.fErr) Wit.st0
      = (["A"] ++ []).foldl
        (Fetcher.processDoc [Wit.dA, Wit.dB] [("A", Wit.dA), ("B", Wit.dB)] Wit.fErr) Wit.st0 :=
  ⟨rfl,
   (c10_fetch_failure_preserves_state [Wit.dA, Wit.dB] [("A", Wit.dA), ("B", Wit.dB)]
     Wit.fErr "B" rfl).1 Wit.st0,
   (c10_fetch_failure_preserves_state [Wit.dA, Wit.dB] [("A", Wit.dA), ("B", Wit.dB)]
     Wit.fErr "B" rfl).2 ["A"] [] Wit.st0⟩

theorem map_congr_mem {β γ : Type} (f g : β → γ) :
    ∀ (l : List β), (∀ x ∈ l, f x = g x) → l.map f = l.map g
  | [], _ => rfl
  | b :: l, h => by
    simp only [List.map_cons]
    rw [h b (by simp), map_congr_mem f g l (fun x hx => h x (by simp [hx]))]

namespace Parser

theorem graphLink_ext {a b : GraphLink} (hs : a.source = b.source)
    (ht : a.target = b.target) : a = b := by
  cases a
  cases b
  simp only [] at hs ht
  rw [hs, ht]

/-- Replaying a duplicate-free link list over a reset node map yields, at
every key, exactly the adjacency of `adjSpec`. -/
theorem rebuild_exact :
    ∀ (todo : List GraphLink) (ps : List GraphLink) (m m0 : List (String × GraphNode)),
      (∀ l ∈ todo, alHas m0 l.source = true ∧ alHas m0 l.target = true) →
      (ps ++ todo).Nodup →
      (∀ k, alGet m k = (alGet m0 k).map (adjSpec ps k)) →
      ∀ k, alGet (todo.foldl rebuildLinkStep m) k
        = (alGet m0 k).map (adjSpec (ps ++ todo) k)
  | [], ps, m, m0, _, _, hINV, k => by
    simpa using hINV k
  | l₀ :: todo, ps, m, m0, hend, hnd, hINV, k => by
    simp only [List.foldl_cons]
    have hl₀ps : l₀ ∉ ps := by
      intro hmem
      have hdisj := (List.nodup_append.mp hnd).2.2
      exact hdisj hmem (by simp)
    have hasS : alHas m l₀.source = true := by
      have h0 : (alGet m0 l₀.source).isSome = true := (hend l₀ (by simp)).1
      rw [show alHas m l₀.source = (alGet m l₀.source).isSome from rfl, hINV l₀.source]
      cases hx : alGet m0 l₀.source with
      | none =>
        rw [hx] at h0
        simp at h0
      | some v => rfl
    have hasT : alHas m l₀.target = true := by
      have h0 : (alGet m0 l₀.target).isSome = true := (hend l₀ (by simp)).2
      rw [show alHas m l₀.target = (alGet m l₀.target).isSome from rfl, hINV l₀.target]
      cases hx : alGet m0 l₀.target with
      | none =>
        rw [hx] at h0
        simp at h0
      | some v => rfl
    have hnotOut : ∀ v0 : GraphNode,
        l₀.target ∉ (adjSpec ps l₀.source v0).linksTo.getD [] := by
      intro v0 hmem
      rw [show (adjSpec ps l₀.source v0).linksTo.getD []
          = (ps.filter (fun l => l.source == l₀.source)).map GraphLink.target from rfl] at hmem
      rcases List.mem_map.mp hmem with ⟨l, hl, hlt⟩
      have hls : l.source = l₀.source := by simpa using (List.mem_filter.mp hl).2
      have : l = l₀ := graphLink_ext hls hlt
      exact hl₀ps (this ▸ (List.mem_filter.mp hl).1)
    have hnotIn : ∀ v0 : GraphNode,
        l₀.source ∉ (adjSpec ps l₀.target v0).linkedFrom.getD [] := by
      intro v0 hmem
      rw [show (adjSpec ps l₀.target v0).linkedFrom.getD []
          = (ps.filter (fun l => l.target == l₀.target)).map GraphLink.source from rfl] at hmem
      rcases List.mem_map.mp hmem with ⟨l, hl, hls⟩
      have hlt : l.target = l₀.target := by simpa using (List.mem_filter.mp hl).2
      have : l = l₀ := graphLink_ext hls hlt
      exact hl₀ps (this ▸ (List.mem_filter.mp hl).1)
    have hstep : ∀ k2, alGet (rebuildLinkStep m l₀) k2
        = (alGet m0 k2).map (adjSpec (ps ++ [l₀]) k2) := by
      intro k2
      unfold rebuildLinkStep
      rw [if_pos ⟨hasS, hasT⟩]
      rw [alGet_alUpdate, alGet_alUpdate]
      by_cases hsk : l₀.source = k2 <;> by_cases htk : l₀.target = k2
      · rw [if_pos htk, if_pos hsk, hINV k2]
        cases hv0 : alGet m0 k2 with
        | none => rfl
        | some v0 =>
          simp only [Option.map_some']
          congr 1
          subst hsk
          rw [if_neg (hnotOut v0)]
          have hg2 : l₀.source ∉
              ({ adjSpec ps l₀.source v0 with
                  linksTo := some ((adjSpec ps l₀.source v0).linksTo.getD []
                    ++ [l₀.target]) } : GraphNode).linkedFrom.getD [] := by
            have h := hnotIn v0
            rw [htk] at h
            exact h
          rw [if_neg hg2]
          unfold adjSpec
          simp only [List.filter_append, List.filter_cons, List.filter_nil, List.map_append,
            Option.getD_some]
          have hsb : (l₀.source == l₀.source) = true := by simp
          have htb : (l₀.target == l₀.source) = true := by simp [htk]
          simp [hsb, htb]
      · rw [if_neg htk, if_pos hsk, hINV k2]
        cases hv0 : alGet m0 k2 with
        | none => rfl
        | some v0 =>
          simp only [Option.map_some']
          congr 1
          subst hsk
          rw [if_neg (hnotOut v0)]
          unfold adjSpec
          simp only [List.filter_append, List.filter_cons, List.filter_nil, List.map_append,
            Option.getD_some]
          have hsb : (l₀.source == l₀.source) = true := by simp
          have htb : (l₀.target == l₀.source) = false := by
            simp only [beq_eq_false_iff_ne, ne_eq]
            exact htk
          simp [hsb, htb]
      · rw [if_pos htk, if_neg hsk, hINV k2]
        cases hv0 : alGet m0 k2 with
        | none => rfl
        | some v0 =>
          simp only [Option.map_some']
          congr 1
          subst htk
          rw [if_neg (hnotIn v0)]
          unfold adjSpec
          simp only [List.filter_append, List.filter_cons, List.filter_nil, List.map_append,
            Option.getD_some]
          have hsb : (l₀.source == l₀.target) = false := by
            simp only [beq_eq_false_iff_ne, ne_eq]
            exact hsk
          have htb : (l₀.target == l₀.target) = true := by simp
          simp [hsb, htb]
      · rw [if_neg htk, if_neg hsk, hINV k2]
        cases hv0 : alGet m0 k2 with
        | none => rfl
        | some v0 =>
          simp only [Option.map_some']
          congr 1
          unfold adjSpec
          simp only [List.filter_append, List.filter_cons, List.filter_nil, List.map_append]
          have hsb : (l₀.source == k2) = false := by
            simp only [beq_eq_false_iff_ne, ne_eq]
            exact hsk
          have htb : (l₀.target == k2) = false := by
            simp only [beq_eq_false_iff_ne, ne_eq]
            exact htk
          simp [hsb, htb]
    have hnd' : ((ps ++ [l₀]) ++ todo).Nodup := by
      rw [List.append_assoc]
      simpa using hnd
    have hres := rebuild_exact todo (ps ++ [l₀]) (rebuildLinkStep m l₀) m0
      (fun l hl => hend l (by simp [hl])) hnd' hstep k
    rw [hres]
    rw [List.append_assoc]
    rfl

end Parser

namespace Fetcher

/-! ### Degree bookkeeping of the incremental tail (claim C3) -/

theorem linkCountOf_acc (id : String) :
    ∀ (links : List GraphLink) (c : Nat),
      links.foldl
        (fun c l => (c + (if l.source = id then 1 else 0)) + (if l.target = id then 1 else 0)) c
        = c + ((links.filter (fun l => l.source == id)).length
            + (links.filter (fun l => l.target == id)).length)
  | [], c => by simp
  | l :: ls, c => by
    simp only [List.foldl_cons, List.filter_cons]
    rw [linkCountOf_acc id ls]
    by_cases hs : l.source = id <;> by_cases ht : l.target = id <;>
      simp [hs, ht] <;> omega

theorem linkCountOf_eq_filters (links : List GraphLink) (id : String) :
    linkCountOf links id
      = (links.filter (fun l => l.source == id)).length
        + (links.filter (fun l => l.target == id)).length := by
  unfold linkCountOf
  rw [linkCountOf_acc id links 0]
  simp

theorem finalize_nodes_eq (nodesMap : List (String × GraphNode))
    (linksArray : List GraphLink) :
    (finalizeIncrementalGraph nodesMap linksArray).nodes
      = alValues (linksArray.foldl Parser.rebuildLinkStep
          (Parser.initialNodesMap ((alValues nodesMap).map (fun n =>
            { n with linkCount := linkCountOf linksArray n.id
                     color := some (Parser.calculateNodeColor
                       (linkCountOf linksArray n.id)) })))) := rfl

theorem initialNodesMap_linkCount (linksArray : List GraphLink)
    (vals : List GraphNode) :
    ∀ p ∈ Parser.initialNodesMap (vals.map (fun n =>
        { n with linkCount := linkCountOf linksArray n.id
                 color := some (Parser.calculateNodeColor
                   (linkCountOf linksArray n.id)) })),
      p.2.linkCount = linkCountOf linksArray p.1 := by
  unfold Parser.initialNodesMap
  refine foldl_induction _
    (fun m : List (String × GraphNode) =>
      ∀ p ∈ m, p.2.linkCount = linkCountOf linksArray p.1) _ [] ?_ ?_
  · intro p hp
    simp at hp
  · intro s n hn hs p hp
    rcases mem_alSet_elim hp with h | h
    · subst h
      rcases List.mem_map.mp hn with ⟨n0, _, hn0⟩
      subst hn0
      rfl
    · exact hs p h

theorem alHas_initialNodesMap (nodes : List GraphNode) (s : String) :
    alHas (Parser.initialNodesMap nodes) s = true ↔ ∃ n ∈ nodes, n.id = s := by
  unfold Parser.initialNodesMap
  rw [alHas_foldl_alSet GraphNode.id Parser.resetNode nodes [] s]
  simp [alHas, alGet]

end Fetcher


/-- **C3 (amended).**  After the incremental tail (the `linkCount` recount
followed by the relationship rebuild), every node's `linksTo` and
`linkedFrom` lists are duplicate free, and when the final links array is
itself duplicate free (with both endpoints stored, ids matching keys) every
node's `linkCount` equals `|linksTo| + |linkedFrom|`.  The original claim
fails on the incremental path because `linkCount` counts edge multiplicity
while the adjacency lists are deduplicated; see the counterexample. -/
theorem c3_degree_consistency
    (nodesMap : List (String × GraphNode)) (linksArray : List GraphLink)
    (hid : ∀ p ∈ nodesMap, p.2.id = p.1)
    (hnd : linksArray.Nodup)
    (hend : ∀ l ∈ linksArray,
      alHas nodesMap l.source = true ∧ alHas nodesMap l.target = true) :
    ∀ n ∈ (Fetcher.finalizeIncrementalGraph nodesMap linksArray).nodes,
      n.linkCount = (n.linksTo.getD []).length + (n.linkedFrom.getD []).length ∧
      (n.linksTo.getD []).Nodup ∧ (n.linkedFrom.getD []).Nodup := by
  intro n hn
  rw [Fetcher.finalize_nodes_eq] at hn
  set arr : List GraphNode := (alValues nodesMap).map (fun n =>
      { n with linkCount := Fetcher.linkCountOf linksArray n.id
               color := some (Parser.calculateNodeColor
                 (Fetcher.linkCountOf linksArray n.id)) }) with harr
  rcases List.mem_map.mp hn with ⟨p, hp, hpn⟩
  have hm2keys : alNodupKeys (linksArray.foldl Parser.rebuildLinkStep
      (Parser.initialNodesMap arr)) := by
    have h1 := Parser.alKeys_foldl_rebuildLinkStep linksArray (Parser.initialNodesMap arr)
    have h2 := Parser.alNodupKeys_initialNodesMap arr
    unfold alNodupKeys
    unfold alKeys at h1
    rw [h1]
    exact h2
  have hpget : alGet (linksArray.foldl Parser.rebuildLinkStep
      (Parser.initialNodesMap arr)) p.1 = some p.2 :=
    alGet_eq_some_of_mem hm2keys hp
  have hinv : ∀ k, alGet (Parser.initialNodesMap arr) k
      = (alGet (Parser.initialNodesMap arr) k).map (Parser.adjSpec [] k) := by
    intro k
    cases hk : alGet (Parser.initialNodesMap arr) k with
    | none => rfl
    | some v =>
      have hreset := (Parser.initialNodesMap_entry_invariant arr _
        (mem_of_alGet_eq_some hk)).1
      rw [Option.map_some']
      exact congrArg some (by
        calc v = Parser.resetNode v := hreset.symm
        _ = Parser.adjSpec [] k v := rfl)
  have hends : ∀ l ∈ linksArray,
      alHas (Parser.initialNodesMap arr) l.source = true ∧
      alHas (Parser.initialNodesMap arr) l.target = true := by
    have hasArr : ∀ s, alHas nodesMap s = true →
        alHas (Parser.initialNodesMap arr) s = true := by
      intro s hs
      rw [Fetcher.alHas_initialNodesMap]
      have hsome : (alGet nodesMap s).isSome = true := hs
      cases hg : alGet nodesMap s with
      | none =>
        rw [hg] at hsome
        simp at hsome
      | some v =>
        have hmem := mem_of_alGet_eq_some hg
        rw [harr]
        exact ⟨_, List.mem_map_of_mem _ (List.mem_map_of_mem Prod.snd hmem),
          hid (s, v) hmem⟩
    intro l hl
    exact ⟨hasArr l.source (hend l hl).1, hasArr l.target (hend l hl).2⟩
  have hndall : (([] : List GraphLink) ++ linksArray).Nodup := by simpa using hnd
  have hget := Parser.rebuild_exact linksArray [] (Parser.initialNodesMap arr)
    (Parser.initialNodesMap arr) hends hndall hinv p.1
  rw [hpget] at hget
  cases hv0 : alGet (Parser.initialNodesMap arr) p.1 with
  | none =>
    rw [hv0] at hget
    simp at hget
  | some v0 =>
    rw [hv0, Option.map_some'] at hget
    have hcnt : v0.linkCount = Fetcher.linkCountOf linksArray p.1 := by
      have hmem0 := mem_of_alGet_eq_some hv0
      rw [harr] at hmem0
      exact Fetcher.initialNodesMap_linkCount linksArray (alValues nodesMap)
        (p.1, v0) hmem0
    have hpv : p.2 = Parser.adjSpec linksArray p.1 v0 := by
      simp only [List.nil_append] at hget
      exact Option.some.inj hget
    subst hpn
    rw [hpv]
    refine ⟨?_, ?_, ?_⟩
    · show v0.linkCount
        = ((linksArray.filter (fun l => l.source == p.1)).map GraphLink.target).length
          + ((linksArray.filter (fun l => l.target == p.1)).map GraphLink.source).length
      rw [List.length_map, List.length_map, hcnt, Fetcher.linkCountOf_eq_filters]
    · show ((linksArray.filter (fun l => l.source == p.1)).map GraphLink.target).Nodup
      refine (hnd.filter _).map_on ?_
      intro x hx y hy hxy
      have hxs : x.source = p.1 := by simpa using (List.mem_filter.mp hx).2
      have hys : y.source = p.1 := by simpa using (List.mem_filter.mp hy).2
      exact Parser.graphLink_ext (hxs.trans hys.symm) hxy
    · show ((linksArray.filter (fun l => l.target == p.1)).map GraphLink.source).Nodup
      refine (hnd.filter _).map_on ?_
      intro x hx y hy hxy
      have hxt : x.target = p.1 := by simpa using (List.mem_filter.mp hx).2
      have hyt : y.target = p.1 := by simpa using (List.mem_filter.mp hy).2
      exact Parser.graphLink_ext hxy (hxt.trans hyt.symm)

/-- Counterexample to C3 as stated: after an incremental update that added a
document referencing the same target twice, a node's `linkCount` (which
counts edge multiplicity) differs from the total length of its deduplicated
adjacency lists. -/
theorem c3_counterexample :
    ∃ n ∈ (Fetcher.buildGraphIncremental [Wit.mdA] Wit.gA [Wit.dA, Wit.dB]
        Wit.fB).graphData.nodes,
      n.linkCount ≠ (n.linksTo.getD []).length + (n.linkedFrom.getD []).length := by
  decide

theorem foldl_id_of_mem {α σ : Type} (step : σ → α → σ) :
    ∀ (l : List α) (init : σ), (∀ s, ∀ a ∈ l, step s a = s) → l.foldl step init = init
  | [], _, _ => rfl
  | a :: l, init, h => by
    simp only [List.foldl_cons]
    rw [h init a (by simp)]
    exact foldl_id_of_mem step l init (fun s b hb => h s b (by simp [hb]))

namespace Fetcher

/-- A document is never classified as modified against its own metadata
snapshot. -/
theorem isModifiedDoc_self (doc : CraftDocument) :
    isModifiedDoc doc (toDocumentMetadata doc) = false := by
  simp [isModifiedDoc, hasTimestampChange, toDocumentMetadata]

end Fetcher

/-- **C6.**  When the current listing coincides with the cached metadata
snapshot, the incremental update classifies nothing as added, modified or
deleted, reports `hasChanges = false`, returns the cached graph unchanged,
and the result does not depend on the content-fetch oracle (no per-document
fetch happens). -/
theorem c6_noop_refresh
    (cachedGraphData : GraphData) (currentDocuments : List CraftDocument)
    (hnd : (currentDocuments.map CraftDocument.id).Nodup)
    (fetchBlocks : String → Except Unit (List CraftBlock)) :
    Fetcher.buildGraphIncremental (currentDocuments.map Fetcher.toDocumentMetadata)
        cachedGraphData currentDocuments fetchBlocks
      = { hasChanges := false, added := [], modified := [], deleted := []
          graphData := cachedGraphData
          documentMetadata := (currentDocuments.filter
            (fun doc => !(boolTruthy doc.deleted))).map Fetcher.toDocumentMetadata } := by
  have hkeysNodup :
      ((currentDocuments.map Fetcher.toDocumentMetadata).map DocumentMetadata.id).Nodup := by
    rw [List.map_map]
    exact hnd
  have hclass : ∀ (acc : List String × List String), ∀ doc ∈ currentDocuments,
      Fetcher.classifyStep
        (Fetcher.cachedDocMapOf (currentDocuments.map Fetcher.toDocumentMetadata))
        acc doc = acc := by
    intro acc doc hdoc
    have hg : alGet
        (Fetcher.cachedDocMapOf (currentDocuments.map Fetcher.toDocumentMetadata)) doc.id
        = some (Fetcher.toDocumentMetadata doc) :=
      alGet_buildMap DocumentMetadata.id (fun d => d)
        (currentDocuments.map Fetcher.toDocumentMetadata) [] hkeysNodup
        (List.mem_map_of_mem Fetcher.toDocumentMetadata hdoc)
    simp [Fetcher.classifyStep, hg, Fetcher.isModifiedDoc_self]
  have hAM : Fetcher.addedModifiedOf (currentDocuments.map Fetcher.toDocumentMetadata)
      currentDocuments = ([], []) := by
    unfold Fetcher.addedModifiedOf
    exact foldl_id_of_mem _ currentDocuments ([], []) hclass
  have hdel : Fetcher.deletedOf (currentDocuments.map Fetcher.toDocumentMetadata)
      currentDocuments = [] := by
    unfold Fetcher.deletedOf
    refine foldl_id_of_mem _ _ [] ?_
    intro acc md hmd
    have hhas : alHas (Fetcher.currentDocMapOf currentDocuments) md.id = true := by
      rcases List.mem_map.mp hmd with ⟨doc, hdoc, hmdoc⟩
      subst hmdoc
      exact (alHas_foldl_alSet CraftDocument.id (fun d => d) currentDocuments [] _).mpr
        (Or.inr ⟨doc, hdoc, rfl⟩)
    simp [hhas]
  simp [Fetcher.buildGraphIncremental, hAM, hdel]

/-- Witness for C6 at a concrete input: refreshing the cached one-document
graph against an identical listing returns it unchanged even though the
content-fetch oracle always throws. -/
theorem c6_witness :
    ([Wit.dA].map CraftDocument.id).Nodup ∧
    Fetcher.buildGraphIncremental ([Wit.dA].map Fetcher.toDocumentMetadata)
        Wit.gA [Wit.dA] Wit.fErr
      = { hasChanges := false, added := [], modified := [], deleted := []
          graphData := Wit.gA
          documentMetadata := ([Wit.dA].filter
            (fun doc => !(boolTruthy doc.deleted))).map Fetcher.toDocumentMetadata } :=
  ⟨by decide, c6_noop_refresh Wit.gA [Wit.dA] (by decide) Wit.fErr⟩

/-- Witness for C3 (amended) at a concrete input: a two-node map with the
single edge `A → B`. -/
theorem c3_witness :
    ((∀ p ∈ Wit.nmAB, p.2.id = p.1) ∧ Wit.lkAB.Nodup ∧
      (∀ l ∈ Wit.lkAB, alHas Wit.nmAB l.source = true ∧ alHas Wit.nmAB l.target = true)) ∧
    (∀ n ∈ (Fetcher.finalizeIncrementalGraph Wit.nmAB Wit.lkAB).nodes,
      n.linkCount = (n.linksTo.getD []).length + (n.linkedFrom.getD []).length ∧
      (n.linksTo.getD []).Nodup ∧ (n.linkedFrom.getD []).Nodup) :=
  ⟨⟨by decide, by decide, by decide⟩,
   c3_degree_consistency Wit.nmAB Wit.lkAB (by decide) (by decide) (by decide)⟩

theorem mem_alDelete_elim {α : Type} {m : List (String × α)} {k : String}
    {p : String × α} (h : p ∈ alDelete m k) : p ∈ m ∧ p.1 ≠ k := by
  induction m with
  | nil => simp [alDelete] at h
  | cons q rest ih =>
    obtain ⟨k', v'⟩ := q
    by_cases h1 : k' = k
    · rw [show alDelete ((k', v') :: rest) k = alDelete rest k from by
        simp [alDelete, h1]] at h
      rcases ih h with ⟨hm, hk⟩
      exact ⟨List.mem_cons_of_mem _ hm, hk⟩
    · rw [show alDelete ((k', v') :: rest) k = (k', v') :: alDelete rest k from by
        simp [alDelete, h1]] at h
      rcases List.mem_cons.mp h with h | h
      · subst h
        exact ⟨List.mem_cons_self _ _, h1⟩
      · rcases ih h with ⟨hm, hk⟩
        exact ⟨List.mem_cons_of_mem _ hm, hk⟩

theorem mem_foldl_guard_append {α : Type} (c : α → Bool) (g : α → String) :
    ∀ (l : List α) (acc : List String) (x : String),
      (x ∈ l.foldl (fun a b => if c b then a else a ++ [g b]) acc ↔
        x ∈ acc ∨ ∃ b ∈ l, c b = false ∧ g b = x)
  | [], acc, x => by simp
  | b :: l, acc, x => by
    simp only [List.foldl_cons]
    rw [mem_foldl_guard_append c g l _ x]
    by_cases hb : c b = true
    · rw [if_pos hb]
      constructor
      · rintro (h | ⟨b', hb', hc, hg⟩)
        · exact Or.inl h
        · exact Or.inr ⟨b', by simp [hb'], hc, hg⟩
      · rintro (h | ⟨b', hb', hc, hg⟩)
        · exact Or.inl h
        · rcases List.mem_cons.mp hb' with he | hb'
          · rw [he] at hc
            rw [hb] at hc
            cases hc
          · exact Or.inr ⟨b', hb', hc, hg⟩
    · rw [if_neg hb]
      have hbf : c b = false := by
        cases hcb : c b
        · rfl
        · exact absurd hcb hb
      constructor
      · rintro (h | ⟨b', hb', hc, hg⟩)
        · rcases List.mem_append.mp h with h | h
          · exact Or.inl h
          · exact Or.inr ⟨b, by simp, hbf, (List.mem_singleton.mp h).symm⟩
        · exact Or.inr ⟨b', by simp [hb'], hc, hg⟩
      · rintro (h | ⟨b', hb', hc, hg⟩)
        · exact Or.inl (List.mem_append.mpr (Or.inl h))
        · rcases List.mem_cons.mp hb' with he | hb'
          · subst he
            exact Or.inl (List.mem_append.mpr (Or.inr (by simp [hg])))
          · exact Or.inr ⟨b', hb', hc, hg⟩

namespace Fetcher

/-! ### Deletion cleanliness of the incremental path (claim C5) -/

mutual

theorem mem_addBlocksToMap_elim (docId : String) :
    ∀ (bs : List CraftBlock) (m : List (String × String)) (p : String × String),
      p ∈ addBlocksToMap docId bs m → p.2 = docId ∨ p ∈ m
  | [], _, _, h => Or.inr h
  | b :: bs, m, p, h => by
    rcases mem_addBlocksToMap_elim docId bs (addOneBlockToMap docId b m) p h with h1 | h1
    · exact Or.inl h1
    · exact mem_addOneBlockToMap_elim docId b m p h1

theorem mem_addOneBlockToMap_elim (docId : String) :
    ∀ (b : CraftBlock) (m : List (String × String)) (p : String × String),
      p ∈ addOneBlockToMap docId b m → p.2 = docId ∨ p ∈ m
  | .mk bid md content, m, p, h => by
    rcases mem_addBlocksToMap_elim docId content (alSet m bid docId) p h with h1 | h1
    · exact Or.inl h1
    · rcases mem_alSet_elim h1 with h2 | h2
      · exact Or.inl (congrArg Prod.snd h2)
      · exact Or.inr h2

end

/-- Node materialization never stores the key of a listed-elsewhere document
id `D` that is neither current nor reachable through a clean block map. -/
theorem incTargetNode_clean {cur : List CraftDocument} {btd : List (String × String)}
    {nm : List (String × GraphNode)} {tid D : String}
    (hDcur : ∀ d ∈ cur, d.id ≠ D)
    (hbtd : ∀ p ∈ btd, p.2 ≠ D ∧ (p.2 = "" → p.1 ≠ D))
    (hnm : ∀ p ∈ nm, p.1 ≠ D ∧ p.2.id ≠ D) :
    ∀ p ∈ incTargetNode cur btd nm tid, p.1 ≠ D ∧ p.2.id ≠ D := by
  intro p hp
  simp only [incTargetNode] at hp
  by_cases h1 : alHas nm (Parser.resolveTarget btd tid) = true
  · rw [if_pos h1] at hp
    exact hnm p hp
  · rw [if_neg h1] at hp
    by_cases h2 : (cur.find? (fun d => d.id == Parser.resolveTarget btd tid)).isSome = true ∨
        alHas btd tid = true
    · rw [if_pos h2] at hp
      have htd : Parser.resolveTarget btd tid ≠ D := by
        rcases h2 with h2 | h2
        · rcases Option.isSome_iff_exists.mp h2 with ⟨d, hd⟩
          have hmem := List.mem_of_find?_eq_some hd
          have hdid : d.id = Parser.resolveTarget btd tid := by
            have := List.find?_some hd
            simpa using this
          exact fun he => hDcur d hmem (hdid.trans he)
        · have hsome : (alGet btd tid).isSome = true := h2
          cases hv : alGet btd tid with
          | none =>
            rw [hv] at hsome
            simp at hsome
          | some v =>
            have hv' := hbtd (tid, v) (mem_of_alGet_eq_some hv)
            rw [show Parser.resolveTarget btd tid = jsOr (alGet btd tid) tid from rfl, hv]
            by_cases hve : v = ""
            · subst hve
              rw [show jsOr (some "") tid = tid from by simp [jsOr]]
              exact hv'.2 rfl
            · rw [show jsOr (some v) tid = v from by simp [jsOr, hve]]
              exact hv'.1
      rcases mem_alSet_elim hp with h | h
      · subst h
        exact ⟨htd, htd⟩
      · exact hnm p h
    · rw [if_neg h2] at hp
      exact hnm p hp

theorem incTargetStep_fst (cur : List CraftDocument) (btd : List (String × String))
    (docId : String) (st : List (String × GraphNode) × List GraphLink) (tid : String) :
    (incTargetStep cur btd docId st tid).1 = incTargetNode cur btd st.1 tid := by
  unfold incTargetStep
  split <;> rfl

/-- Like `mem_incTargetStep_links_elim`, but keeping the endpoint-exists
guard of the pushed edge. -/
theorem mem_incTargetStep_links_push {cur : List CraftDocument}
    {btd : List (String × String)} {docId : String}
    {st : List (String × GraphNode) × List GraphLink} {tid : String} {l : GraphLink}
    (hl : l ∈ (incTargetStep cur btd docId st tid).2) :
    l ∈ st.2 ∨ (l = ⟨docId, Parser.resolveTarget btd tid⟩ ∧
      docId ≠ Parser.resolveTarget btd tid ∧
      alHas (incTargetNode cur btd st.1 tid) (Parser.resolveTarget btd tid) = true) := by
  unfold incTargetStep at hl
  by_cases h : docId ≠ Parser.resolveTarget btd tid ∧
      alHas (incTargetNode cur btd st.1 tid) (Parser.resolveTarget btd tid) = true
  · rw [if_pos h] at hl
    rcases List.mem_append.mp hl with hl | hl
    · exact Or.inl hl
    · simp only [List.mem_singleton] at hl
      exact Or.inr ⟨hl, h.1, h.2⟩
  · rw [if_neg h] at hl
    exact Or.inl hl

theorem incTargets_fold_clean (cur : List CraftDocument) (btd : List (String × String))
    (docId D : String) (hdoc : docId ≠ D)
    (hDcur : ∀ d ∈ cur, d.id ≠ D)
    (hbtd : ∀ p ∈ btd, p.2 ≠ D ∧ (p.2 = "" → p.1 ≠ D)) :
    ∀ (tgts : List String) (st : List (String × GraphNode) × List GraphLink),
      (∀ p ∈ st.1, p.1 ≠ D ∧ p.2.id ≠ D) →
      (∀ l ∈ st.2, l.source ≠ D ∧ l.target ≠ D) →
      (∀ p ∈ (tgts.foldl (incTargetStep cur btd docId) st).1, p.1 ≠ D ∧ p.2.id ≠ D) ∧
      (∀ l ∈ (tgts.foldl (incTargetStep cur btd docId) st).2, l.source ≠ D ∧ l.target ≠ D)
  | [], st, hn, hl => ⟨hn, hl⟩
  | tid :: tgts, st, hn, hl => by
    simp only [List.foldl_cons]
    refine incTargets_fold_clean cur btd docId D hdoc hDcur hbtd tgts _ ?_ ?_
    · intro p hp
      rw [incTargetStep_fst] at hp
      exact incTargetNode_clean hDcur hbtd hn p hp
    · intro l hl2
      rcases mem_incTargetStep_links_push hl2 with h | ⟨hle, hne, hhas⟩
      · exact hl l h
      · subst hle
        refine ⟨hdoc, ?_⟩
        intro he
        have he' : Parser.resolveTarget btd tid = D := he
        rw [he'] at hhas
        have hsome : (alGet (incTargetNode cur btd st.1 tid) D).isSome = true := hhas
        cases hv : alGet (incTargetNode cur btd st.1 tid) D with
        | none =>
          rw [hv] at hsome
          simp at hsome
        | some v =>
          exact (incTargetNode_clean hDcur hbtd hn (D, v) (mem_of_alGet_eq_some hv)).1 rfl

theorem currentDocMapOf_entries (cur : List CraftDocument) :
    ∀ p ∈ currentDocMapOf cur, p.2 ∈ cur ∧ p.2.id = p.1 := by
  unfold currentDocMapOf
  refine foldl_induction _
    (fun m : List (String × CraftDocument) => ∀ p ∈ m, p.2 ∈ cur ∧ p.2.id = p.1)
    cur [] ?_ ?_
  · intro p hp
    simp at hp
  · intro s d hd hs p hp
    rcases mem_alSet_elim hp with h | h
    · subst h
      exact ⟨hd, rfl⟩
    · exact hs p h

/-- One fetch-loop iteration preserves the absence of a non-current id `D`
from the node map, the block→document map and the links array. -/
theorem processDoc_clean (cur : List CraftDocument)
    (cdm : List (String × CraftDocument))
    (f : String → Except Unit (List CraftBlock)) (D : String)
    (hDcur : ∀ d ∈ cur, d.id ≠ D)
    (hcurne : ∀ d ∈ cur, d.id ≠ "")
    (hcdm : ∀ p ∈ cdm, p.2 ∈ cur ∧ p.2.id = p.1)
    (st : IncState) (docId : String)
    (hn : ∀ p ∈ st.nodesMap, p.1 ≠ D ∧ p.2.id ≠ D)
    (hb : ∀ p ∈ st.blockToDocMap, p.2 ≠ D ∧ (p.2 = "" → p.1 ≠ D))
    (hl : ∀ l ∈ st.linksArray, l.source ≠ D ∧ l.target ≠ D) :
    (∀ p ∈ (processDoc cur cdm f st docId).nodesMap, p.1 ≠ D ∧ p.2.id ≠ D) ∧
    (∀ p ∈ (processDoc cur cdm f st docId).blockToDocMap,
      p.2 ≠ D ∧ (p.2 = "" → p.1 ≠ D)) ∧
    (∀ l ∈ (processDoc cur cdm f st docId).linksArray,
      l.source ≠ D ∧ l.target ≠ D) := by
  unfold processDoc
  cases hdoc : alGet cdm docId with
  | none => exact ⟨hn, hb, hl⟩
  | some doc =>
    cases hf : f docId with
    | error e => exact ⟨hn, hb, hl⟩
    | ok blocks =>
      have hdd := hcdm (docId, doc) (mem_of_alGet_eq_some hdoc)
      have hdocD : docId ≠ D := fun he => hDcur doc hdd.1 (hdd.2.trans he)
      have hdocne : docId ≠ "" := fun he => hcurne doc hdd.1 (hdd.2.trans he)
      have hb' : ∀ p ∈ addBlocksToMap docId blocks st.blockToDocMap,
          p.2 ≠ D ∧ (p.2 = "" → p.1 ≠ D) := by
        intro p hp
        rcases mem_addBlocksToMap_elim docId blocks _ p hp with h | h
        · exact ⟨fun he => hdocD (h.symm.trans he),
            fun he => absurd (h.symm.trans he) hdocne⟩
        · exact hb p h
      have hupsert : ∀ p ∈ upsertDocNode doc docId st.nodesMap,
          p.1 ≠ D ∧ p.2.id ≠ D := by
        intro p hp
        unfold upsertDocNode at hp
        by_cases hhas : alHas st.nodesMap docId = true
        · rw [if_pos hhas] at hp
          rcases mem_alUpdate_elim hp with h | ⟨v, hv, hpe⟩
          · exact hn p h
          · subst hpe
            exact ⟨hdocD, (hn (docId, v) hv).2⟩
        · rw [if_neg hhas] at hp
          rcases mem_alSet_elim hp with h | h
          · subst h
            exact ⟨hdocD, hdocD⟩
          · exact hn p h
      have hfold := incTargets_fold_clean cur
        (addBlocksToMap docId blocks st.blockToDocMap) docId D hdocD hDcur hb'
        (Parser.extractLinksFromBlockList blocks)
        (upsertDocNode doc docId st.nodesMap, ([] : List GraphLink))
        hupsert (by simp)
      refine ⟨?_, ?_, ?_⟩
      · intro p hp
        have hp2 : p ∈ (blocks.foldl
            (fun acc block => (Parser.extractLinksFromBlock block).foldl
              (incTargetStep cur (addBlocksToMap docId blocks st.blockToDocMap) docId) acc)
            (upsertDocNode doc docId st.nodesMap, ([] : List GraphLink))).1 := hp
        rw [nested_extract_foldl] at hp2
        exact hfold.1 p hp2
      · intro p hp
        exact hb' p hp
      · intro l hl2
        have hl3 : l ∈ st.linksArray.filter (fun l => !(l.source == docId)) ++
            (blocks.foldl
              (fun acc block => (Parser.extractLinksFromBlock block).foldl
                (incTargetStep cur (addBlocksToMap docId blocks st.blockToDocMap) docId) acc)
              (upsertDocNode doc docId st.nodesMap, ([] : List GraphLink))).2 := hl2
        rcases List.mem_append.mp hl3 with h | h
        · exact hl l (List.mem_filter.mp h).1
        · rw [nested_extract_foldl] at h
          exact hfold.2 l h

theorem seedBlockToDocMap_clean (nm : List (String × GraphNode)) (D : String)
    (hD : D ≠ "") (hn : ∀ p ∈ nm, p.1 ≠ D) :
    ∀ p ∈ seedBlockToDocMap nm, p.2 ≠ D ∧ (p.2 = "" → p.1 ≠ D) := by
  unfold seedBlockToDocMap
  refine foldl_induction _
    (fun m : List (String × String) => ∀ p ∈ m, p.2 ≠ D ∧ (p.2 = "" → p.1 ≠ D))
    nm [] ?_ ?_
  · intro p hp
    simp at hp
  · intro s q hq hs p hp
    by_cases ht : q.2.type = NodeType.document
    · rw [if_pos ht] at hp
      rcases mem_alSet_elim hp with h | h
      · subst h
        exact ⟨hn q hq, fun he hk => hD ((he.symm.trans hk).symm)⟩
      · exact hs p h
    · rw [if_neg ht] at hp
      exact hs p hp

theorem applyDeletions_idkey (g : GraphData) (dels : List String) :
    ∀ p ∈ (applyDeletions g dels).1, p.2.id = p.1 := by
  unfold applyDeletions
  refine foldl_induction deleteDocStep
    (fun st => ∀ p ∈ st.1, p.2.id = p.1) dels
    (g.nodes.foldl (fun m n => alSet m n.id n) [], g.links) ?_ ?_
  · refine foldl_induction _
      (fun m : List (String × GraphNode) => ∀ p ∈ m, p.2.id = p.1) g.nodes [] ?_ ?_
    · intro p hp
      simp at hp
    · intro s n _ hs p hp
      rcases mem_alSet_elim hp with h | h
      · subst h
        rfl
      · exact hs p h
  · intro s d _ hs p hp
    exact hs p (mem_alDelete_elim hp).1

/-- Once a deleted id has been processed, neither the node map nor the links
array of the deletion loop mention it again. -/
theorem applyDeletions_clean (g : GraphData) (D : String) (dels : List String)
    (hD : D ∈ dels) :
    (∀ p ∈ (applyDeletions g dels).1, p.1 ≠ D ∧ p.2.id ≠ D) ∧
    (∀ l ∈ (applyDeletions g dels).2, l.source ≠ D ∧ l.target ≠ D) := by
  rcases List.append_of_mem hD with ⟨s, t, rfl⟩
  have hsplit : applyDeletions g (s ++ D :: t)
      = t.foldl deleteDocStep (deleteDocStep (applyDeletions g s) D) := by
    unfold applyDeletions
    rw [List.foldl_append, List.foldl_cons]
  rw [hsplit]
  have hstart : (∀ p ∈ (deleteDocStep (applyDeletions g s) D).1, p.1 ≠ D ∧ p.2.id ≠ D) ∧
      (∀ l ∈ (deleteDocStep (applyDeletions g s) D).2, l.source ≠ D ∧ l.target ≠ D) := by
    constructor
    · intro p hp
      have h := mem_alDelete_elim (show p ∈ alDelete (applyDeletions g s).1 D from hp)
      have hid := applyDeletions_idkey g s p h.1
      exact ⟨h.2, fun he => h.2 (hid.symm.trans he)⟩
    · intro l hl
      have h := (List.mem_filter.mp (show l ∈ (applyDeletions g s).2.filter
        (fun l => !(l.source == D) && !(l.target == D)) from hl)).2
      have h2 : ¬l.source = D ∧ ¬l.target = D := by simpa using h
      exact h2
  refine foldl_induction deleteDocStep
    (fun st => (∀ p ∈ st.1, p.1 ≠ D ∧ p.2.id ≠ D) ∧
      (∀ l ∈ st.2, l.source ≠ D ∧ l.target ≠ D)) t _ hstart ?_
  intro st d _ hs
  constructor
  · intro p hp
    exact hs.1 p (mem_alDelete_elim hp).1
  · intro l hl
    exact hs.2 l (List.mem_filter.mp hl).1

/-- Every node surviving the incremental tail carries the id of some stored
value of the incoming node map. -/
theorem finalize_node_ids (nm : List (String × GraphNode)) (links : List GraphLink) :
    ∀ n ∈ (finalizeIncrementalGraph nm links).nodes, ∃ w ∈ alValues nm, w.id = n.id := by
  intro n hn
  rw [finalize_nodes_eq] at hn
  rcases List.mem_map.mp hn with ⟨p, hp, hpn⟩
  have hid := Parser.rebuild_entry_id_invariant links _
    (fun q hq => (Parser.initialNodesMap_entry_invariant _ q hq).2) p hp
  have hkey : p.1 ∈ alKeys (Parser.initialNodesMap ((alValues nm).map (fun n =>
      { n with linkCount := linkCountOf links n.id
               color := some (Parser.calculateNodeColor
                 (linkCountOf links n.id)) }))) := by
    rw [← Parser.alKeys_foldl_rebuildLinkStep links]
    exact List.mem_map_of_mem Prod.fst hp
  have hhas := (alHas_iff_mem_keys _ _).mpr hkey
  rw [alHas_initialNodesMap] at hhas
  rcases hhas with ⟨v, hv, hvid⟩
  rcases List.mem_map.mp hv with ⟨w, hw, hwv⟩
  refine ⟨w, hw, ?_⟩
  subst hwv
  calc w.id = p.1 := hvid
  _ = p.2.id := hid.symm
  _ = n.id := congrArg GraphNode.id hpn

end Fetcher

/-- **C5.**  After an incremental update in which a cached document `D`
(absent from the current listing, all ids nonempty) is classified as
deleted, the resulting graph contains no node with id `D` and no edge whose
source or target is `D` — documents fetched later in the same update cannot
re-introduce them. -/
theorem c5_deletion_cleanup
    (cachedMetadata : List DocumentMetadata) (cachedGraphData : GraphData)
    (currentDocuments : List CraftDocument)
    (fetchBlocks : String → Except Unit (List CraftBlock)) (D : String)
    (hDne : D ≠ "")
    (hcached : D ∈ cachedMetadata.map DocumentMetadata.id)
    (hDcur : ∀ d ∈ currentDocuments, d.id ≠ D)
    (hcurne : ∀ d ∈ currentDocuments, d.id ≠ "") :
    D ∈ (Fetcher.buildGraphIncremental cachedMetadata cachedGraphData currentDocuments
        fetchBlocks).deleted ∧
    (∀ n ∈ (Fetcher.buildGraphIncremental cachedMetadata cachedGraphData currentDocuments
        fetchBlocks).graphData.nodes, n.id ≠ D) ∧
    (∀ l ∈ (Fetcher.buildGraphIncremental cachedMetadata cachedGraphData currentDocuments
        fetchBlocks).graphData.links, l.source ≠ D ∧ l.target ≠ D) := by
  have hDdel : D ∈ Fetcher.deletedOf cachedMetadata currentDocuments := by
    rcases List.mem_map.mp hcached with ⟨md, hmd, hmdid⟩
    have hfalse : alHas (Fetcher.currentDocMapOf currentDocuments) md.id = false := by
      rw [Bool.eq_false_iff]
      intro hh
      rcases (alHas_foldl_alSet CraftDocument.id (fun d => d)
          currentDocuments [] md.id).mp hh with h | ⟨d, hd, hid2⟩
      · simp [alHas, alGet] at h
      · exact hDcur d hd (hid2.trans hmdid)
    exact (mem_foldl_guard_append
        (fun cd => alHas (Fetcher.currentDocMapOf currentDocuments) cd.id)
        DocumentMetadata.id cachedMetadata [] D).mpr
      (Or.inr ⟨md, hmd, hfalse, hmdid⟩)
  have hch : (Fetcher.addedModifiedOf cachedMetadata currentDocuments).1.length > 0 ∨
      (Fetcher.addedModifiedOf cachedMetadata currentDocuments).2.length > 0 ∨
      (Fetcher.deletedOf cachedMetadata currentDocuments).length > 0 :=
    Or.inr (Or.inr (List.length_pos.mpr (List.ne_nil_of_mem hDdel)))
  have hdelclean := Fetcher.applyDeletions_clean cachedGraphData D _ hDdel
  have hseed := Fetcher.seedBlockToDocMap_clean
    (Fetcher.applyDeletions cachedGraphData
      (Fetcher.deletedOf cachedMetadata currentDocuments)).1 D hDne
    (fun p hp => (hdelclean.1 p hp).1)
  have hfold := foldl_induction
    (Fetcher.processDoc currentDocuments (Fetcher.currentDocMapOf currentDocuments)
      fetchBlocks)
    (fun st : Fetcher.IncState =>
      (∀ p ∈ st.nodesMap, p.1 ≠ D ∧ p.2.id ≠ D) ∧
      (∀ p ∈ st.blockToDocMap, p.2 ≠ D ∧ (p.2 = "" → p.1 ≠ D)) ∧
      (∀ l ∈ st.linksArray, l.source ≠ D ∧ l.target ≠ D))
    ((Fetcher.addedModifiedOf cachedMetadata currentDocuments).1 ++
      (Fetcher.addedModifiedOf cachedMetadata currentDocuments).2)
    { blockToDocMap := Fetcher.seedBlockToDocMap (Fetcher.applyDeletions cachedGraphData
        (Fetcher.deletedOf cachedMetadata currentDocuments)).1
      nodesMap := (Fetcher.applyDeletions cachedGraphData
        (Fetcher.deletedOf cachedMetadata currentDocuments)).1
      linksArray := (Fetcher.applyDeletions cachedGraphData
        (Fetcher.deletedOf cachedMetadata currentDocuments)).2 }
    ⟨hdelclean.1, hseed, hdelclean.2⟩
    (fun st a _ hs => Fetcher.processDoc_clean currentDocuments
      (Fetcher.currentDocMapOf currentDocuments) fetchBlocks D hDcur hcurne
      (Fetcher.currentDocMapOf_entries currentDocuments) st a hs.1 hs.2.1 hs.2.2)
  unfold Fetcher.buildGraphIncremental
  rw [if_pos hch]
  refine ⟨hDdel, ?_, ?_⟩
  · intro n hn
    rcases Fetcher.finalize_node_ids _ _ n hn with ⟨w, hw, hwid⟩
    rcases List.mem_map.mp hw with ⟨p, hp, hpw⟩
    intro he
    exact (hfold.1 p hp).2 ((congrArg GraphNode.id hpw).trans (hwid.trans he))
  · intro l hl
    have hl2 : l ∈ (((Fetcher.addedModifiedOf cachedMetadata currentDocuments).1 ++
        (Fetcher.addedModifiedOf cachedMetadata currentDocuments).2).foldl
        (Fetcher.processDoc currentDocuments (Fetcher.currentDocMapOf currentDocuments)
          fetchBlocks)
        { blockToDocMap := Fetcher.seedBlockToDocMap (Fetcher.applyDeletions cachedGraphData
            (Fetcher.deletedOf cachedMetadata currentDocuments)).1
          nodesMap := (Fetcher.applyDeletions cachedGraphData
            (Fetcher.deletedOf cachedMetadata currentDocuments)).1
          linksArray := (Fetcher.applyDeletions cachedGraphData
            (Fetcher.deletedOf cachedMetadata currentDocuments)).2 }).linksArray := hl
    exact hfold.2.2 l hl2

/-- Witness for C5 at a concrete input: deleting the only cached document
`A` (empty current listing) leaves a graph with no trace of `A`, with the
hypotheses checked at the instance. -/
theorem c5_witness :
    (("A" : String) ≠ "" ∧ "A" ∈ [Wit.mdA].map DocumentMetadata.id) ∧
    ("A" ∈ (Fetcher.buildGraphIncremental [Wit.mdA] Wit.gA [] Wit.fErr).deleted ∧
      (∀ n ∈ (Fetcher.buildGraphIncremental [Wit.mdA] Wit.gA [] Wit.fErr).graphData.nodes,
        n.id ≠ "A") ∧
      (∀ l ∈ (Fetcher.buildGraphIncremental [Wit.mdA] Wit.gA [] Wit.fErr).graphData.links,
        l.source ≠ "A" ∧ l.target ≠ "A")) :=
  ⟨⟨by decide, by decide⟩,
   c5_deletion_cleanup [Wit.mdA] Wit.gA [] Wit.fErr "A"
     (by decide) (by decide) (by decide) (by decide)⟩

/-! ### Generic fresh-key fold representations (used for claim C1) -/

theorem foldl_alSet_key_fresh {β α : Type} (key : β → String) (val : β → α) :
    ∀ (l : List β) (acc : List (String × α)),
      (l.map key).Nodup →
      (∀ b ∈ l, alHas acc (key b) = false) →
      l.foldl (fun m b => alSet m (key b) (val b)) acc
        = acc ++ l.map (fun b => (key b, val b))
  | [], acc, _, _ => by simp
  | b :: l, acc, hnd, hfresh => by
    have hnd0 : key b ∉ l.map key ∧ (l.map key).Nodup := by
      rw [List.map_cons] at hnd
      exact List.nodup_cons.mp hnd
    simp only [List.foldl_cons, List.map_cons]
    rw [alSet_append_of_not_has (val b) (hfresh b (by simp))]
    rw [foldl_alSet_key_fresh key val l (acc ++ [(key b, val b)]) hnd0.2 ?_]
    · simp
    · intro b2 hb2
      have hne : key b ≠ key b2 := fun he => hnd0.1 (he ▸ List.mem_map_of_mem key hb2)
      have hacc : alGet acc (key b2) = none := by
        have hf := hfresh b2 (by simp [hb2])
        cases hg : alGet acc (key b2) with
        | none => rfl
        | some v =>
          rw [show alHas acc (key b2) = (alGet acc (key b2)).isSome from rfl, hg] at hf
          simp at hf
      rw [show alHas (acc ++ [(key b, val b)]) (key b2)
          = (alGet (acc ++ [(key b, val b)]) (key b2)).isSome from rfl]
      rw [alGet_append, hacc]
      simp [alGet, hne]

theorem foldl_congr_step {α σ : Type} (f g : σ → α → σ) :
    ∀ (l : List α) (init : σ), (∀ s, ∀ a ∈ l, f s a = g s a) →
      l.foldl f init = l.foldl g init
  | [], _, _ => rfl
  | a :: l, init, h => by
    simp only [List.foldl_cons]
    rw [h init a (by simp)]
    exact foldl_congr_step f g l (g init a) (fun s b hb => h s b (by simp [hb]))

namespace Parser

/-! ### Resolution is the identity on document ids when block ids are fresh
(claim C1) -/

mutual

theorem alGet_addBlocksRecursively_of_not_key (docId t : String) :
    ∀ (bs : List CraftBlock) (m : List (String × String)),
      (∀ bid ∈ blockIdsList bs, bid ≠ t) →
      alGet (addBlocksRecursively docId bs m) t = alGet m t
  | [], _, _ => rfl
  | b :: bs, m, h => by
    rw [show addBlocksRecursively docId (b :: bs) m
        = addBlocksRecursively docId bs (addOneBlockRecursively docId b m) from rfl]
    rw [alGet_addBlocksRecursively_of_not_key docId t bs _
      (fun bid hbid => h bid (by
        rw [show blockIdsList (b :: bs) = blockIds b ++ blockIdsList bs from rfl]
        exact List.mem_append.mpr (Or.inr hbid)))]
    exact alGet_addOneBlockRecursively_of_not_key docId t b m
      (fun bid hbid => h bid (by
        rw [show blockIdsList (b :: bs) = blockIds b ++ blockIdsList bs from rfl]
        exact List.mem_append.mpr (Or.inl hbid)))

theorem alGet_addOneBlockRecursively_of_not_key (docId t : String) :
    ∀ (b : CraftBlock) (m : List (String × String)),
      (∀ bid ∈ blockIds b, bid ≠ t) →
      alGet (addOneBlockRecursively docId b m) t = alGet m t
  | .mk bid md content, m, h => by
    rw [show addOneBlockRecursively docId (.mk bid md content) m
        = addBlocksRecursively docId content (alSet m bid docId) from rfl]
    rw [alGet_addBlocksRecursively_of_not_key docId t content _
      (fun b2 hb2 => h b2 (by
        rw [show blockIds (.mk bid md content) = bid :: blockIdsList content from rfl]
        exact List.mem_cons_of_mem _ hb2))]
    rw [alGet_alSet]
    exact if_neg (h bid (by
      rw [show blockIds (.mk bid md content) = bid :: blockIdsList content from rfl]
      exact List.mem_cons_self _ _))

end

/-- Under fresh block ids, the block→document map sends every listed
document id to itself. -/
theorem alGet_buildBlockToDocumentMap_docId (documents : List CraftDocument)
    (blocksMap : List (String × List CraftBlock))
    (hbids : ∀ doc ∈ documents,
      ∀ bid ∈ blockIdsList ((alGet blocksMap doc.id).getD []),
        bid ∉ documents.map CraftDocument.id) :
    ∀ t ∈ documents.map CraftDocument.id,
      alGet (buildBlockToDocumentMap documents blocksMap) t = some t := by
  intro t ht
  have hstep : ∀ (m : List (String × String)) (doc : CraftDocument), doc ∈ documents →
      alGet m t = some t → alGet (btdDocStep blocksMap m doc) t = some t := by
    intro m doc hdoc hm
    unfold btdDocStep
    have hset : alGet (alSet m doc.id doc.id) t = some t := by
      rw [alGet_alSet]
      by_cases h : doc.id = t
      · rw [if_pos h, h]
      · rw [if_neg h]
        exact hm
    cases hbm : alGet blocksMap doc.id with
    | none => exact hset
    | some blocks =>
      rw [alGet_addBlocksRecursively_of_not_key doc.id t blocks _ ?_]
      · exact hset
      · intro bid hbid he
        have := hbids doc hdoc bid (by rw [hbm]; exact hbid)
        exact this (he ▸ ht)
  have hestab : ∀ (m : List (String × String)) (doc : CraftDocument), doc ∈ documents →
      doc.id = t → alGet (btdDocStep blocksMap m doc) t = some t := by
    intro m doc hdoc hid
    unfold btdDocStep
    have hset : alGet (alSet m doc.id doc.id) t = some t := by
      rw [alGet_alSet, if_pos hid, hid]
    cases hbm : alGet blocksMap doc.id with
    | none => exact hset
    | some blocks =>
      rw [alGet_addBlocksRecursively_of_not_key doc.id t blocks _ ?_]
      · exact hset
      · intro bid hbid he
        have := hbids doc hdoc bid (by rw [hbm]; exact hbid)
        exact this (he ▸ ht)
  rcases List.mem_map.mp ht with ⟨dt, hdt, hdtid⟩
  rcases List.append_of_mem hdt with ⟨u, w, hsplit⟩
  unfold buildBlockToDocumentMap
  rw [hsplit, List.foldl_append, List.foldl_cons]
  refine foldl_induction (btdDocStep blocksMap) (fun m => alGet m t = some t) w _
    (hestab _ dt hdt hdtid) ?_
  intro m doc hdocw hm
  exact hstep m doc (by rw [hsplit]; simp [hdocw]) hm

/-! ### Node-triple characterization of `buildGraphData` (claim C1) -/

theorem map_triplePair_alUpdate (m : List (String × GraphNode)) (k : String)
    (f : GraphNode → GraphNode) (hf : ∀ v, nodeTriple (f v) = nodeTriple v) :
    (alUpdate m k f).map (fun p => (p.1, nodeTriple p.2)) =
      m.map (fun p => (p.1, nodeTriple p.2)) := by
  induction m with
  | nil => rfl
  | cons p rest ih =>
    obtain ⟨k', v'⟩ := p
    by_cases h1 : k' = k
    · simp [alUpdate, h1, hf]
    · simp [alUpdate, h1, ih]

theorem map_triplePair_linkTargetStep (source : String)
    (st2 : List (String × GraphNode) × List GraphLink) (target : String) :
    ((linkTargetStep source st2 target).1).map (fun p => (p.1, nodeTriple p.2))
      = st2.1.map (fun p => (p.1, nodeTriple p.2)) := by
  by_cases h : source ≠ target
  · have heq : (linkTargetStep source st2 target).1
        = alUpdate (alUpdate st2.1 source (fun n => { n with linkCount := n.linkCount + 1 }))
            target (fun n =>
              { n with linkCount := n.linkCount + 1
                       linkedFrom := some ((n.linkedFrom.getD []) ++ [source]) }) := by
      unfold linkTargetStep
      rw [if_pos h]
    rw [heq]
    rw [map_triplePair_alUpdate
      (alUpdate st2.1 source (fun n => { n with linkCount := n.linkCount + 1 })) target
      (fun n => { n with linkCount := n.linkCount + 1,
                         linkedFrom := some ((n.linkedFrom.getD []) ++ [source]) })
      (fun v => rfl)]
    rw [map_triplePair_alUpdate st2.1 source
      (fun n => { n with linkCount := n.linkCount + 1 }) (fun v => rfl)]
  · have heq : linkTargetStep source st2 target = st2 := by
      unfold linkTargetStep
      rw [if_neg h]
    rw [heq]

theorem map_triplePair_target_fold (source : String) :
    ∀ (tgts : List String) (st2 : List (String × GraphNode) × List GraphLink),
      ((tgts.foldl (linkTargetStep source) st2).1).map (fun p => (p.1, nodeTriple p.2))
        = st2.1.map (fun p => (p.1, nodeTriple p.2))
  | [], _ => rfl
  | t :: tgts, st2 => by
    simp only [List.foldl_cons]
    rw [map_triplePair_target_fold source tgts _, map_triplePair_linkTargetStep]

theorem map_triplePair_linkEntryStep (st : List (String × GraphNode) × List GraphLink)
    (e : String × List String) :
    ((linkEntryStep st e).1).map (fun p => (p.1, nodeTriple p.2))
      = st.1.map (fun p => (p.1, nodeTriple p.2)) := by
  unfold linkEntryStep
  rw [map_triplePair_target_fold]
  exact map_triplePair_alUpdate _ _ _ (fun v => rfl)

theorem map_triplePair_entry_fold :
    ∀ (lm : List (String × List String)) (st : List (String × GraphNode) × List GraphLink),
      ((lm.foldl linkEntryStep st).1).map (fun p => (p.1, nodeTriple p.2))
        = st.1.map (fun p => (p.1, nodeTriple p.2))
  | [], _ => rfl
  | e :: lm, st => by
    simp only [List.foldl_cons]
    rw [map_triplePair_entry_fold lm _, map_triplePair_linkEntryStep]

theorem addTargetStep_entries (documents : List CraftDocument)
    (btd : List (String × String)) (docId : String)
    (st : List (String × GraphNode) × List (String × List String)) (t : String)
    (htar : ∃ dd ∈ documents, resolveTarget btd t = dd.id ∧
      nodeTriple (targetNodeFor documents (resolveTarget btd t))
        = (dd.id, NodeType.document, dd.title))
    (hst : ∀ p ∈ st.1, ∃ dd ∈ documents, p.1 = dd.id ∧
      nodeTriple p.2 = (dd.id, NodeType.document, dd.title)) :
    ∀ p ∈ (addTargetStep documents btd docId st t).1,
      ∃ dd ∈ documents, p.1 = dd.id ∧
        nodeTriple p.2 = (dd.id, NodeType.document, dd.title) := by
  intro p hp
  have hp1 : p ∈ (if alHas st.1 (resolveTarget btd t) = true then st.1
      else alSet st.1 (resolveTarget btd t)
        (targetNodeFor documents (resolveTarget btd t))) := hp
  by_cases h : alHas st.1 (resolveTarget btd t) = true
  · rw [if_pos h] at hp1
    exact hst p hp1
  · rw [if_neg h] at hp1
    rcases mem_alSet_elim hp1 with h2 | h2
    · subst h2
      rcases htar with ⟨dd, hdd, hid, htr⟩
      exact ⟨dd, hdd, hid, htr⟩
    · exact hst p h2

theorem target_fold_entries (documents : List CraftDocument)
    (btd : List (String × String)) (docId : String) :
    ∀ (tgts : List String) (st : List (String × GraphNode) × List (String × List String)),
      (∀ t ∈ tgts, ∃ dd ∈ documents, resolveTarget btd t = dd.id ∧
        nodeTriple (targetNodeFor documents (resolveTarget btd t))
          = (dd.id, NodeType.document, dd.title)) →
      (∀ p ∈ st.1, ∃ dd ∈ documents, p.1 = dd.id ∧
        nodeTriple p.2 = (dd.id, NodeType.document, dd.title)) →
      ∀ p ∈ ((tgts.foldl (addTargetStep documents btd docId) st).1),
        ∃ dd ∈ documents, p.1 = dd.id ∧
          nodeTriple p.2 = (dd.id, NodeType.document, dd.title)
  | [], _, _, hst => hst
  | t :: tgts, st, htar, hst => by
    simp only [List.foldl_cons]
    exact target_fold_entries documents btd docId tgts _
      (fun t2 ht2 => htar t2 (by simp [ht2]))
      (addTargetStep_entries documents btd docId st t (htar t (by simp)) hst)

theorem processBlockStep_entries (documents : List CraftDocument)
    (btd : List (String × String)) (docId : String)
    (st : List (String × GraphNode) × List (String × List String)) (block : CraftBlock)
    (htar : ∀ t ∈ extractLinksFromBlock block,
      ∃ dd ∈ documents, resolveTarget btd t = dd.id ∧
        nodeTriple (targetNodeFor documents (resolveTarget btd t))
          = (dd.id, NodeType.document, dd.title))
    (hst : ∀ p ∈ st.1, ∃ dd ∈ documents, p.1 = dd.id ∧
      nodeTriple p.2 = (dd.id, NodeType.document, dd.title)) :
    ∀ p ∈ (processBlockStep documents btd docId st block).1,
      ∃ dd ∈ documents, p.1 = dd.id ∧
        nodeTriple p.2 = (dd.id, NodeType.document, dd.title) := by
  unfold processBlockStep
  by_cases hlen : (extractLinksFromBlock block).length > 0
  · rw [if_pos hlen]
    exact target_fold_entries documents btd docId (extractLinksFromBlock block)
      (st.1, if alHas st.2 docId then st.2 else alSet st.2 docId []) htar hst
  · rw [if_neg hlen]
    exact hst

theorem block_fold_entries (documents : List CraftDocument)
    (btd : List (String × String)) (docId : String) :
    ∀ (blocks : List CraftBlock)
      (st : List (String × GraphNode) × List (String × List String)),
      (∀ t ∈ extractLinksFromBlockList blocks,
        ∃ dd ∈ documents, resolveTarget btd t = dd.id ∧
          nodeTriple (targetNodeFor documents (resolveTarget btd t))
            = (dd.id, NodeType.document, dd.title)) →
      (∀ p ∈ st.1, ∃ dd ∈ documents, p.1 = dd.id ∧
        nodeTriple p.2 = (dd.id, NodeType.document, dd.title)) →
      ∀ p ∈ ((blocks.foldl (processBlockStep documents btd docId) st).1),
        ∃ dd ∈ documents, p.1 = dd.id ∧
          nodeTriple p.2 = (dd.id, NodeType.document, dd.title)
  | [], _, _, hst => hst
  | b :: blocks, st, htar, hst => by
    simp only [List.foldl_cons]
    refine block_fold_entries documents btd docId blocks _ ?_ ?_
    · intro t2 ht2
      exact htar t2 (by
        rw [show extractLinksFromBlockList (b :: blocks)
            = extractLinksFromBlock b ++ extractLinksFromBlockList blocks from rfl]
        exact List.mem_append.mpr (Or.inr ht2))
    · exact processBlockStep_entries documents btd docId st b
        (fun t2 ht2 => htar t2 (by
          rw [show extractLinksFromBlockList (b :: blocks)
              = extractLinksFromBlock b ++ extractLinksFromBlockList blocks from rfl]
          exact List.mem_append.mpr (Or.inl ht2))) hst

theorem processDocumentStep_entries (documents : List CraftDocument)
    (btd : List (String × String)) (bm : List (String × List CraftBlock))
    (st : List (String × GraphNode) × List (String × List String)) (doc : CraftDocument)
    (hdoc : doc ∈ documents) (htitle : doc.title ≠ "")
    (htar : ∀ t ∈ rawLinksOfDoc bm doc.id,
      ∃ dd ∈ documents, resolveTarget btd t = dd.id ∧
        nodeTriple (targetNodeFor documents (resolveTarget btd t))
          = (dd.id, NodeType.document, dd.title))
    (hst : ∀ p ∈ st.1, ∃ dd ∈ documents, p.1 = dd.id ∧
      nodeTriple p.2 = (dd.id, NodeType.document, dd.title)) :
    ∀ p ∈ (processDocumentStep documents btd bm st doc).1,
      ∃ dd ∈ documents, p.1 = dd.id ∧
        nodeTriple p.2 = (dd.id, NodeType.document, dd.title) := by
  have hnm : ∀ p ∈ (if alHas st.1 doc.id = true then st.1
      else alSet st.1 doc.id
        { id := doc.id, title := jsOr (some doc.title) "Untitled"
          type := NodeType.document, linkCount := 0 }),
      ∃ dd ∈ documents, p.1 = dd.id ∧
        nodeTriple p.2 = (dd.id, NodeType.document, dd.title) := by
    intro p hp
    by_cases h : alHas st.1 doc.id = true
    · rw [if_pos h] at hp
      exact hst p hp
    · rw [if_neg h] at hp
      rcases mem_alSet_elim hp with h2 | h2
      · subst h2
        refine ⟨doc, hdoc, rfl, ?_⟩
        show (doc.id, NodeType.document, jsOr (some doc.title) "Untitled")
          = (doc.id, NodeType.document, doc.title)
        simp [jsOr, htitle]
      · exact hst p h2
  unfold processDocumentStep
  cases hbm : alGet bm doc.id with
  | none => exact hnm
  | some blocks =>
    refine block_fold_entries documents btd doc.id blocks _ ?_ hnm
    intro t2 ht2
    refine htar t2 ?_
    unfold rawLinksOfDoc
    rw [hbm]
    exact ht2

theorem doc_fold_entries (documents : List CraftDocument)
    (btd : List (String × String)) (bm : List (String × List CraftBlock))
    (htitle : ∀ doc ∈ documents, doc.title ≠ "")
    (htar : ∀ doc ∈ documents, ∀ t ∈ rawLinksOfDoc bm doc.id,
      ∃ dd ∈ documents, resolveTarget btd t = dd.id ∧
        nodeTriple (targetNodeFor documents (resolveTarget btd t))
          = (dd.id, NodeType.document, dd.title)) :
    ∀ (docs : List CraftDocument)
      (st : List (String × GraphNode) × List (String × List String)),
      (∀ doc ∈ docs, doc ∈ documents) →
      (∀ p ∈ st.1, ∃ dd ∈ documents, p.1 = dd.id ∧
        nodeTriple p.2 = (dd.id, NodeType.document, dd.title)) →
      ∀ p ∈ ((docs.foldl (processDocumentStep documents btd bm) st).1),
        ∃ dd ∈ documents, p.1 = dd.id ∧
          nodeTriple p.2 = (dd.id, NodeType.document, dd.title)
  | [], _, _, hst => hst
  | doc :: docs, st, hsub, hst => by
    simp only [List.foldl_cons]
    refine doc_fold_entries documents btd bm htitle htar docs _
      (fun d2 hd2 => hsub d2 (by simp [hd2])) ?_
    exact processDocumentStep_entries documents btd bm st doc (hsub doc (by simp))
      (htitle doc (hsub doc (by simp))) (htar doc (hsub doc (by simp))) hst

theorem addTargetStep_has_mono (documents : List CraftDocument)
    (btd : List (String × String)) (docId : String)
    (st : List (String × GraphNode) × List (String × List String)) (t k : String)
    (h : alHas st.1 k = true) :
    alHas (addTargetStep documents btd docId st t).1 k = true := by
  have heq : (addTargetStep documents btd docId st t).1
      = if alHas st.1 (resolveTarget btd t) = true then st.1
        else alSet st.1 (resolveTarget btd t)
          (targetNodeFor documents (resolveTarget btd t)) := rfl
  rw [heq]
  by_cases hc : alHas st.1 (resolveTarget btd t) = true
  · rw [if_pos hc]
    exact h
  · rw [if_neg hc, alHas_alSet]
    by_cases hk : resolveTarget btd t = k
    · rw [if_pos hk]
    · rw [if_neg hk]
      exact h

theorem target_fold_has_mono (documents : List CraftDocument)
    (btd : List (String × String)) (docId : String) :
    ∀ (tgts : List String) (st : List (String × GraphNode) × List (String × List String))
      (k : String), alHas st.1 k = true →
      alHas ((tgts.foldl (addTargetStep documents btd docId) st).1) k = true
  | [], _, _, h => h
  | t :: tgts, st, k, h => by
    simp only [List.foldl_cons]
    exact target_fold_has_mono documents btd docId tgts _ k
      (addTargetStep_has_mono documents btd docId st t k h)

theorem processBlockStep_has_mono (documents : List CraftDocument)
    (btd : List (String × String)) (docId : String)
    (st : List (String × GraphNode) × List (String × List String)) (block : CraftBlock)
    (k : String) (h : alHas st.1 k = true) :
    alHas (processBlockStep documents btd docId st block).1 k = true := by
  unfold processBlockStep
  by_cases hlen : (extractLinksFromBlock block).length > 0
  · rw [if_pos hlen]
    exact target_fold_has_mono documents btd docId (extractLinksFromBlock block) _ k h
  · rw [if_neg hlen]
    exact h

theorem block_fold_has_mono (documents : List CraftDocument)
    (btd : List (String × String)) (docId : String) :
    ∀ (blocks : List CraftBlock)
      (st : List (String × GraphNode) × List (String × List String)) (k : String),
      alHas st.1 k = true →
      alHas ((blocks.foldl (processBlockStep documents btd docId) st).1) k = true
  | [], _, _, h => h
  | b :: blocks, st, k, h => by
    simp only [List.foldl_cons]
    exact block_fold_has_mono documents btd docId blocks _ k
      (processBlockStep_has_mono documents btd docId st b k h)

theorem processDocumentStep_has_mono (documents : List CraftDocument)
    (btd : List (String × String)) (bm : List (String × List CraftBlock))
    (st : List (String × GraphNode) × List (String × List String)) (doc : CraftDocument)
    (k : String) (h : alHas st.1 k = true) :
    alHas (processDocumentStep documents btd bm st doc).1 k = true := by
  have hnm : alHas (if alHas st.1 doc.id = true then st.1
      else alSet st.1 doc.id
        { id := doc.id, title := jsOr (some doc.title) "Untitled"
          type := NodeType.document, linkCount := 0 }) k = true := by
    by_cases hc : alHas st.1 doc.id = true
    · rw [if_pos hc]
      exact h
    · rw [if_neg hc, alHas_alSet]
      by_cases hk : doc.id = k
      · rw [if_pos hk]
      · rw [if_neg hk]
        exact h
  unfold processDocumentStep
  cases hbm : alGet bm doc.id with
  | none => exact hnm
  | some blocks => exact block_fold_has_mono documents btd doc.id blocks _ k hnm

theorem processDocumentStep_has_self (documents : List CraftDocument)
    (btd : List (String × String)) (bm : List (String × List CraftBlock))
    (st : List (String × GraphNode) × List (String × List String)) (doc : CraftDocument) :
    alHas (processDocumentStep documents btd bm st doc).1 doc.id = true := by
  have hnm : alHas (if alHas st.1 doc.id = true then st.1
      else alSet st.1 doc.id
        { id := doc.id, title := jsOr (some doc.title) "Untitled"
          type := NodeType.document, linkCount := 0 }) doc.id = true := by
    by_cases hc : alHas st.1 doc.id = true
    · rw [if_pos hc]
      exact hc
    · rw [if_neg hc, alHas_alSet, if_pos rfl]
  unfold processDocumentStep
  cases hbm : alGet bm doc.id with
  | none => exact hnm
  | some blocks => exact block_fold_has_mono documents btd doc.id blocks _ doc.id hnm

theorem doc_fold_has (documents : List CraftDocument)
    (btd : List (String × String)) (bm : List (String × List CraftBlock)) :
    ∀ (docs : List CraftDocument)
      (st : List (String × GraphNode) × List (String × List String)),
      ∀ doc ∈ docs,
        alHas ((docs.foldl (processDocumentStep documents btd bm) st).1) doc.id = true
  | [], _, doc, hdoc => by simp at hdoc
  | d2 :: docs, st, doc, hdoc => by
    simp only [List.foldl_cons]
    rcases List.mem_cons.mp hdoc with he | hdoc2
    · subst he
      refine foldl_induction (processDocumentStep documents btd bm)
        (fun s2 => alHas s2.1 doc.id = true) docs _
        (processDocumentStep_has_self documents btd bm st doc) ?_
      intro s2 d3 _ hs2
      exact processDocumentStep_has_mono documents btd bm s2 d3 doc.id hs2
    · exact doc_fold_has documents btd bm docs _ doc hdoc2

theorem addTargetStep_keys_nodup (documents : List CraftDocument)
    (btd : List (String × String)) (docId : String)
    (st : List (String × GraphNode) × List (String × List String)) (t : String)
    (h : alNodupKeys st.1) : alNodupKeys (addTargetStep documents btd docId st t).1 := by
  have heq : (addTargetStep documents btd docId st t).1
      = if alHas st.1 (resolveTarget btd t) = true then st.1
        else alSet st.1 (resolveTarget btd t)
          (targetNodeFor documents (resolveTarget btd t)) := rfl
  rw [heq]
  by_cases hc : alHas st.1 (resolveTarget btd t) = true
  · rw [if_pos hc]
    exact h
  · rw [if_neg hc]
    exact alNodupKeys_alSet _ _ _ h

theorem target_fold_keys_nodup (documents : List CraftDocument)
    (btd : List (String × String)) (docId : String) :
    ∀ (tgts : List String) (st : List (String × GraphNode) × List (String × List String)),
      alNodupKeys st.1 →
      alNodupKeys ((tgts.foldl (addTargetStep documents btd docId) st).1)
  | [], _, h => h
  | t :: tgts, st, h => by
    simp only [List.foldl_cons]
    exact target_fold_keys_nodup documents btd docId tgts _
      (addTargetStep_keys_nodup documents btd docId st t h)

theorem processBlockStep_keys_nodup (documents : List CraftDocument)
    (btd : List (String × String)) (docId : String)
    (st : List (String × GraphNode) × List (String × List String)) (block : CraftBlock)
    (h : alNodupKeys st.1) : alNodupKeys (processBlockStep documents btd docId st block).1 := by
  unfold processBlockStep
  by_cases hlen : (extractLinksFromBlock block).length > 0
  · rw [if_pos hlen]
    exact target_fold_keys_nodup documents btd docId (extractLinksFromBlock block) _ h
  · rw [if_neg hlen]
    exact h

theorem block_fold_keys_nodup (documents : List CraftDocument)
    (btd : List (String × String)) (docId : String) :
    ∀ (blocks : List CraftBlock)
      (st : List (String × GraphNode) × List (String × List String)),
      alNodupKeys st.1 →
      alNodupKeys ((blocks.foldl (processBlockStep documents btd docId) st).1)
  | [], _, h => h
  | b :: blocks, st, h => by
    simp only [List.foldl_cons]
    exact block_fold_keys_nodup documents btd docId blocks _
      (processBlockStep_keys_nodup documents btd docId st b h)

theorem processDocumentStep_keys_nodup (documents : List CraftDocument)
    (btd : List (String × String)) (bm : List (String × List CraftBlock))
    (st : List (String × GraphNode) × List (String × List String)) (doc : CraftDocument)
    (h : alNodupKeys st.1) : alNodupKeys (processDocumentStep documents btd bm st doc).1 := by
  have hnm : alNodupKeys (if alHas st.1 doc.id = true then st.1
      else alSet st.1 doc.id
        { id := doc.id, title := jsOr (some doc.title) "Untitled"
          type := NodeType.document, linkCount := 0 }) := by
    by_cases hc : alHas st.1 doc.id = true
    · rw [if_pos hc]
      exact h
    · rw [if_neg hc]
      exact alNodupKeys_alSet _ _ _ h
  unfold processDocumentStep
  cases hbm : alGet bm doc.id with
  | none => exact hnm
  | some blocks => exact block_fold_keys_nodup documents btd doc.id blocks _ hnm

theorem doc_fold_keys_nodup (documents : List CraftDocument)
    (btd : List (String × String)) (bm : List (String × List CraftBlock)) :
    ∀ (docs : List CraftDocument)
      (st : List (String × GraphNode) × List (String × List String)),
      alNodupKeys st.1 →
      alNodupKeys ((docs.foldl (processDocumentStep documents btd bm) st).1)
  | [], _, h => h
  | doc :: docs, st, h => by
    simp only [List.foldl_cons]
    exact doc_fold_keys_nodup documents btd bm docs _
      (processDocumentStep_keys_nodup documents btd bm st doc h)

theorem buildGraphData_nodes_triples_eq (documents : List CraftDocument)
    (bm : List (String × List CraftBlock)) :
    (buildGraphData documents bm).nodes.map nodeTriple
      = ((documents.foldl (processDocumentStep documents
          (buildBlockToDocumentMap documents bm) bm) ([], [])).1).map
            (fun p => nodeTriple p.2) := by
  rw [buildGraphData_nodes_eq]
  have h := map_triplePair_entry_fold
    ((documents.foldl (processDocumentStep documents
      (buildBlockToDocumentMap documents bm) bm) ([], [])).2)
    ((documents.foldl (processDocumentStep documents
      (buildBlockToDocumentMap documents bm) bm) ([], [])).1, [])
  have h2 := congrArg (List.map Prod.snd) h
  rw [List.map_map, List.map_map] at h2
  exact Eq.trans (List.map_map _ _ _) h2

theorem mem_buildGraphData_node_triples (documents : List CraftDocument)
    (bm : List (String × List CraftBlock))
    (hnd : (documents.map CraftDocument.id).Nodup)
    (htitle : ∀ doc ∈ documents, doc.title ≠ "")
    (htar : ∀ doc ∈ documents, ∀ t ∈ rawLinksOfDoc bm doc.id,
      ∃ dd ∈ documents,
        resolveTarget (buildBlockToDocumentMap documents bm) t = dd.id ∧
        nodeTriple (targetNodeFor documents
          (resolveTarget (buildBlockToDocumentMap documents bm) t))
          = (dd.id, NodeType.document, dd.title)) :
    ∀ x, x ∈ (buildGraphData documents bm).nodes.map nodeTriple ↔
      ∃ doc ∈ documents, x = (doc.id, NodeType.document, doc.title) := by
  intro x
  rw [buildGraphData_nodes_triples_eq]
  constructor
  · intro hx
    rcases List.mem_map.mp hx with ⟨p, hp, hpx⟩
    rcases doc_fold_entries documents (buildBlockToDocumentMap documents bm) bm htitle htar
      documents ([], []) (fun d hd => hd) (by intro q hq; simp at hq) p hp
      with ⟨dd, hdd, hid, htr⟩
    exact ⟨dd, hdd, by rw [← hpx, htr]⟩
  · rintro ⟨doc, hdoc, hx⟩
    have hhas := doc_fold_has documents (buildBlockToDocumentMap documents bm) bm
      documents ([], []) doc hdoc
    have hsome : (alGet ((documents.foldl (processDocumentStep documents
        (buildBlockToDocumentMap documents bm) bm) ([], [])).1) doc.id).isSome = true := hhas
    cases hget : alGet ((documents.foldl (processDocumentStep documents
        (buildBlockToDocumentMap documents bm) bm) ([], [])).1) doc.id with
    | none =>
      rw [hget] at hsome
      simp at hsome
    | some v =>
      have hmem := mem_of_alGet_eq_some hget
      rcases doc_fold_entries documents (buildBlockToDocumentMap documents bm) bm htitle htar
        documents ([], []) (fun d hd => hd) (by intro q hq; simp at hq) (doc.id, v) hmem
        with ⟨dd, hdd, hid, htr⟩
      have hddc : dd = doc := List.inj_on_of_nodup_map hnd hdd hdoc hid.symm
      refine List.mem_map.mpr ⟨(doc.id, v), hmem, ?_⟩
      show nodeTriple v = x
      rw [htr, hddc, hx]

theorem buildGraphData_node_ids_nodup (documents : List CraftDocument)
    (bm : List (String × List CraftBlock))
    (htitle : ∀ doc ∈ documents, doc.title ≠ "")
    (htar : ∀ doc ∈ documents, ∀ t ∈ rawLinksOfDoc bm doc.id,
      ∃ dd ∈ documents,
        resolveTarget (buildBlockToDocumentMap documents bm) t = dd.id ∧
        nodeTriple (targetNodeFor documents
          (resolveTarget (buildBlockToDocumentMap documents bm) t))
          = (dd.id, NodeType.document, dd.title)) :
    ((buildGraphData documents bm).nodes.map GraphNode.id).Nodup := by
  have htrip := buildGraphData_nodes_triples_eq documents bm
  have h2 := congrArg (List.map (fun q : String × NodeType × String => q.1)) htrip
  rw [List.map_map, List.map_map] at h2
  have hids : (buildGraphData documents bm).nodes.map GraphNode.id
      = ((documents.foldl (processDocumentStep documents
          (buildBlockToDocumentMap documents bm) bm) ([], [])).1).map
          (fun p => p.2.id) := h2
  rw [hids]
  have hQ := doc_fold_entries documents (buildBlockToDocumentMap documents bm) bm htitle htar
    documents ([], []) (fun d hd => hd) (by intro q hq; simp at hq)
  have hcongr := map_congr_mem (fun p : String × GraphNode => p.2.id) Prod.fst
    ((documents.foldl (processDocumentStep documents
      (buildBlockToDocumentMap documents bm) bm) ([], [])).1) ?_
  · rw [hcongr]
    exact doc_fold_keys_nodup documents (buildBlockToDocumentMap documents bm) bm documents
      ([], []) (by simp [alNodupKeys])
  · intro p hp
    rcases hQ p hp with ⟨dd, hdd, hid, htr⟩
    have hpid : p.2.id = dd.id := congrArg (fun q : String × NodeType × String => q.1) htr
    exact hpid.trans hid.symm

theorem resolveTarget_buildMap_docId (documents : List CraftDocument)
    (blocksMap : List (String × List CraftBlock))
    (hbids : ∀ doc ∈ documents,
      ∀ bid ∈ blockIdsList ((alGet blocksMap doc.id).getD []),
        bid ∉ documents.map CraftDocument.id) :
    ∀ t ∈ documents.map CraftDocument.id,
      resolveTarget (buildBlockToDocumentMap documents blocksMap) t = t := by
  intro t ht
  unfold resolveTarget
  rw [alGet_buildBlockToDocumentMap_docId documents blocksMap hbids t ht]
  by_cases h : t = "" <;> simp [jsOr, h]

end Parser

namespace Parser

theorem map_triplePair_rebuildLinkStep (m : List (String × GraphNode)) (link : GraphLink) :
    (rebuildLinkStep m link).map (fun p => (p.1, nodeTriple p.2))
      = m.map (fun p => (p.1, nodeTriple p.2)) := by
  unfold rebuildLinkStep
  by_cases h : alHas m link.source = true ∧ alHas m link.target = true
  · rw [if_pos h]
    rw [map_triplePair_alUpdate
      (alUpdate m link.source (fun n =>
        if link.target ∈ n.linksTo.getD [] then n
        else { n with linksTo := some (n.linksTo.getD [] ++ [link.target]) }))
      link.target
      (fun n =>
        if link.source ∈ n.linkedFrom.getD [] then n
        else { n with linkedFrom := some (n.linkedFrom.getD [] ++ [link.source]) })
      (fun v => by
        by_cases hc : link.source ∈ v.linkedFrom.getD [] <;> simp [hc, nodeTriple])]
    rw [map_triplePair_alUpdate m link.source
      (fun n =>
        if link.target ∈ n.linksTo.getD [] then n
        else { n with linksTo := some (n.linksTo.getD [] ++ [link.target]) })
      (fun v => by
        by_cases hc : link.target ∈ v.linksTo.getD [] <;> simp [hc, nodeTriple])]
  · rw [if_neg h]

theorem map_triplePair_foldl_rebuildLinkStep (links : List GraphLink) :
    ∀ (m : List (String × GraphNode)),
      (links.foldl rebuildLinkStep m).map (fun p => (p.1, nodeTriple p.2))
        = m.map (fun p => (p.1, nodeTriple p.2)) := by
  induction links with
  | nil => intro m; rfl
  | cons l ls ih =>
    intro m
    simp only [List.foldl_cons]
    rw [ih, map_triplePair_rebuildLinkStep]

end Parser

namespace Fetcher

mutual

theorem alGet_addBlocksToMap_of_not_key (docId t : String) :
    ∀ (bs : List CraftBlock) (m : List (String × String)),
      (∀ bid ∈ blockIdsList bs, bid ≠ t) →
      alGet (addBlocksToMap docId bs m) t = alGet m t
  | [], _, _ => rfl
  | b :: bs, m, h => by
    rw [show addBlocksToMap docId (b :: bs) m
        = addBlocksToMap docId bs (addOneBlockToMap docId b m) from rfl]
    rw [alGet_addBlocksToMap_of_not_key docId t bs _
      (fun bid hbid => h bid (by
        rw [show blockIdsList (b :: bs) = blockIds b ++ blockIdsList bs from rfl]
        exact List.mem_append.mpr (Or.inr hbid)))]
    exact alGet_addOneBlockToMap_of_not_key docId t b m
      (fun bid hbid => h bid (by
        rw [show blockIdsList (b :: bs) = blockIds b ++ blockIdsList bs from rfl]
        exact List.mem_append.mpr (Or.inl hbid)))

theorem alGet_addOneBlockToMap_of_not_key (docId t : String) :
    ∀ (b : CraftBlock) (m : List (String × String)),
      (∀ bid ∈ blockIds b, bid ≠ t) →
      alGet (addOneBlockToMap docId b m) t = alGet m t
  | .mk bid md content, m, h => by
    rw [show addOneBlockToMap docId (.mk bid md content) m
        = addBlocksToMap docId content (alSet m bid docId) from rfl]
    rw [alGet_addBlocksToMap_of_not_key docId t content _
      (fun b2 hb2 => h b2 (by
        rw [show blockIds (.mk bid md content) = bid :: blockIdsList content from rfl]
        exact List.mem_cons_of_mem _ hb2))]
    rw [alGet_alSet]
    exact if_neg (h bid (by
      rw [show blockIds (.mk bid md content) = bid :: blockIdsList content from rfl]
      exact List.mem_cons_self _ _))

end

/-- When every target resolves to itself and is already stored, the
incremental target loop leaves the node map unchanged and appends one edge
per non-self occurrence. -/
theorem incTargets_fold_closed (cur : List CraftDocument) (btd : List (String × String))
    (docId : String) :
    ∀ (tgts : List String) (st : List (String × GraphNode) × List GraphLink),
      (∀ t ∈ tgts, Parser.resolveTarget btd t = t) →
      (∀ t ∈ tgts, alHas st.1 t = true) →
      tgts.foldl (incTargetStep cur btd docId) st
        = (st.1, st.2 ++ (tgts.filter (fun t => !(docId == t))).map
            (fun t => (⟨docId, t⟩ : GraphLink)))
  | [], st, _, _ => by simp
  | t :: tgts, st, hres, hhas => by
    simp only [List.foldl_cons]
    have hrt := hres t (by simp)
    have hht := hhas t (by simp)
    have hnode : incTargetNode cur btd st.1 t = st.1 := by
      unfold incTargetNode
      rw [hrt, if_pos hht]
    by_cases hd : docId = t
    · have hstep : incTargetStep cur btd docId st t = (st.1, st.2) := by
        unfold incTargetStep
        rw [if_neg (by rw [hrt]; exact fun hc => hc.1 hd), hnode]
      rw [hstep]
      rw [incTargets_fold_closed cur btd docId tgts (st.1, st.2)
        (fun t2 ht2 => hres t2 (by simp [ht2])) (fun t2 ht2 => hhas t2 (by simp [ht2]))]
      rw [show (t :: tgts).filter (fun t2 => !(docId == t2))
          = tgts.filter (fun t2 => !(docId == t2)) from by
        rw [List.filter_cons]
        simp [hd]]
    · have hc : docId ≠ Parser.resolveTarget btd t ∧
          alHas (incTargetNode cur btd st.1 t) (Parser.resolveTarget btd t) = true := by
        constructor
        · rw [hrt]
          exact hd
        · rw [hrt, hnode]
          exact hht
      have hstep : incTargetStep cur btd docId st t
          = (st.1, st.2 ++ [(⟨docId, t⟩ : GraphLink)]) := by
        unfold incTargetStep
        rw [if_pos hc, hnode, hrt]
      rw [hstep]
      rw [incTargets_fold_closed cur btd docId tgts
        (st.1, st.2 ++ [(⟨docId, t⟩ : GraphLink)])
        (fun t2 ht2 => hres t2 (by simp [ht2])) (fun t2 ht2 => hhas t2 (by simp [ht2]))]
      rw [show (t :: tgts).filter (fun t2 => !(docId == t2))
          = t :: tgts.filter (fun t2 => !(docId == t2)) from by
        rw [List.filter_cons]
        simp [hd]]
      simp

theorem classifyStep_self_unchanged (docs : List CraftDocument)
    (hnd : ((docs.map toDocumentMetadata).map DocumentMetadata.id).Nodup)
    (acc : List String × List String) (doc : CraftDocument) (hdoc : doc ∈ docs) :
    classifyStep (cachedDocMapOf (docs.map toDocumentMetadata)) acc doc = acc := by
  have hg : alGet (cachedDocMapOf (docs.map toDocumentMetadata)) doc.id
      = some (toDocumentMetadata doc) :=
    alGet_buildMap DocumentMetadata.id (fun d => d) (docs.map toDocumentMetadata) [] hnd
      (List.mem_map_of_mem toDocumentMetadata hdoc)
  simp [classifyStep, hg, isModifiedDoc_self]

/-- Triple projection of the nodes surviving the incremental tail: the
recount and the rebuild touch neither ids, kinds nor titles. -/
theorem finalize_nodes_triples (nm : List (String × GraphNode)) (links : List GraphLink)
    (hnd : ((alValues nm).map GraphNode.id).Nodup) :
    (finalizeIncrementalGraph nm links).nodes.map nodeTriple
      = (alValues nm).map nodeTriple := by
  rw [finalize_nodes_eq]
  have harr : (((alValues nm).map (fun n =>
      { n with linkCount := linkCountOf links n.id
               color := some (Parser.calculateNodeColor (linkCountOf links n.id)) })).map
      GraphNode.id).Nodup := by
    rw [List.map_map]
    exact hnd
  have h2 : Parser.initialNodesMap ((alValues nm).map (fun n =>
      { n with linkCount := linkCountOf links n.id
               color := some (Parser.calculateNodeColor (linkCountOf links n.id)) }))
      = ((alValues nm).map (fun n =>
        { n with linkCount := linkCountOf links n.id
                 color := some (Parser.calculateNodeColor (linkCountOf links n.id)) })).map
        (fun n => (n.id, Parser.resetNode n)) := by
    unfold Parser.initialNodesMap
    rw [foldl_alSet_key_fresh GraphNode.id Parser.resetNode _ [] harr (fun b _ => rfl)]
    simp
  have h1 := Parser.map_triplePair_foldl_rebuildLinkStep links
    (Parser.initialNodesMap ((alValues nm).map (fun n =>
      { n with linkCount := linkCountOf links n.id
               color := some (Parser.calculateNodeColor (linkCountOf links n.id)) })))
  have hc := congrArg (List.map Prod.snd) h1
  rw [List.map_map, List.map_map] at hc
  have hA : (alValues (links.foldl Parser.rebuildLinkStep
      (Parser.initialNodesMap ((alValues nm).map (fun n =>
        { n with linkCount := linkCountOf links n.id
                 color := some (Parser.calculateNodeColor
                   (linkCountOf links n.id)) }))))).map nodeTriple
      = (alValues (Parser.initialNodesMap ((alValues nm).map (fun n =>
        { n with linkCount := linkCountOf links n.id
                 color := some (Parser.calculateNodeColor
                   (linkCountOf links n.id)) })))).map nodeTriple := by
    refine Eq.trans (List.map_map _ _ _) (Eq.trans hc ?_)
    exact (List.map_map nodeTriple Prod.snd _).symm
  refine hA.trans ?_
  rw [h2]
  rw [show alValues (((alValues nm).map (fun n =>
      { n with linkCount := linkCountOf links n.id
               color := some (Parser.calculateNodeColor (linkCountOf links n.id)) })).map
      (fun n => (n.id, Parser.resetNode n)))
      = ((alValues nm).map (fun n =>
        { n with linkCount := linkCountOf links n.id
                 color := some (Parser.calculateNodeColor (linkCountOf links n.id)) })).map
        (fun n => Parser.resetNode n) from by
    unfold alValues
    rw [List.map_map]
    rfl]
  rw [List.map_map, List.map_map]
  rfl

end Fetcher

theorem alHas_append_or {α : Type} (a b : List (String × α)) (s : String) :
    alHas (a ++ b) s = (alHas a s || alHas b s) := by
  rw [show alHas (a ++ b) s = (alGet (a ++ b) s).isSome from rfl, alGet_append]
  cases h : alGet a s with
  | none => simp [alHas, h]
  | some v => simp [alHas, h]

theorem alValues_append {α : Type} (a b : List (String × α)) :
    alValues (a ++ b) = alValues a ++ alValues b := by
  unfold alValues
  rw [List.map_append]

/-- **C1 (amended).**  For a corpus `docsOld ++ [d]` with unique ids,
nonempty titles, fresh block ids, old documents referencing only old
documents and the new document referencing only corpus documents, the full
build and the {full build of `docsOld`} + {incremental add of `d`} paths
produce the same node set (id, kind, title) and the same edge set, compared
order-independently.  Unknown-target references (and references to block ids
of unfetched documents) break the equivalence: the full build materializes a
block node and edge that the incremental path drops — see the
counterexample. -/
theorem c1_full_vs_incremental
    (docsOld : List CraftDocument) (d : CraftDocument)
    (blocksMap : List (String × List CraftBlock))
    (hnd : ((docsOld ++ [d]).map CraftDocument.id).Nodup)
    (htitles : ∀ doc ∈ docsOld ++ [d], doc.title ≠ "")
    (holdtar : ∀ doc ∈ docsOld, ∀ t ∈ Parser.rawLinksOfDoc blocksMap doc.id,
      t ∈ docsOld.map CraftDocument.id)
    (hdtar : ∀ t ∈ Parser.rawLinksOfDoc blocksMap d.id,
      t ∈ (docsOld ++ [d]).map CraftDocument.id)
    (hbids : ∀ doc ∈ docsOld ++ [d],
      ∀ bid ∈ blockIdsList ((alGet blocksMap doc.id).getD []),
        bid ∉ (docsOld ++ [d]).map CraftDocument.id) :
    ((Parser.buildGraphData (docsOld ++ [d]) blocksMap).nodes.map nodeTriple).toFinset
      = ((Fetcher.buildGraphIncremental (docsOld.map Fetcher.toDocumentMetadata)
          (Parser.buildGraphData docsOld blocksMap) (docsOld ++ [d])
          (fun i => Except.ok ((alGet blocksMap i).getD []))).graphData.nodes.map
            nodeTriple).toFinset
    ∧
    ((Parser.buildGraphData (docsOld ++ [d]) blocksMap).links.map linkPair).toFinset
      = ((Fetcher.buildGraphIncremental (docsOld.map Fetcher.toDocumentMetadata)
          (Parser.buildGraphData docsOld blocksMap) (docsOld ++ [d])
          (fun i => Except.ok ((alGet blocksMap i).getD []))).graphData.links.map
            linkPair).toFinset := by
  have hndOld : (docsOld.map CraftDocument.id).Nodup := by
    rw [List.map_append] at hnd
    exact (List.nodup_append.mp hnd).1
  have hdnotold : d.id ∉ docsOld.map CraftDocument.id := by
    rw [List.map_append] at hnd
    have hdisj := (List.nodup_append.mp hnd).2.2
    exact fun hmem => hdisj hmem (by simp)
  have htitlesOld : ∀ doc ∈ docsOld, doc.title ≠ "" :=
    fun doc hdoc => htitles doc (List.mem_append.mpr (Or.inl hdoc))
  have hbidsOld : ∀ doc ∈ docsOld,
      ∀ bid ∈ blockIdsList ((alGet blocksMap doc.id).getD []),
        bid ∉ docsOld.map CraftDocument.id :=
    fun doc hdoc bid hbid hmem =>
      hbids doc (List.mem_append.mpr (Or.inl hdoc)) bid hbid
        (by rw [List.map_append]; exact List.mem_append.mpr (Or.inl hmem))
  have hresFull := Parser.resolveTarget_buildMap_docId (docsOld ++ [d]) blocksMap hbids
  have hresOld := Parser.resolveTarget_buildMap_docId docsOld blocksMap hbidsOld
  have htidAll : ∀ doc ∈ docsOld ++ [d], ∀ t ∈ Parser.rawLinksOfDoc blocksMap doc.id,
      t ∈ (docsOld ++ [d]).map CraftDocument.id := by
    intro doc hdoc t ht
    rcases List.mem_append.mp hdoc with h | h
    · rw [List.map_append]
      exact List.mem_append.mpr (Or.inl (holdtar doc h t ht))
    · have hdd : doc = d := by simpa using h
      subst hdd
      exact hdtar t ht
  have htarOf : ∀ (docs2 : List CraftDocument),
      (∀ doc ∈ docs2, doc.title ≠ "") →
      ∀ t ∈ docs2.map CraftDocument.id,
        Parser.resolveTarget (Parser.buildBlockToDocumentMap docs2 blocksMap) t = t →
      ∃ dd ∈ docs2,
        Parser.resolveTarget (Parser.buildBlockToDocumentMap docs2 blocksMap) t = dd.id ∧
        nodeTriple (Parser.targetNodeFor docs2
          (Parser.resolveTarget (Parser.buildBlockToDocumentMap docs2 blocksMap) t))
          = (dd.id, NodeType.document, dd.title) := by
    intro docs2 htit t htid hres
    rw [hres]
    have hfindsome : (docs2.find? (fun d2 => d2.id == t)).isSome = true := by
      rw [List.find?_isSome]
      rcases List.mem_map.mp htid with ⟨dt, hdt, hdtid⟩
      exact ⟨dt, hdt, by simp [hdtid]⟩
    rcases Option.isSome_iff_exists.mp hfindsome with ⟨dt, hdt⟩
    have hdtmem := List.mem_of_find?_eq_some hdt
    have hdtid : dt.id = t := by simpa using List.find?_some hdt
    refine ⟨dt, hdtmem, hdtid.symm, ?_⟩
    have htrip : nodeTriple (Parser.targetNodeFor docs2 t)
        = (t, NodeType.document, dt.title) := by
      simp only [Parser.targetNodeFor]
      rw [hdt]
      simp [nodeTriple, jsOr, htit dt hdtmem]
    rw [htrip, hdtid]
  have htarFull : ∀ doc ∈ docsOld ++ [d], ∀ t ∈ Parser.rawLinksOfDoc blocksMap doc.id,
      ∃ dd ∈ docsOld ++ [d],
        Parser.resolveTarget
          (Parser.buildBlockToDocumentMap (docsOld ++ [d]) blocksMap) t = dd.id ∧
        nodeTriple (Parser.targetNodeFor (docsOld ++ [d])
          (Parser.resolveTarget
            (Parser.buildBlockToDocumentMap (docsOld ++ [d]) blocksMap) t))
          = (dd.id, NodeType.document, dd.title) := by
    intro doc hdoc t ht
    exact htarOf (docsOld ++ [d]) htitles t (htidAll doc hdoc t ht)
      (hresFull t (htidAll doc hdoc t ht))
  have htarOld : ∀ doc ∈ docsOld, ∀ t ∈ Parser.rawLinksOfDoc blocksMap doc.id,
      ∃ dd ∈ docsOld,
        Parser.resolveTarget (Parser.buildBlockToDocumentMap docsOld blocksMap) t = dd.id ∧
        nodeTriple (Parser.targetNodeFor docsOld
          (Parser.resolveTarget (Parser.buildBlockToDocumentMap docsOld blocksMap) t))
          = (dd.id, NodeType.document, dd.title) := by
    intro doc hdoc t ht
    exact htarOf docsOld htitlesOld t (holdtar doc hdoc t ht)
      (hresOld t (holdtar doc hdoc t ht))
  have hfullNodes := Parser.mem_buildGraphData_node_triples (docsOld ++ [d]) blocksMap
    hnd htitles htarFull
  have holdNodes := Parser.mem_buildGraphData_node_triples docsOld blocksMap
    hndOld htitlesOld htarOld
  have holdIds := Parser.buildGraphData_node_ids_nodup docsOld blocksMap htitlesOld htarOld
  have hfullLinks : ∀ p : GraphLink,
      p ∈ (Parser.buildGraphData (docsOld ++ [d]) blocksMap).links ↔
        ∃ doc ∈ docsOld ++ [d], doc.id = p.source ∧
          p.target ∈ Parser.rawLinksOfDoc blocksMap doc.id ∧ p.source ≠ p.target := by
    intro p
    rw [Parser.mem_buildGraphData_links]
    constructor
    · rintro ⟨doc, hdoc, hsrc, ⟨t, ht, hres⟩, hne⟩
      have hid : Parser.resolveTarget
          (Parser.buildBlockToDocumentMap (docsOld ++ [d]) blocksMap) t = t :=
        hresFull t (htidAll doc hdoc t ht)
      rw [hid] at hres
      exact ⟨doc, hdoc, hsrc, hres ▸ ht, hne⟩
    · rintro ⟨doc, hdoc, hsrc, ht, hne⟩
      exact ⟨doc, hdoc, hsrc,
        ⟨p.target, ht, hresFull p.target (htidAll doc hdoc p.target ht)⟩, hne⟩
  have holdLinks : ∀ p : GraphLink,
      p ∈ (Parser.buildGraphData docsOld blocksMap).links ↔
        ∃ doc ∈ docsOld, doc.id = p.source ∧
          p.target ∈ Parser.rawLinksOfDoc blocksMap doc.id ∧ p.source ≠ p.target := by
    intro p
    rw [Parser.mem_buildGraphData_links]
    constructor
    · rintro ⟨doc, hdoc, hsrc, ⟨t, ht, hres⟩, hne⟩
      have hid : Parser.resolveTarget
          (Parser.buildBlockToDocumentMap docsOld blocksMap) t = t :=
        hresOld t (holdtar doc hdoc t ht)
      rw [hid] at hres
      exact ⟨doc, hdoc, hsrc, hres ▸ ht, hne⟩
    · rintro ⟨doc, hdoc, hsrc, ht, hne⟩
      exact ⟨doc, hdoc, hsrc,
        ⟨p.target, ht, hresOld p.target (holdtar doc hdoc p.target ht)⟩, hne⟩
  have hcachedTriple : ∀ n ∈ (Parser.buildGraphData docsOld blocksMap).nodes,
      ∃ doc ∈ docsOld, n.id = doc.id ∧ n.type = NodeType.document ∧
        n.title = doc.title := by
    intro n hn
    rcases (holdNodes (nodeTriple n)).mp (List.mem_map_of_mem nodeTriple hn)
      with ⟨doc, hdoc, htr⟩
    exact ⟨doc, hdoc,
      congrArg (fun q : String × NodeType × String => q.1) htr,
      congrArg (fun q : String × NodeType × String => q.2.1) htr,
      congrArg (fun q : String × NodeType × String => q.2.2) htr⟩
  have hndOldMeta :
      ((docsOld.map Fetcher.toDocumentMetadata).map DocumentMetadata.id).Nodup := by
    rw [List.map_map]
    exact hndOld
  have hAM : Fetcher.addedModifiedOf (docsOld.map Fetcher.toDocumentMetadata)
      (docsOld ++ [d]) = ([d.id], []) := by
    unfold Fetcher.addedModifiedOf
    rw [List.foldl_append]
    rw [foldl_id_of_mem _ docsOld ([], [])
      (fun s doc hdoc => Fetcher.classifyStep_self_unchanged docsOld hndOldMeta s doc hdoc)]
    have hnone : alGet (Fetcher.cachedDocMapOf (docsOld.map Fetcher.toDocumentMetadata))
        d.id = none := by
      refine alGet_buildMap_eq_none DocumentMetadata.id (fun x => x)
        (docsOld.map Fetcher.toDocumentMetadata) d.id ?_
      intro md hmd
      rcases List.mem_map.mp hmd with ⟨doc, hdoc, hmdoc⟩
      intro he
      refine hdnotold ?_
      rw [← he, ← hmdoc]
      exact List.mem_map_of_mem CraftDocument.id hdoc
    simp [Fetcher.classifyStep, hnone]
  have hdel : Fetcher.deletedOf (docsOld.map Fetcher.toDocumentMetadata)
      (docsOld ++ [d]) = [] := by
    unfold Fetcher.deletedOf
    refine foldl_id_of_mem _ _ [] ?_
    intro acc md hmd
    rcases List.mem_map.mp hmd with ⟨doc, hdoc, hmdoc⟩
    have hhas : alHas (Fetcher.currentDocMapOf (docsOld ++ [d])) md.id = true := by
      refine (alHas_foldl_alSet CraftDocument.id (fun x => x) (docsOld ++ [d]) [] _).mpr ?_
      refine Or.inr ⟨doc, List.mem_append.mpr (Or.inl hdoc), ?_⟩
      rw [← hmdoc]
      rfl
    simp [hhas]
  have hch : (Fetcher.addedModifiedOf (docsOld.map Fetcher.toDocumentMetadata)
      (docsOld ++ [d])).1.length > 0 ∨
      (Fetcher.addedModifiedOf (docsOld.map Fetcher.toDocumentMetadata)
        (docsOld ++ [d])).2.length > 0 ∨
      (Fetcher.deletedOf (docsOld.map Fetcher.toDocumentMetadata)
        (docsOld ++ [d])).length > 0 := by
    refine Or.inl ?_
    rw [hAM]
    simp
  have hnm0 : (Parser.buildGraphData docsOld blocksMap).nodes.foldl
      (fun m n => alSet m n.id n) []
      = (Parser.buildGraphData docsOld blocksMap).nodes.map (fun n => (n.id, n)) := by
    rw [foldl_alSet_key_fresh GraphNode.id (fun n => n) _ [] holdIds (fun b _ => rfl)]
    simp
  have hgetd : alGet ((Parser.buildGraphData docsOld blocksMap).nodes.foldl
      (fun m n => alSet m n.id n) []) d.id = none := by
    refine alGet_buildMap_eq_none GraphNode.id (fun n => n) _ d.id ?_
    intro n hn he
    rcases hcachedTriple n hn with ⟨doc, hdocm, hid, _, _⟩
    exact hdnotold ((hid.symm.trans he) ▸ List.mem_map_of_mem CraftDocument.id hdocm)
  have hhasd : alHas ((Parser.buildGraphData docsOld blocksMap).nodes.foldl
      (fun m n => alSet m n.id n) []) d.id = false := by
    rw [show alHas ((Parser.buildGraphData docsOld blocksMap).nodes.foldl
        (fun m n => alSet m n.id n) []) d.id
      = (alGet ((Parser.buildGraphData docsOld blocksMap).nodes.foldl
        (fun m n => alSet m n.id n) []) d.id).isSome from rfl, hgetd]
    rfl
  have hseedeq : Fetcher.seedBlockToDocMap ((Parser.buildGraphData docsOld blocksMap).nodes.foldl
      (fun m n => alSet m n.id n) [])
      = ((Parser.buildGraphData docsOld blocksMap).nodes.map (fun n => (n.id, n))).foldl
        (fun m p => alSet m p.1 p.1) [] := by
    unfold Fetcher.seedBlockToDocMap
    rw [hnm0]
    refine foldl_congr_step
      (fun (m : List (String × String)) (p : String × GraphNode) =>
        if p.2.type = NodeType.document then alSet m p.1 p.1 else m)
      (fun (m : List (String × String)) (p : String × GraphNode) =>
        alSet m p.1 p.1) _ [] ?_
    intro s p hp
    rcases List.mem_map.mp hp with ⟨n, hn, hpn⟩
    have htype : p.2.type = NodeType.document := by
      rcases hcachedTriple n hn with ⟨doc, _, _, ht, _⟩
      rw [← hpn]
      exact ht
    dsimp only
    rw [if_pos htype]
  have hresInc : ∀ t ∈ (docsOld ++ [d]).map CraftDocument.id,
      Parser.resolveTarget (Fetcher.addBlocksToMap d.id ((alGet blocksMap d.id).getD [])
        (Fetcher.seedBlockToDocMap ((Parser.buildGraphData docsOld blocksMap).nodes.foldl
          (fun m n => alSet m n.id n) []))) t = t := by
    intro t ht
    have hget : alGet (Fetcher.addBlocksToMap d.id ((alGet blocksMap d.id).getD [])
        (Fetcher.seedBlockToDocMap ((Parser.buildGraphData docsOld blocksMap).nodes.foldl
          (fun m n => alSet m n.id n) []))) t
        = alGet (Fetcher.seedBlockToDocMap
            ((Parser.buildGraphData docsOld blocksMap).nodes.foldl
              (fun m n => alSet m n.id n) [])) t := by
      refine Fetcher.alGet_addBlocksToMap_of_not_key d.id t _ _ ?_
      intro bid hbid he
      exact hbids d (by simp) bid hbid (he ▸ ht)
    unfold Parser.resolveTarget
    rw [hget, hseedeq]
    have hkeys : ((((Parser.buildGraphData docsOld blocksMap).nodes.map
        (fun n => (n.id, n))).map Prod.fst)).Nodup := by
      rw [List.map_map]
      exact holdIds
    rcases List.mem_map.mp ht with ⟨dt, hdt, hdtid⟩
    rcases List.mem_append.mp hdt with hold | hdd
    · have htrip : (dt.id, NodeType.document, dt.title)
          ∈ (Parser.buildGraphData docsOld blocksMap).nodes.map nodeTriple :=
        (holdNodes _).mpr ⟨dt, hold, rfl⟩
      rcases List.mem_map.mp htrip with ⟨n, hn, htr⟩
      have hnid : n.id = t :=
        (congrArg (fun q : String × NodeType × String => q.1) htr).trans hdtid
      have hsome := alGet_buildMap Prod.fst Prod.fst
        ((Parser.buildGraphData docsOld blocksMap).nodes.map (fun n2 => (n2.id, n2))) []
        hkeys (List.mem_map_of_mem (fun n2 => (n2.id, n2)) hn)
      rw [show ((fun n2 : GraphNode => (n2.id, n2)) n).1 = n.id from rfl] at hsome
      rw [hnid] at hsome
      rw [hsome]
      by_cases he : t = "" <;> simp [jsOr, he]
    · have hdd2 : dt = d := by simpa using hdd
      have htd : t = d.id := by rw [← hdtid, hdd2]
      have hnone2 : alGet (((Parser.buildGraphData docsOld blocksMap).nodes.map
          (fun n2 => (n2.id, n2))).foldl (fun m p => alSet m p.1 p.1) []) t = none := by
        refine alGet_buildMap_eq_none Prod.fst Prod.fst _ t ?_
        intro p hp
        rcases List.mem_map.mp hp with ⟨n, hn, hpn⟩
        rcases hcachedTriple n hn with ⟨doc, hdocm, hid, _, _⟩
        intro he
        have hni : n.id = t := by
          rw [← hpn] at he
          exact he
        refine hdnotold ?_
        rw [show d.id = doc.id from (((hid.symm.trans hni).trans htd).symm)]
        exact List.mem_map_of_mem CraftDocument.id hdocm
      rw [hnone2]
      rfl
  have hcdmget : alGet (Fetcher.currentDocMapOf (docsOld ++ [d])) d.id = some d :=
    alGet_buildMap CraftDocument.id (fun x => x) (docsOld ++ [d]) [] hnd (by simp)
  have hfilter : (Parser.buildGraphData docsOld blocksMap).links.filter
      (fun l => !(l.source == d.id)) = (Parser.buildGraphData docsOld blocksMap).links := by
    refine List.filter_eq_self.mpr ?_
    intro l hl
    rcases (holdLinks l).mp hl with ⟨doc, hdoc, hsrc, _, _⟩
    simp only [Bool.not_eq_true', beq_eq_false_iff_ne, ne_eq]
    intro he
    exact hdnotold ((hsrc.trans he) ▸ List.mem_map_of_mem CraftDocument.id hdoc)
  have hreseq : Parser.extractLinksFromBlockList ((alGet blocksMap d.id).getD [])
      = Parser.rawLinksOfDoc blocksMap d.id := by
    unfold Parser.rawLinksOfDoc
    cases alGet blocksMap d.id with
    | none => rfl
    | some blocks => rfl
  have hupsert : Fetcher.upsertDocNode d d.id
      ((Parser.buildGraphData docsOld blocksMap).nodes.foldl (fun m n => alSet m n.id n) [])
      = ((Parser.buildGraphData docsOld blocksMap).nodes.foldl
          (fun m n => alSet m n.id n) [])
        ++ [(d.id, ({ id := d.id, title := jsOr (some d.title) "Untitled",
                      type := NodeType.document, linkCount := 0,
                      clickableLink := d.clickableLink } : GraphNode))] := by
    unfold Fetcher.upsertDocNode
    rw [if_neg (by simp [hhasd])]
    exact alSet_append_of_not_has _ hhasd
  have hhastgt : ∀ t ∈ Parser.rawLinksOfDoc blocksMap d.id,
      alHas (Fetcher.upsertDocNode d d.id
        ((Parser.buildGraphData docsOld blocksMap).nodes.foldl
          (fun m n => alSet m n.id n) [])) t = true := by
    intro t ht
    have htid := hdtar t ht
    rw [hupsert, alHas_append_or]
    rcases List.mem_map.mp htid with ⟨dt, hdt, hdtid⟩
    rcases List.mem_append.mp hdt with hold | hdd
    · have htrip : (dt.id, NodeType.document, dt.title)
          ∈ (Parser.buildGraphData docsOld blocksMap).nodes.map nodeTriple :=
        (holdNodes _).mpr ⟨dt, hold, rfl⟩
      rcases List.mem_map.mp htrip with ⟨n, hn, htr⟩
      have hnid : n.id = t :=
        (congrArg (fun q : String × NodeType × String => q.1) htr).trans hdtid
      have hsome := alGet_buildMap GraphNode.id (fun n2 => n2)
        (Parser.buildGraphData docsOld blocksMap).nodes [] holdIds hn
      rw [hnid] at hsome
      have hhas1 : alHas ((Parser.buildGraphData docsOld blocksMap).nodes.foldl
          (fun m n => alSet m n.id n) []) t = true := by
        rw [show alHas ((Parser.buildGraphData docsOld blocksMap).nodes.foldl
            (fun m n => alSet m n.id n) []) t
          = (alGet ((Parser.buildGraphData docsOld blocksMap).nodes.foldl
              (fun m n => alSet m n.id n) []) t).isSome from rfl, hsome]
        rfl
      rw [hhas1]
      rfl
    · have hdd2 : dt = d := by simpa using hdd
      have htd : t = d.id := by rw [← hdtid, hdd2]
      rw [htd, hhasd]
      simp [alHas, alGet]
  have hproc : Fetcher.processDoc (docsOld ++ [d])
      (Fetcher.currentDocMapOf (docsOld ++ [d]))
      (fun i => Except.ok ((alGet blocksMap i).getD []))
      { blockToDocMap := Fetcher.seedBlockToDocMap
          ((Parser.buildGraphData docsOld blocksMap).nodes.foldl
            (fun m n => alSet m n.id n) [])
        nodesMap := (Parser.buildGraphData docsOld blocksMap).nodes.foldl
          (fun m n => alSet m n.id n) []
        linksArray := (Parser.buildGraphData docsOld blocksMap).links } d.id
      = { blockToDocMap := Fetcher.addBlocksToMap d.id ((alGet blocksMap d.id).getD [])
            (Fetcher.seedBlockToDocMap
              ((Parser.buildGraphData docsOld blocksMap).nodes.foldl
                (fun m n => alSet m n.id n) []))
          nodesMap := Fetcher.upsertDocNode d d.id
            ((Parser.buildGraphData docsOld blocksMap).nodes.foldl
              (fun m n => alSet m n.id n) [])
          linksArray := (Parser.buildGraphData docsOld blocksMap).links
            ++ ((Parser.rawLinksOfDoc blocksMap d.id).filter
                (fun t => !(d.id == t))).map (fun t => (⟨d.id, t⟩ : GraphLink)) } := by
    unfold Fetcher.processDoc
    rw [hcdmget]
    dsimp only
    rw [Fetcher.nested_extract_foldl]
    rw [hreseq]
    rw [Fetcher.incTargets_fold_closed (docsOld ++ [d])
      (Fetcher.addBlocksToMap d.id ((alGet blocksMap d.id).getD [])
        (Fetcher.seedBlockToDocMap ((Parser.buildGraphData docsOld blocksMap).nodes.foldl
          (fun m n => alSet m n.id n) []))) d.id
      (Parser.rawLinksOfDoc blocksMap d.id)
      (Fetcher.upsertDocNode d d.id
        ((Parser.buildGraphData docsOld blocksMap).nodes.foldl
          (fun m n => alSet m n.id n) []), ([] : List GraphLink))
      (fun t ht => hresInc t (hdtar t ht)) (fun t ht => hhastgt t ht)]
    rw [hfilter]
    rfl
  have hstfinal :
      (((Fetcher.addedModifiedOf (docsOld.map Fetcher.toDocumentMetadata)
          (docsOld ++ [d])).1
        ++ (Fetcher.addedModifiedOf (docsOld.map Fetcher.toDocumentMetadata)
          (docsOld ++ [d])).2).foldl
        (Fetcher.processDoc (docsOld ++ [d]) (Fetcher.currentDocMapOf (docsOld ++ [d]))
          (fun i => Except.ok ((alGet blocksMap i).getD [])))
        { blockToDocMap := Fetcher.seedBlockToDocMap
            (Fetcher.applyDeletions (Parser.buildGraphData docsOld blocksMap)
              (Fetcher.deletedOf (docsOld.map Fetcher.toDocumentMetadata)
                (docsOld ++ [d]))).1
          nodesMap := (Fetcher.applyDeletions (Parser.buildGraphData docsOld blocksMap)
            (Fetcher.deletedOf (docsOld.map Fetcher.toDocumentMetadata)
              (docsOld ++ [d]))).1
          linksArray := (Fetcher.applyDeletions (Parser.buildGraphData docsOld blocksMap)
            (Fetcher.deletedOf (docsOld.map Fetcher.toDocumentMetadata)
              (docsOld ++ [d]))).2 })
      = { blockToDocMap := Fetcher.addBlocksToMap d.id ((alGet blocksMap d.id).getD [])
            (Fetcher.seedBlockToDocMap
              ((Parser.buildGraphData docsOld blocksMap).nodes.foldl
                (fun m n => alSet m n.id n) []))
          nodesMap := Fetcher.upsertDocNode d d.id
            ((Parser.buildGraphData docsOld blocksMap).nodes.foldl
              (fun m n => alSet m n.id n) [])
          linksArray := (Parser.buildGraphData docsOld blocksMap).links
            ++ ((Parser.rawLinksOfDoc blocksMap d.id).filter
                (fun t => !(d.id == t))).map (fun t => (⟨d.id, t⟩ : GraphLink)) } := by
    rw [hAM, hdel]
    dsimp only
    rw [show Fetcher.applyDeletions (Parser.buildGraphData docsOld blocksMap) []
        = ((Parser.buildGraphData docsOld blocksMap).nodes.foldl
            (fun m n => alSet m n.id n) [],
          (Parser.buildGraphData docsOld blocksMap).links) from rfl]
    dsimp only
    rw [show ([d.id] ++ ([] : List String)) = [d.id] from rfl]
    rw [List.foldl_cons, List.foldl_nil]
    exact hproc
  have hGD : (Fetcher.buildGraphIncremental (docsOld.map Fetcher.toDocumentMetadata)
      (Parser.buildGraphData docsOld blocksMap) (docsOld ++ [d])
      (fun i => Except.ok ((alGet blocksMap i).getD []))).graphData
      = Fetcher.finalizeIncrementalGraph
          (Fetcher.upsertDocNode d d.id
            ((Parser.buildGraphData docsOld blocksMap).nodes.foldl
              (fun m n => alSet m n.id n) []))
          ((Parser.buildGraphData docsOld blocksMap).links
            ++ ((Parser.rawLinksOfDoc blocksMap d.id).filter
                (fun t => !(d.id == t))).map (fun t => (⟨d.id, t⟩ : GraphLink))) := by
    unfold Fetcher.buildGraphIncremental
    rw [if_pos hch]
    dsimp only
    rw [hstfinal]
  have hcachedvals : (alValues ((Parser.buildGraphData docsOld blocksMap).nodes.foldl
      (fun m n => alSet m n.id n) [])).map nodeTriple
      = (Parser.buildGraphData docsOld blocksMap).nodes.map nodeTriple := by
    rw [hnm0]
    unfold alValues
    rw [List.map_map, List.map_map]
    rfl
  have hcachedids : (alValues ((Parser.buildGraphData docsOld blocksMap).nodes.foldl
      (fun m n => alSet m n.id n) [])).map GraphNode.id
      = (Parser.buildGraphData docsOld blocksMap).nodes.map GraphNode.id := by
    rw [hnm0]
    unfold alValues
    rw [List.map_map, List.map_map]
    rfl
  have hdnotcached : d.id ∉ (Parser.buildGraphData docsOld blocksMap).nodes.map
      GraphNode.id := by
    intro hmem
    rcases List.mem_map.mp hmem with ⟨n, hn, hnid⟩
    rcases hcachedTriple n hn with ⟨doc, hdocm, hid, _, _⟩
    exact hdnotold ((hid.symm.trans hnid) ▸ List.mem_map_of_mem CraftDocument.id hdocm)
  have hupvalsids : ((alValues (Fetcher.upsertDocNode d d.id
      ((Parser.buildGraphData docsOld blocksMap).nodes.foldl
        (fun m n => alSet m n.id n) []))).map GraphNode.id).Nodup := by
    rw [hupsert, alValues_append, List.map_append, hcachedids]
    rw [List.nodup_append]
    refine ⟨holdIds, ?_, ?_⟩
    · simp [alValues]
    · intro a ha hb
      have hab : a = d.id := by simpa [alValues] using hb
      exact hdnotcached (hab ▸ ha)
  have hincTrip : (Fetcher.buildGraphIncremental (docsOld.map Fetcher.toDocumentMetadata)
      (Parser.buildGraphData docsOld blocksMap) (docsOld ++ [d])
      (fun i => Except.ok ((alGet blocksMap i).getD []))).graphData.nodes.map nodeTriple
      = (Parser.buildGraphData docsOld blocksMap).nodes.map nodeTriple
        ++ [(d.id, NodeType.document, d.title)] := by
    rw [hGD]
    rw [Fetcher.finalize_nodes_triples _ _ hupvalsids]
    rw [hupsert, alValues_append, List.map_append, hcachedvals]
    congr 1
    simp [alValues, nodeTriple, jsOr, htitles d (by simp)]
  have hincLinks : (Fetcher.buildGraphIncremental (docsOld.map Fetcher.toDocumentMetadata)
      (Parser.buildGraphData docsOld blocksMap) (docsOld ++ [d])
      (fun i => Except.ok ((alGet blocksMap i).getD []))).graphData.links
      = (Parser.buildGraphData docsOld blocksMap).links
        ++ ((Parser.rawLinksOfDoc blocksMap d.id).filter
            (fun t => !(d.id == t))).map (fun t => (⟨d.id, t⟩ : GraphLink)) := by
    rw [hGD]
    rfl
  constructor
  · refine Finset.ext ?_
    intro x
    rw [List.mem_toFinset, List.mem_toFinset, hfullNodes x, hincTrip]
    rw [List.mem_append, List.mem_singleton]
    constructor
    · rintro ⟨doc, hdoc, hx⟩
      rcases List.mem_append.mp hdoc with h | h
      · exact Or.inl ((holdNodes x).mpr ⟨doc, h, hx⟩)
      · have hdd : doc = d := by simpa using h
        subst hdd
        exact Or.inr hx
    · rintro (hx | hx)
      · rcases (holdNodes x).mp hx with ⟨doc, hdoc, hx2⟩
        exact ⟨doc, List.mem_append.mpr (Or.inl hdoc), hx2⟩
      · exact ⟨d, List.mem_append.mpr (Or.inr (by simp)), hx⟩
  · refine Finset.ext ?_
    intro x
    rw [List.mem_toFinset, List.mem_toFinset, hincLinks]
    constructor
    · intro hx
      rcases List.mem_map.mp hx with ⟨p, hp, hpx⟩
      rcases (hfullLinks p).mp hp with ⟨doc, hdoc, hsrc, ht, hne⟩
      rcases List.mem_append.mp hdoc with h | h
      · have hpold := (holdLinks p).mpr ⟨doc, h, hsrc, ht, hne⟩
        exact List.mem_map.mpr ⟨p, List.mem_append.mpr (Or.inl hpold), hpx⟩
      · have hdd : doc = d := by simpa using h
        rw [hdd] at hsrc ht
        have hpnew : p ∈ ((Parser.rawLinksOfDoc blocksMap d.id).filter
            (fun t => !(d.id == t))).map (fun t => (⟨d.id, t⟩ : GraphLink)) := by
          refine List.mem_map.mpr ⟨p.target, ?_, ?_⟩
          · refine List.mem_filter.mpr ⟨ht, ?_⟩
            simp only [Bool.not_eq_true', beq_eq_false_iff_ne, ne_eq]
            intro he
            exact hne (hsrc.symm.trans he)
          · exact Parser.graphLink_ext hsrc rfl
        exact List.mem_map.mpr ⟨p, List.mem_append.mpr (Or.inr hpnew), hpx⟩
    · intro hx
      rcases List.mem_map.mp hx with ⟨p, hp, hpx⟩
      rcases List.mem_append.mp hp with h | h
      · rcases (holdLinks p).mp h with ⟨doc, hdoc, hsrc, ht, hne⟩
        exact List.mem_map.mpr ⟨p,
          (hfullLinks p).mpr ⟨doc, List.mem_append.mpr (Or.inl hdoc), hsrc, ht, hne⟩, hpx⟩
      · rcases List.mem_map.mp h with ⟨t, htf, hpt⟩
        have htraw := (List.mem_filter.mp htf).1
        have htne : ¬ d.id = t := by
          have := (List.mem_filter.mp htf).2
          simpa using this
        refine List.mem_map.mpr ⟨p, (hfullLinks p).mpr
          ⟨d, List.mem_append.mpr (Or.inr (by simp)), ?_, ?_, ?_⟩, hpx⟩
        · rw [← hpt]
        · rw [← hpt]
          exact htraw
        · rw [← hpt]
          exact htne

/-- **C1 counterexample (original wording).**  Corpus `[A]` where `A`'s
content references the unknown id `Z`: the full build materializes the
block node `Z` and the edge `(A, Z)`, while the incremental path (full
build of the empty corpus, then incremental add of `A`) drops both, so
neither the node sets nor the edge sets agree. -/
theorem c1_counterexample :
    ¬ ((((Parser.buildGraphData [Wit.dA] Wit.bmAZ).nodes.map nodeTriple).toFinset
        = ((Fetcher.buildGraphIncremental
            (([] : List CraftDocument).map Fetcher.toDocumentMetadata)
            (Parser.buildGraphData [] Wit.bmAZ) [Wit.dA]
            (fun i => Except.ok ((alGet Wit.bmAZ i).getD []))).graphData.nodes.map
              nodeTriple).toFinset)
      ∧ (((Parser.buildGraphData [Wit.dA] Wit.bmAZ).links.map linkPair).toFinset
        = ((Fetcher.buildGraphIncremental
            (([] : List CraftDocument).map Fetcher.toDocumentMetadata)
            (Parser.buildGraphData [] Wit.bmAZ) [Wit.dA]
            (fun i => Except.ok ((alGet Wit.bmAZ i).getD []))).graphData.links.map
              linkPair).toFinset)) := by
  decide

/-- **C1 witness.**  The corpus `[A, B]` where `B` references `A`: every
amendment hypothesis holds and the two assembly paths agree on node and
edge sets. -/
theorem c1_witness :
    ((([Wit.dA] ++ [Wit.dB]).map CraftDocument.id).Nodup ∧
      (∀ doc ∈ [Wit.dA] ++ [Wit.dB], doc.title ≠ "") ∧
      (∀ doc ∈ [Wit.dA], ∀ t ∈ Parser.rawLinksOfDoc Wit.bmBC doc.id,
        t ∈ [Wit.dA].map CraftDocument.id) ∧
      (∀ t ∈ Parser.rawLinksOfDoc Wit.bmBC Wit.dB.id,
        t ∈ ([Wit.dA] ++ [Wit.dB]).map CraftDocument.id) ∧
      (∀ doc ∈ [Wit.dA] ++ [Wit.dB],
        ∀ bid ∈ blockIdsList ((alGet Wit.bmBC doc.id).getD []),
          bid ∉ ([Wit.dA] ++ [Wit.dB]).map CraftDocument.id)) ∧
    (((Parser.buildGraphData ([Wit.dA] ++ [Wit.dB]) Wit.bmBC).nodes.map
        nodeTriple).toFinset
      = ((Fetcher.buildGraphIncremental ([Wit.dA].map Fetcher.toDocumentMetadata)
          (Parser.buildGraphData [Wit.dA] Wit.bmBC) ([Wit.dA] ++ [Wit.dB])
          (fun i => Except.ok ((alGet Wit.bmBC i).getD []))).graphData.nodes.map
            nodeTriple).toFinset
    ∧
    ((Parser.buildGraphData ([Wit.dA] ++ [Wit.dB]) Wit.bmBC).links.map
        linkPair).toFinset
      = ((Fetcher.buildGraphIncremental ([Wit.dA].map Fetcher.toDocumentMetadata)
          (Parser.buildGraphData [Wit.dA] Wit.bmBC) ([Wit.dA] ++ [Wit.dB])
          (fun i => Except.ok ((alGet Wit.bmBC i).getD []))).graphData.links.map
            linkPair).toFinset) :=
  ⟨⟨by decide, by decide, by decide, by decide, by decide⟩,
   c1_full_vs_incremental [Wit.dA] Wit.dB Wit.bmBC
     (by decide) (by decide) (by decide) (by decide) (by decide)⟩

end Graft
